import Mathlib

/-
Verification of the tree rank/unrank combinatorics module
(`python/tskit/combinatorics.py`).

The Python source is shallowly embedded below.  Conventions:
* Python `int` is modelled by `Int` where negative values can occur
  (`Combination.comb` and friends), and by `Nat` where the source only
  ever passes non-negative values.
* Python generators are modelled as the (finite) lists they yield.
* A Python `raise ValueError` is modelled by `Option.none`.
* Unbounded `while` loops and non-structural recursions are modelled with
  an explicit fuel argument that is provably sufficient; every definition
  is executable by kernel reduction.
-/

namespace Combination

/-- Python `Combination.comb(n, k)`: iterative multiplicative binomial
coefficient.  The source first replaces `k` by `min(k, n - k)`; when that
minimum is `< 1` the loop body never runs and the result stays `1`
(in particular for `k < 0` or `k > n`).  Python `//` is floor division,
`Int.fdiv` here. -/
def comb_loop (n kp : Int) (j : Nat) : Int :=
  (List.range j).foldl
    (fun (res : Int) (i : Nat) => (res * (n - kp + ((i : Int) + 1))).fdiv ((i : Int) + 1)) 1

def comb (n k : Int) : Int :=
  let kp := min k (n - k)
  comb_loop n kp kp.toNat

/-- Python `Combination.comb_with_replacement(n, k) = comb(n + k - 1, k)`. -/
def comb_with_replacement (n k : Int) : Int := comb (n + k - 1) k

/-- The source uses `comb` values as non-negative counts; this is the
`Nat` view used at those call sites. -/
def combN (n k : Nat) : Nat := (comb n k).toNat

/-- `comb_with_replacement` as a count; the universe size `n` can go
negative inside `with_replacement_unrank`, hence the `Int` argument. -/
def cwrN (n : Int) (k : Nat) : Nat := (comb_with_replacement n k).toNat

/-- Python `Combination.from_range_rank(combination, n)`, with fuel.
Each recursive step either shortens the list (`j == 0` branch) or
decrements every element (`j > 0` branch decrements all elements, and the
head is positive), so `sum + length` strictly decreases and the fuel used
by the wrapper below is sufficient on the domain the source uses
(index lists drawn from `[0, n)`). -/
def from_range_rank_fuel : Nat → List Nat → Nat → Nat
  | 0, _, _ => 0
  | fuel + 1, combination, n =>
    let k := combination.length
    if k = 0 ∨ k = n then 0
    else
      match combination with
      | [] => 0
      | j :: rest =>
        if j = 0 then from_range_rank_fuel fuel (rest.map (fun x => x - 1)) (n - 1)
        else combN (n - 1) (k - 1) +
          from_range_rank_fuel fuel ((j :: rest).map (fun x => x - 1)) (n - 1)

/-- Python `Combination.from_range_rank(combination, n)`: rank of a
strictly increasing list of indices drawn from `[0, n)`. -/
def from_range_rank (combination : List Nat) (n : Nat) : Nat :=
  from_range_rank_fuel (combination.sum + combination.length + 1) combination n

/-- Python `Combination.rank(combination, elements)`: map every chosen
element to its (first) index in `elements` and delegate.  (Python
`list.index` raises on a missing element; the source only ranks
sub-multisets of `elements`, where `List.indexOf` agrees with it.) -/
def rank {α : Type} [BEq α] (combination elements : List α) : Nat :=
  from_range_rank (combination.map (fun x => elements.indexOf x)) elements.length

/-- Python `Combination.unrank(rank, elements, k)`; `none` models the
`ValueError` raised when the element pool is exhausted. -/
def unrank {α : Type} (rank : Nat) (elements : List α) (k : Nat) : Option (List α) :=
  match k, elements with
  | 0, _ => some []
  | _ + 1, [] => none
  | k' + 1, x :: xs =>
    let nRest := combN ((x :: xs).length - 1) k'
    if rank < nRest then (unrank rank xs k').map (fun c => x :: c)
    else unrank (rank - nRest) xs (k' + 1)

/-- Python `Combination.with_replacement_rank(combination, n)`, with fuel
(the list shrinks by one at every recursive call, so `length + 1` fuel is
enough). -/
def wr_rank_fuel : Nat → List Nat → Int → Nat
  | 0, _, _ => 0
  | _ + 1, [], _ => 0
  | _ + 1, [j], _ => j
  | fuel + 1, j :: c2 :: rest, n =>
    if j = 0 then wr_rank_fuel fuel (c2 :: rest) n
    else
      let k := (j :: c2 :: rest).length
      (List.range j).foldl (fun (acc : Nat) (i : Nat) => acc + cwrN (n - (i : Int)) (k - 1)) 0 +
        wr_rank_fuel fuel ((c2 :: rest).map (fun x => x - j)) (n - (j : Int))

/-- Python `Combination.with_replacement_rank(combination, n)`: rank of a
non-decreasing list among combinations with replacement from `[0, n)`. -/
def with_replacement_rank (combination : List Nat) (n : Int) : Nat :=
  wr_rank_fuel (combination.length + 1) combination n

/-- The `while rank >= preceding` loop of `with_replacement_unrank`
(arguments: fuel, current rank, universe size `n`, `k - 1`, counter `i`),
with fuel.  Every iteration removes `preceding ≥ 1` from `rank`, so the
`rank + 1` fuel supplied by the wrapper is sufficient. -/
def wr_loop : Nat → Nat → Int → Nat → Nat → Nat × Nat
  | 0, rank, _, _, i => (i, rank)
  | fuel + 1, rank, n, km1, i =>
    let preceding := cwrN (n - (i : Int)) km1
    if rank < preceding then (i, rank)
    else wr_loop fuel (rank - preceding) n km1 (i + 1)

/-- Python `Combination.with_replacement_unrank(rank, n, k)`.  Note the
source contains no `raise`: this function is total.  The universe size
`n` can become negative through the recursion, hence `Int`. -/
def with_replacement_unrank (rank : Nat) (n : Int) (k : Nat) : List Nat :=
  match k with
  | 0 => []
  | k' + 1 =>
    let p := wr_loop (rank + 1) rank n k' 0
    let rest := with_replacement_unrank p.2 (n - (p.1 : Int)) k'
    p.1 :: rest.map (fun x => x + p.1)

end Combination

/-- Python `set_minus(arr, subset)`: keep the elements of `arr` that are
not in `subset`. -/
def set_minus {α : Type} [BEq α] (arr subset : List α) : List α :=
  arr.filter (fun x => !subset.contains x)

/-- Python `group_by`, processing the input with the current (reversed
is avoided: the current group is kept in order) group as accumulator. -/
def group_by_go {α : Type} (equal : α → α → Bool) : List α → List α → List (List α)
  | [], curr => if curr.isEmpty then [] else [curr]
  | x :: xs, curr =>
    if curr.isEmpty || equal x (curr.headD x) then group_by_go equal xs (curr ++ [x])
    else curr :: group_by_go equal xs [x]

/-- Python `group_by(values, equal)`: maximal runs of consecutive
elements equivalent (under `equal`) to the first element of the run. -/
def group_by {α : Type} (values : List α) (equal : α → α → Bool) : List (List α) :=
  group_by_go equal values []

/-- Python `group_partition(part)`: group equal consecutive parts. -/
def group_partition (part : List Nat) : List (List Nat) :=
  group_by part (fun x y => x == y)

/-- The inner `while x <= y` loop of `rule_asc`: it writes `x` and
shrinks `y` by `x` while `x ≤ y`, then writes `x + y`; this is the list
of cells it writes.  At every call site `x ≥ 1`, so `y` strictly
decreases and the `y + 1` fuel of the wrapper is sufficient. -/
def fill_fuel : Nat → Nat → Nat → List Nat
  | 0, x, y => [x + y]
  | fuel + 1, x, y => if x ≤ y then x :: fill_fuel fuel x (y - x) else [x + y]

/-- The cells written by one pass of the inner loop of `rule_asc`. -/
def fill (x y : Nat) : List Nat := fill_fuel (y + 1) x y

/-- One iteration of the outer `while k != 0` loop of `rule_asc`: with
the live prefix `a[0..k]` of the working array viewed as a list, the
body replaces the last two cells `a, b` by `fill (a+1) (b-1)`
(`x = a[k-1] + 1`, `y = a[k] - 1`). -/
def succ_asc : List Nat → List Nat
  | [] => []
  | [a] => [a]
  | [a, b] => fill (a + 1) (b - 1)
  | a :: b :: c :: rest => a :: succ_asc (b :: c :: rest)

/-- The outer loop of `rule_asc`: while the live prefix has `k ≠ 0`
(length `> 1`), transform it and yield it.  Fueled; the wrapper's
`2 ^ n` fuel is sufficient because the yielded compositions strictly
increase lexicographically. -/
def rule_asc_fuel : Nat → List Nat → List (List Nat)
  | 0, _ => []
  | fuel + 1, c =>
    if c.length ≤ 1 then []
    else
      let c2 := succ_asc c
      c2 :: rule_asc_fuel fuel c2

/-- Python `rule_asc(n)`: ascending compositions of `n` by the successor
algorithm.  The initial array state is `a[0] = 0, a[1] = n` with
`k = 1`, i.e. live prefix `[0, n]`. -/
def rule_asc (n : Nat) : List (List Nat) := rule_asc_fuel (2 ^ n) [0, n]

/-- Python `partitions(n)`: the ascending compositions of `n` with the
trailing one-part partition `[n]` cut off by `takewhile(len > 1)`;
nothing for `n = 0` (the source guards with `if n > 0`). -/
def partitions (n : Nat) : List (List Nat) :=
  if 0 < n then (rule_asc n).takeWhile (fun a => decide (1 < a.length)) else []

/-- Python `num_shapes(n)`, with fuel: `n` for `n ≤ 1`, otherwise the
sum over `partitions n` of `num_tree_pairings`.  Recursion is through
the parts of each partition, which are `≤ n - 1`, so the `n` fuel of
the wrapper is sufficient. -/
def num_shapes_fuel : Nat → Nat → Nat
  | 0, n => if n ≤ 1 then n else 0
  | fuel + 1, n =>
    if n ≤ 1 then n
    else ((partitions n).map (fun part =>
      ((group_partition part).map (fun g =>
        Combination.cwrN ((num_shapes_fuel fuel (g.headD 0) : Nat) : Int) g.length)).prod)).sum

/-- Python `num_shapes(n)`: the number of unlabelled tree shapes with
`n` leaves. -/
def num_shapes (n : Nat) : Nat := num_shapes_fuel n n

/-- Python `num_tree_pairings(part)`: the number of shapes assemblable
from a fixed leaf-count partition — the product over groups of equal
parts `k` (multiplicity `m`) of `comb_with_replacement(num_shapes k, m)`. -/
def num_tree_pairings (part : List Nat) : Nat :=
  ((group_partition part).map (fun g =>
    Combination.cwrN ((num_shapes (g.headD 0) : Nat) : Int) g.length)).prod


/-! ### The `RankTree` data type

A `RankTree` mirrors the Python object: the `__init__`-computed fields
`children`, `num_leaves`, `labels`, plus the two lazily-memoized rank
fields `_shape_rank` and `_label_rank` (which the source assigns at most
once; reading a rank is modelled as `memo.getD (compute ...)`, which is
observationally equal because the memoized value, when the source stores
one, is stored by construction and never changes). -/

inductive RankTree : Type where
  | mk : List RankTree → Nat → List (Option Nat) → Option Nat → Option Nat → RankTree

def RankTree.children : RankTree → List RankTree
  | .mk c _ _ _ _ => c

def RankTree.num_leaves : RankTree → Nat
  | .mk _ n _ _ _ => n

def RankTree.labels : RankTree → List (Option Nat)
  | .mk _ _ l _ _ => l

def RankTree.shape_memo : RankTree → Option Nat
  | .mk _ _ _ s _ => s

def RankTree.label_memo : RankTree → Option Nat
  | .mk _ _ _ _ l => l

/-- Models the assignment `t._shape_rank = r` the source performs right
after constructing `t` in `shape_unrank` and `label_unrank`. -/
def RankTree.with_shape_memo : RankTree → Nat → RankTree
  | .mk c n l _ ml, r => .mk c n l (some r) ml

/-- Models the assignment `t._label_rank = r` in `label_unrank`. -/
def RankTree.with_label_memo : RankTree → Nat → RankTree
  | .mk c n l ms _, r => .mk c n l ms (some r)

/-- The comparison `heapq.merge` effectively uses on labels.  Label
lists are either all-`none` (shape-only trees, where `heapq.merge`
falls back to its insertion-order tiebreak, i.e. keeps the left list
first) or all-`some` and disjoint; a `none`/`some` comparison never
happens in the source (Python would raise `TypeError`), so its value
here is arbitrary. -/
def merge_opt_le (a b : Option Nat) : Bool :=
  match a, b with
  | none, _ => true
  | some _, none => false
  | some x, some y => x ≤ y

/-- Stable two-way merge (left-biased on ties), fueled by the total
length. -/
def merge2_fuel : Nat → List (Option Nat) → List (Option Nat) → List (Option Nat)
  | 0, xs, ys => xs ++ ys
  | _ + 1, [], ys => ys
  | _ + 1, x :: xs, [] => x :: xs
  | fuel + 1, x :: xs, y :: ys =>
    if merge_opt_le x y then x :: merge2_fuel fuel xs (y :: ys)
    else y :: merge2_fuel fuel (x :: xs) ys

def merge2 (xs ys : List (Option Nat)) : List (Option Nat) :=
  merge2_fuel (xs.length + ys.length) xs ys

/-- Python `list(heapq.merge(*lists))`: k-way stable merge of sorted
lists, with ties resolved by list order. -/
def merge_labels (ls : List (List (Option Nat))) : List (Option Nat) :=
  ls.foldr merge2 []

/-- Python `RankTree.__init__(children, label)`: a leaf (no children)
has `num_leaves = 1` and `labels = [label]`; an internal node sums its
children's leaf counts and merges their sorted label lists.  Both memo
fields start unset. -/
def RankTree.init (children : List RankTree) (label : Option Nat) : RankTree :=
  if children.isEmpty then .mk children 1 [label] none none
  else .mk children ((children.map RankTree.num_leaves).sum)
    (merge_labels (children.map RankTree.labels)) none none

/-- A default tree used only for `headD` on lists the source indexes
with `[0]`; every such list is non-empty on the source's domain. -/
def dummy_tree : RankTree := RankTree.mk [] 1 [none] none none

def RankTree.is_leaf (t : RankTree) : Bool := t.children.isEmpty

/-- Python `min_label` (and the `label` property): `labels[0]`. -/
def RankTree.min_label (t : RankTree) : Option Nat := t.labels.headD none

def RankTree.label (t : RankTree) : Option Nat := t.labels.headD none

def RankTree.leaf_partition (t : RankTree) : List Nat :=
  t.children.map RankTree.num_leaves

/-- The per-group loop of `compute_shape_rank`, parameterized by the
function used for a child's `shape_rank()` (the fueled reader below). -/
def csr_loop (f : RankTree → Nat) (part : List Nat) :
    List (List RankTree) → Nat → Nat
  | [], _ => 0
  | g :: gs, idx =>
    let nextIdx := idx + g.length
    let k := (g.headD dummy_tree).num_leaves
    let gRank := Combination.with_replacement_rank (g.map f) ((num_shapes k : Nat) : Int)
    gRank * num_tree_pairings (part.drop nextIdx) + csr_loop f part gs nextIdx

/-- Python `compute_shape_rank`, fueled (the recursion through
`c.shape_rank()` descends to children, whose depth is bounded by the
leaf count). -/
def compute_shape_rank_fuel : Nat → RankTree → Nat
  | 0, _ => 0
  | fuel + 1, t =>
    (((partitions t.num_leaves).takeWhile
        (fun p => decide (p ≠ t.leaf_partition))).map num_tree_pairings).sum +
    csr_loop (fun c => c.shape_memo.getD (compute_shape_rank_fuel fuel c))
      t.leaf_partition
      (group_by t.children (fun c1 c2 => c1.num_leaves == c2.num_leaves)) 0

def RankTree.compute_shape_rank (t : RankTree) : Nat :=
  compute_shape_rank_fuel (t.num_leaves + 1) t

/-- Python `shape_rank()`: the memoized field if set, otherwise
`compute_shape_rank()`. -/
def RankTree.shape_rank (t : RankTree) : Nat :=
  t.shape_memo.getD t.compute_shape_rank

def RankTree.group_children_by_num_leaves (t : RankTree) : List (List RankTree) :=
  group_by t.children (fun c1 c2 => c1.num_leaves == c2.num_leaves)

def RankTree.group_children_by_shape (t : RankTree) : List (List RankTree) :=
  group_by t.children
    (fun c1 c2 => c1.num_leaves == c2.num_leaves && c1.shape_rank == c2.shape_rank)

/-- Python `num_assignments_in_group(g)`: product over the group's
trees of `comb(n - 1, k - 1)` with the label pool `n` shrinking by `k`
(the minimum label is pinned to the first tree). -/
def num_assignments_in_group_loop : List RankTree → Nat → Nat
  | [], _ => 1
  | t :: ts, n =>
    let k := t.num_leaves
    Combination.combN (n - 1) (k - 1) * num_assignments_in_group_loop ts (n - k)

def num_assignments_in_group (g : List RankTree) : Nat :=
  num_assignments_in_group_loop g ((g.map RankTree.num_leaves).sum)

/-- The body of `num_list_of_group_labellings`, parameterized by the
function used for a member's `num_labellings()`. -/
def nlgl_with (f : RankTree → Nat) : List (List RankTree) → Nat → Nat
  | [], _ => 1
  | g :: rest, remaining =>
    let k := (g.headD dummy_tree).num_leaves
    let x := g.length
    Combination.combN remaining (x * k) *
      (num_assignments_in_group g * (f (g.headD dummy_tree)) ^ x) *
      nlgl_with f rest (remaining - x * k)

/-- Python `RankTree.num_labellings()`, fueled: recursion descends into
the (grouped) children through `g[0].num_labellings()`. -/
def num_labellings_fuel : Nat → RankTree → Nat
  | 0, _ => 1
  | fuel + 1, t =>
    let groups := t.group_children_by_shape
    nlgl_with (fun c => num_labellings_fuel fuel c) groups
      ((groups.map (fun g => g.length * (g.headD dummy_tree).num_leaves)).sum)

def RankTree.num_labellings (t : RankTree) : Nat :=
  num_labellings_fuel (t.num_leaves + 1) t

/-- Python `num_group_labellings(g)`. -/
def num_group_labellings (g : List RankTree) : Nat :=
  num_assignments_in_group g * ((g.headD dummy_tree).num_labellings) ^ g.length

/-- Python `num_list_of_group_labellings(groups)`. -/
def num_list_of_group_labellings (groups : List (List RankTree)) : Nat :=
  nlgl_with RankTree.num_labellings groups
    ((groups.map (fun g => g.length * (g.headD dummy_tree).num_leaves)).sum)

/-- The per-tree loop of `group_rank`, parameterized by the function
used for a member's `label_rank()`.  Arguments after the member list:
the loop counter `i` and the shrinking `all_labels` pool. -/
def gr_loop (flabel : RankTree → Nat) (glen k n y : Nat) :
    List RankTree → Nat → List (Option Nat) → Nat
  | [], _, _ => 0
  | t :: ts, i, all_labels =>
    let u := t.labels
    let curr := glen - i
    let combRank := Combination.rank u all_labels
    let remaining := n - (i + 1) * k
    let numRestCombs := (List.range (curr - 1)).foldl
      (fun (acc : Nat) (j : Nat) =>
        acc * (Combination.comb ((remaining : Int) - (j : Int) * (k : Int) - 1)
          ((k : Int) - 1)).toNat) 1
    combRank * numRestCombs * y ^ curr + flabel t * numRestCombs * y ^ (curr - 1) +
      gr_loop flabel glen k n y ts (i + 1) (set_minus all_labels u)

/-- Python `group_rank(g)` with the member `label_rank()` supplied. -/
def group_rank_with (flabel : RankTree → Nat) (g : List RankTree) : Nat :=
  let k := (g.headD dummy_tree).num_leaves
  let n := g.length * k
  let y := (g.headD dummy_tree).num_labellings
  gr_loop flabel g.length k n y g 0 (merge_labels (g.map RankTree.labels))

/-- The per-group loop of `compute_label_rank`, parameterized by the
member `label_rank()` function. -/
def clr_loop (flabel : RankTree → Nat) :
    List (List RankTree) → List (Option Nat) → Nat
  | [], _ => 0
  | g :: rest, all_labels =>
    let gLabels := merge_labels (g.map RankTree.labels)
    let numRest := num_list_of_group_labellings rest
    Combination.rank gLabels all_labels * num_group_labellings g * numRest +
      group_rank_with flabel g * numRest +
      clr_loop flabel rest (set_minus all_labels gLabels)

/-- Python `compute_label_rank`, fueled as `compute_shape_rank`. -/
def compute_label_rank_fuel : Nat → RankTree → Nat
  | 0, _ => 0
  | fuel + 1, t =>
    clr_loop (fun c => c.label_memo.getD (compute_label_rank_fuel fuel c))
      t.group_children_by_shape t.labels

def RankTree.compute_label_rank (t : RankTree) : Nat :=
  compute_label_rank_fuel (t.num_leaves + 1) t

/-- Python `label_rank()`: memo field if set, else computed. -/
def RankTree.label_rank (t : RankTree) : Nat :=
  t.label_memo.getD t.compute_label_rank

/-- Python `group_rank(g)`. -/
def group_rank (g : List RankTree) : Nat :=
  group_rank_with RankTree.label_rank g

/-- Python `rank()`: the pair `(shape_rank(), label_rank())`. -/
def RankTree.rank (t : RankTree) : Nat × Nat := (t.shape_rank, t.label_rank)

/-- Python `canonical_order(c)`. -/
def RankTree.canonical_order (c : RankTree) : Nat × Nat × Option Nat :=
  (c.num_leaves, c.shape_rank, c.min_label)

/-- Python `<` on two optional labels as `is_canonical` exercises it:
both labels are `some` (labelled trees) or both `none` (shape-only
trees, where equal tuples simply compare not-greater); a mixed
comparison never happens in the source. -/
def opt_lt (a b : Option Nat) : Bool :=
  match a, b with
  | some x, some y => x < y
  | _, _ => false

/-- Python tuple comparison `canonical_order(c1) > canonical_order(c2)`. -/
def key_gt (k1 k2 : Nat × Nat × Option Nat) : Bool :=
  if k1.1 ≠ k2.1 then decide (k2.1 < k1.1)
  else if k1.2.1 ≠ k2.2.1 then decide (k2.2.1 < k1.2.1)
  else opt_lt k2.2.2 k1.2.2

/-- Python `is_canonical()`, fueled. -/
def is_canonical_fuel : Nat → RankTree → Bool
  | 0, _ => true
  | fuel + 1, t =>
    if t.is_leaf then true
    else
      (t.children.zip t.children.tail).all
        (fun p => !key_gt p.1.canonical_order p.2.canonical_order) &&
      t.children.all (fun c => is_canonical_fuel fuel c)

def RankTree.is_canonical (t : RankTree) : Bool :=
  is_canonical_fuel (t.num_leaves + 1) t

/-- Python `is_symmetrical()`: all children share one leaf count and
one shape rank (`len(set(..)) == 1` is modelled with `dedup`). -/
def RankTree.is_symmetrical (t : RankTree) : Bool :=
  if t.is_leaf then true
  else
    (t.leaf_partition.dedup.length == 1) &&
    ((t.children.map RankTree.shape_rank).dedup.length == 1)

/-- Python `__eq__`, fueled: leaves compare by label, internal nodes by
child count and recursive equality of the zipped children. -/
def tree_eq_fuel : Nat → RankTree → RankTree → Bool
  | 0, _, _ => true
  | fuel + 1, t1, t2 =>
    if t1.is_leaf && t2.is_leaf then t1.label == t2.label
    else if t1.children.length ≠ t2.children.length then false
    else (t1.children.zip t2.children).all (fun p => tree_eq_fuel fuel p.1 p.2)

def tree_eq (t1 t2 : RankTree) : Bool :=
  tree_eq_fuel (t1.num_leaves + 1) t1 t2

/-- Python `shape_equal`, fueled. -/
def shape_eq_fuel : Nat → RankTree → RankTree → Bool
  | 0, _, _ => true
  | fuel + 1, t1, t2 =>
    if t1.is_leaf && t2.is_leaf then true
    else if t1.children.length ≠ t2.children.length then false
    else (t1.children.zip t2.children).all (fun p => shape_eq_fuel fuel p.1 p.2)

def shape_eq (t1 t2 : RankTree) : Bool :=
  shape_eq_fuel (t1.num_leaves + 1) t1 t2

/-! ### Unranking -/

/-- The partition-walk loop of `children_shape_ranks`: subtract
`num_tree_pairings` until a partition owns the residual rank. -/
def csr_walk : List (List Nat) → Nat → Option (List Nat × Nat)
  | [], _ => none
  | p :: ps, rank =>
    let m := num_tree_pairings p
    if rank < m then some (p, rank) else csr_walk ps (rank - m)

/-- The per-group decode loop of `children_shape_ranks` (tracks the
`next_child` index and the residual rank). -/
def csr_decode_loop (part : List Nat) : List (List Nat) → Nat → Nat → List Nat
  | [], _, _ => []
  | g :: gs, idx, rank =>
    let nextIdx := idx + g.length
    let k := g.headD 0
    let restP := num_tree_pairings (part.drop nextIdx)
    Combination.with_replacement_unrank (rank / restP) ((num_shapes k : Nat) : Int) g.length ++
      csr_decode_loop part gs nextIdx (rank % restP)

/-- Python `children_shape_ranks(rank, n)`.  The `for ... else` of the
source raises only when the walk exhausts all partitions *and* `n ≠ 1`;
for `n = 1` it falls through with the initial `part = []` (so any rank
is accepted there). -/
def children_shape_ranks (rank : Nat) (n : Nat) : Option (List Nat × List Nat) :=
  match csr_walk (partitions n) rank with
  | some (part, r) => some (part, csr_decode_loop part (group_partition part) 0 r)
  | none =>
    if n ≠ 1 then none
    else some ([], csr_decode_loop [] (group_partition []) 0 rank)

/-- Python `RankTree.shape_unrank(shape_rank, n)`, fueled (the parts of
a partition of `n` are `< n`). -/
def shape_unrank_fuel : Nat → Nat → Nat → Option RankTree
  | 0, _, _ => none
  | fuel + 1, shape_rank, n => do
    let pr ← children_shape_ranks shape_rank n
    let children ← (pr.2.zip pr.1).mapM (fun rk => shape_unrank_fuel fuel rk.1 rk.2)
    pure ((RankTree.init children none).with_shape_memo shape_rank)

def RankTree.shape_unrank (shape_rank n : Nat) : Option RankTree :=
  shape_unrank_fuel (n + 1) shape_rank n

/-- Python `num_labellings(shape_rk, n)` (module-level). -/
def num_labellings (shape_rk n : Nat) : Option Nat :=
  (RankTree.shape_unrank shape_rk n).map RankTree.num_labellings

/-- Python `group_label_ranks(rank, child_group, labels)`: assign a
label subset and a label rank to each tree of one same-shape group
(the first remaining label is pinned to the current tree). -/
def group_label_ranks : Nat → List RankTree → List Nat → Option (List (List Nat) × List Nat)
  | _, [], _ => some ([], [])
  | rank, t :: ts, labels => do
    let k := t.num_leaves
    let numT := t.num_labellings
    let numRest := num_assignments_in_group ts * numT ^ ts.length
    let per := numT * numRest
    let rest ← Combination.unrank (rank / per) labels.tail (k - 1)
    let tLabels := labels.headD 0 :: rest
    let more ← group_label_ranks (rank % numRest) ts (set_minus labels tLabels)
    pure (tLabels :: more.1, (rank % per) / numRest :: more.2)

/-- Python `children_label_ranks(child_groups, rank, labels)`. -/
def children_label_ranks : List (List RankTree) → Nat → List Nat →
    Option (List (List Nat) × List Nat)
  | [], _, _ => some ([], [])
  | g :: rest, rank, labels => do
    let k := (g.headD dummy_tree).num_leaves
    let gNum := k * g.length
    let numG := num_group_labellings g
    let numRest := num_list_of_group_labellings rest
    let per := numG * numRest
    let gLabels ← Combination.unrank (rank / per) labels gNum
    let gDecoded ← group_label_ranks ((rank % per) / numRest) g gLabels
    let more ← children_label_ranks rest (rank % numRest) (set_minus labels gLabels)
    pure (gDecoded.1 ++ more.1, gDecoded.2 ++ more.2)

/-- Python `RankTree.label_unrank(self, label_rank, labels)`, fueled.
The produced tree records the source's memo assignments
(`t._shape_rank = self.shape_rank()`, `t._label_rank = label_rank`);
the leaf branch returns early without setting them. -/
def label_unrank_fuel : Nat → RankTree → Nat → List Nat → Option RankTree
  | 0, _, _, _ => none
  | fuel + 1, t, label_rank, labels =>
    if t.is_leaf then
      if label_rank ≠ 0 then none
      else some (RankTree.init [] (some (labels.headD 0)))
    else do
      let decoded ← children_label_ranks t.group_children_by_shape label_rank labels
      let labelled ← (t.children.zip (decoded.2.zip decoded.1)).mapM
        (fun p => label_unrank_fuel fuel p.1 p.2.1 p.2.2)
      pure (((RankTree.init labelled none).with_shape_memo t.shape_rank).with_label_memo
        label_rank)

/-- `label_unrank` with an explicit label pool. -/
def RankTree.label_unrank_with (t : RankTree) (label_rank : Nat) (labels : List Nat) :
    Option RankTree :=
  label_unrank_fuel (t.num_leaves + 1) t label_rank labels

/-- Python `label_unrank(self, label_rank)` with the default pool
`labels = list(range(self.num_leaves))`. -/
def RankTree.label_unrank (t : RankTree) (label_rank : Nat) : Option RankTree :=
  t.label_unrank_with label_rank (List.range t.num_leaves)

/-- Python `RankTree.unrank(rank, num_leaves)`: validate both ranks
non-negative, shape-unrank, then label-unrank. -/
def RankTree.unrank (rank : Int × Int) (num_leaves : Nat) : Option RankTree :=
  if rank.1 < 0 ∨ rank.2 < 0 then none
  else do
    let unlabelled ← RankTree.shape_unrank rank.1.toNat num_leaves
    unlabelled.label_unrank rank.2.toNat

/-! ### Arithmetic facts about `comb` -/

namespace Combination

theorem comb_loop_zero (n kp : Int) : comb_loop n kp 0 = 1 := rfl

theorem comb_loop_succ (n kp : Int) (j : Nat) :
    comb_loop n kp (j + 1) =
      ((comb_loop n kp j) * (n - kp + ((j : Int) + 1))).fdiv ((j : Int) + 1) := by
  unfold comb_loop
  rw [List.range_succ, List.foldl_append]
  simp only [List.foldl_cons, List.foldl_nil]

/-- The multiplicative loop computes binomial coefficients exactly:
after `j` steps the accumulator holds `choose (m + j) j` where
`m = n - kp ≥ kp ≥ 0`. -/
theorem comb_loop_eq_choose (n kp : Int) (hkp : 0 ≤ kp) (hm : kp ≤ n - kp) :
    ∀ j : Nat, j ≤ kp.toNat →
      comb_loop n kp j = (((n - kp).toNat + j).choose j : Int) := by
  intro j
  induction j with
  | zero => intro _; simp [comb_loop_zero]
  | succ j ih =>
    intro hj
    have hj' : j ≤ kp.toNat := Nat.le_of_succ_le hj
    rw [comb_loop_succ, ih hj']
    have hmn : (0 : Int) ≤ n - kp := le_trans hkp hm
    set m := (n - kp).toNat with hmdef
    have hcast : n - kp + ((j : Int) + 1) = ((m + j + 1 : Nat) : Int) := by
      push_cast
      rw [hmdef, Int.toNat_of_nonneg hmn]
      ring
    rw [hcast]
    have hmul : (m + j + 1) * (m + j).choose j = (m + j + 1).choose (j + 1) * (j + 1) :=
      Nat.succ_mul_choose_eq (m + j) j
    have hmul2 : ((m + j).choose j : Int) * ((m + j + 1 : Nat) : Int) =
        ((m + j + 1).choose (j + 1) : Int) * ((j : Int) + 1) := by
      push_cast
      push_cast at hmul
      linarith [hmul]
    rw [hmul2, Int.mul_fdiv_cancel]
    · have harr : m + j + 1 = m + (j + 1) := by omega
      rw [harr]
    · positivity

/-- `comb` is `1` whenever the adjusted `min k (n - k)` is below `1`
(empty loop). -/
theorem comb_eq_one_of_min_lt_one (n k : Int) (h : min k (n - k) < 1) :
    comb n k = 1 := by
  show comb_loop n (min k (n - k)) (min k (n - k)).toNat = 1
  have h0 : (min k (n - k)).toNat = 0 := by omega
  rw [h0]
  exact comb_loop_zero _ _

/-- On its mathematical domain `0 ≤ k ≤ n`, `comb` is the binomial
coefficient. -/
theorem comb_eq_choose (n k : Nat) (h : k ≤ n) :
    comb (n : Int) (k : Int) = (n.choose k : Int) := by
  show comb_loop (n : Int) (min (k : Int) ((n : Int) - k))
    (min (k : Int) ((n : Int) - k)).toNat = (n.choose k : Int)
  rcases le_total (k : Int) ((n : Int) - k) with hle | hle
  · have hmin : min (k : Int) ((n : Int) - k) = k := min_eq_left hle
    rw [hmin]
    have hrun := comb_loop_eq_choose (n : Int) (k : Int) (by positivity) hle
      (k : Int).toNat (le_refl _)
    rw [hrun]
    have h1 : ((n : Int) - (k : Int)).toNat = n - k := by omega
    have h2 : ((k : Int)).toNat = k := by omega
    rw [h1, h2]
    have h3 : n - k + k = n := by omega
    rw [h3]
  · have hmin : min (k : Int) ((n : Int) - k) = (n : Int) - k := min_eq_right hle
    rw [hmin]
    have h0 : (0 : Int) ≤ (n : Int) - k := by
      have hkn : (k : Int) ≤ n := by exact_mod_cast h
      omega
    have hm : (n : Int) - k ≤ (n : Int) - ((n : Int) - k) := by omega
    have hrun := comb_loop_eq_choose (n : Int) ((n : Int) - k) h0 hm
      ((n : Int) - k).toNat (le_refl _)
    rw [hrun]
    have h1 : ((n : Int) - ((n : Int) - k)).toNat = k := by omega
    have h2 : ((n : Int) - (k : Int)).toNat = n - k := by omega
    rw [h1, h2]
    have h3 : k + (n - k) = n := by omega
    rw [h3]
    norm_cast
    exact Nat.choose_symm h

/-- `comb` never returns less than `1` (on any integer inputs). -/
theorem one_le_comb (n k : Int) : 1 ≤ comb n k := by
  by_cases h : min k (n - k) < 1
  · rw [comb_eq_one_of_min_lt_one n k h]
  · push_neg at h
    have hkp : (0 : Int) ≤ min k (n - k) := le_trans zero_le_one h
    have hk : min k (n - k) ≤ k := min_le_left _ _
    have hnk : min k (n - k) ≤ n - k := min_le_right _ _
    have hm : min k (n - k) ≤ n - min k (n - k) := by omega
    show 1 ≤ comb_loop n (min k (n - k)) (min k (n - k)).toNat
    rw [comb_loop_eq_choose n (min k (n - k)) hkp hm (min k (n - k)).toNat (le_refl _)]
    have hpos : 0 < ((n - min k (n - k)).toNat + (min k (n - k)).toNat).choose
        (min k (n - k)).toNat := Nat.choose_pos (Nat.le_add_left _ _)
    exact_mod_cast hpos

theorem one_le_combN (n k : Nat) : 1 ≤ combN n k := by
  unfold combN
  have := one_le_comb (n : Int) (k : Int)
  omega

theorem combN_eq_choose (n k : Nat) (h : k ≤ n) : combN n k = n.choose k := by
  unfold combN
  rw [comb_eq_choose n k h]
  simp

theorem combN_eq_one_of_lt (n k : Nat) (h : n < k) : combN n k = 1 := by
  unfold combN
  rw [comb_eq_one_of_min_lt_one]
  · rfl
  · have h1 : (n : Int) - k < 1 := by
      have h2 : (n : Int) < k := by exact_mod_cast h
      omega
    exact lt_of_le_of_lt (min_le_right _ _) h1

theorem one_le_cwrN (n : Int) (k : Nat) : 1 ≤ cwrN n k := by
  unfold cwrN comb_with_replacement
  have := one_le_comb (n + k - 1) k
  omega

/-- For a positive universe, `comb_with_replacement` is the multichoose
binomial. -/
theorem cwrN_eq_choose (n k : Nat) (h : 1 ≤ n) :
    cwrN (n : Int) k = (n + k - 1).choose k := by
  unfold cwrN comb_with_replacement
  have h1 : ((n : Int) + k - 1) = ((n + k - 1 : Nat) : Int) := by push_cast; omega
  rw [h1, comb_eq_choose (n + k - 1) k (by omega)]
  simp

/-- For a non-positive universe, `comb_with_replacement` degenerates to
`1` (this is the `comb` out-of-range behaviour). -/
theorem cwrN_of_nonpos (n : Int) (k : Nat) (h : n ≤ 0) : cwrN n k = 1 := by
  unfold cwrN comb_with_replacement
  rw [comb_eq_one_of_min_lt_one]
  · rfl
  · exact lt_of_le_of_lt (min_le_right _ _) (by omega)

theorem cwrN_one (k : Nat) : cwrN (1 : Int) k = 1 := by
  unfold cwrN comb_with_replacement
  have h1 : (1 : Int) + k - 1 = ((k : Nat) : Int) := by push_cast; ring
  rw [h1, comb_eq_choose k k (le_refl k), Nat.choose_self]
  rfl

theorem cwrN_zero (n : Int) : cwrN n 0 = 1 := by
  unfold cwrN comb_with_replacement
  rw [comb_eq_one_of_min_lt_one]
  · rfl
  · rcases le_or_lt n 0 with h | h
    · exact lt_of_le_of_lt (min_le_right _ _) (by omega)
    · exact lt_of_le_of_lt (min_le_left _ _) (by omega)

/-- Pascal-style identity for `comb_with_replacement`:
`cwr(n, k) = cwr(n, k-1) + cwr(n-1, k)` for `n ≥ 2, k ≥ 1`. -/
theorem cwrN_pascal (n k : Nat) (hn : 2 ≤ n) (hk : 1 ≤ k) :
    cwrN (n : Int) k = cwrN (n : Int) (k - 1) + cwrN ((n : Int) - 1) k := by
  obtain ⟨k', rfl⟩ : ∃ k', k = k' + 1 := ⟨k - 1, by omega⟩
  obtain ⟨n', rfl⟩ : ∃ n', n = n' + 2 := ⟨n - 2, by omega⟩
  have h1 : cwrN ((n' + 2 : Nat) : Int) (k' + 1) = (n' + k' + 2).choose (k' + 1) := by
    rw [cwrN_eq_choose (n' + 2) (k' + 1) (by omega)]
    congr 1
    omega
  have h2 : cwrN ((n' + 2 : Nat) : Int) (k' + 1 - 1) = (n' + k' + 1).choose k' := by
    have h2' : k' + 1 - 1 = k' := by omega
    rw [h2', cwrN_eq_choose (n' + 2) k' (by omega)]
    congr 1
    omega
  have h3 : (((n' + 2 : Nat) : Int) - 1) = ((n' + 1 : Nat) : Int) := by push_cast; ring
  have h4 : cwrN (((n' + 2 : Nat) : Int) - 1) (k' + 1) = (n' + k' + 1).choose (k' + 1) := by
    rw [h3, cwrN_eq_choose (n' + 1) (k' + 1) (by omega)]
    congr 1
    omega
  rw [h1, h2, h4]
  exact Nat.choose_succ_succ (n' + k' + 1) k'

/-- Hockey-stick identity: summing `cwr(n - t, k - 1)` over `t < n`
gives `cwr(n, k)` (for `n, k ≥ 1`). -/
theorem cwrN_hockey (k : Nat) (hk : 1 ≤ k) :
    ∀ n : Nat, 1 ≤ n →
      (∑ t ∈ Finset.range n, cwrN ((n : Int) - (t : Int)) (k - 1)) = cwrN (n : Int) k := by
  intro n
  induction n with
  | zero => omega
  | succ n ih =>
    intro _
    rcases Nat.eq_zero_or_pos n with hn | hn
    · subst hn
      norm_num
      rw [cwrN_one, cwrN_one]
    · rw [Finset.sum_range_succ']
      have hsum : (∑ t ∈ Finset.range n,
          cwrN (((n + 1 : Nat) : Int) - ((t + 1 : Nat) : Int)) (k - 1)) =
          ∑ t ∈ Finset.range n, cwrN ((n : Int) - (t : Int)) (k - 1) := by
        apply Finset.sum_congr rfl
        intro t _
        congr 1
        push_cast
        ring
      push_cast at hsum ⊢
      rw [hsum, ih hn]
      have hp := cwrN_pascal (n + 1) k (by omega) hk
      push_cast at hp
      have he : ((n : Int) + 1 - 1) = (n : Int) := by ring
      rw [he] at hp
      have he2 : ((n : Int) + 1 - 0) = (n : Int) + 1 := by ring
      rw [he2]
      omega

end Combination

/-! ### The combination-with-replacement codec -/

namespace Combination

theorem foldl_add_eq_sum (g : Nat → Nat) :
    ∀ (j a : Nat), (List.range j).foldl (fun acc i => acc + g i) a =
      a + ∑ i ∈ Finset.range j, g i := by
  intro j
  induction j with
  | zero => intro a; simp
  | succ j ih =>
    intro a
    rw [List.range_succ, List.foldl_append, ih a, Finset.sum_range_succ]
    simp [Nat.add_assoc]

/-- Exit characterization of the `while rank >= preceding` loop. -/
theorem wr_loop_spec (n : Int) (km1 : Nat) :
    ∀ (fuel rank i : Nat), rank < fuel →
      ∃ j : Nat,
        wr_loop fuel rank n km1 i =
          (i + j, rank - ∑ t ∈ Finset.range j, cwrN (n - ((i + t : Nat) : Int)) km1) ∧
        (∑ t ∈ Finset.range j, cwrN (n - ((i + t : Nat) : Int)) km1) ≤ rank ∧
        rank - (∑ t ∈ Finset.range j, cwrN (n - ((i + t : Nat) : Int)) km1) <
          cwrN (n - ((i + j : Nat) : Int)) km1 := by
  intro fuel
  induction fuel with
  | zero => intro rank i h; omega
  | succ fuel ih =>
    intro rank i h
    by_cases hlt : rank < cwrN (n - (i : Int)) km1
    · refine ⟨0, ?_, ?_, ?_⟩
      · simp only [wr_loop, hlt, if_pos]
        simp
      · simp
      · simpa using hlt
    · push_neg at hlt
      have hpre : 1 ≤ cwrN (n - (i : Int)) km1 := one_le_cwrN _ _
      have hlt2 : rank - cwrN (n - (i : Int)) km1 < fuel := by omega
      obtain ⟨j, heq, hle, hrem⟩ := ih (rank - cwrN (n - (i : Int)) km1) (i + 1) hlt2
      refine ⟨j + 1, ?_, ?_, ?_⟩
      · show wr_loop (fuel + 1) rank n km1 i = _
        rw [wr_loop]
        rw [if_neg (not_lt.mpr hlt)]
        rw [heq, Prod.mk.injEq]
        refine ⟨by omega, ?_⟩
        rw [Finset.sum_range_succ']
        have hc : ∀ t : Nat, cwrN (n - ((i + 1 + t : Nat) : Int)) km1 =
            cwrN (n - ((i + (t + 1) : Nat) : Int)) km1 := by
          intro t; congr 2; push_cast; ring
        have hc0 : cwrN (n - ((i + 0 : Nat) : Int)) km1 = cwrN (n - (i : Int)) km1 := by
          congr 2
        rw [hc0]
        have hsum : (∑ t ∈ Finset.range j, cwrN (n - ((i + 1 + t : Nat) : Int)) km1) =
            ∑ t ∈ Finset.range j, cwrN (n - ((i + (t + 1) : Nat) : Int)) km1 :=
          Finset.sum_congr rfl (fun t _ => hc t)
        rw [hsum] at *
        omega
      · rw [Finset.sum_range_succ']
        have hc : (∑ t ∈ Finset.range j, cwrN (n - ((i + (t + 1) : Nat) : Int)) km1) =
            ∑ t ∈ Finset.range j, cwrN (n - ((i + 1 + t : Nat) : Int)) km1 :=
          Finset.sum_congr rfl (fun t _ => by congr 2; push_cast; ring)
        have hc0 : cwrN (n - ((i + 0 : Nat) : Int)) km1 = cwrN (n - (i : Int)) km1 := by
          congr 2
        rw [hc, hc0]
        omega
      · rw [Finset.sum_range_succ']
        have hc : (∑ t ∈ Finset.range j, cwrN (n - ((i + (t + 1) : Nat) : Int)) km1) =
            ∑ t ∈ Finset.range j, cwrN (n - ((i + 1 + t : Nat) : Int)) km1 :=
          Finset.sum_congr rfl (fun t _ => by congr 2; push_cast; ring)
        have hc0 : cwrN (n - ((i + 0 : Nat) : Int)) km1 = cwrN (n - (i : Int)) km1 := by
          congr 2
        have hcj : cwrN (n - ((i + (j + 1) : Nat) : Int)) km1 =
            cwrN (n - ((i + 1 + j : Nat) : Int)) km1 := by
          congr 2; push_cast; ring
        rw [hc, hc0, hcj]
        omega

theorem wr_unrank_length (k : Nat) :
    ∀ (rank : Nat) (n : Int), (with_replacement_unrank rank n k).length = k := by
  induction k with
  | zero => intro rank n; rfl
  | succ k ih =>
    intro rank n
    show (_ :: (with_replacement_unrank _ _ k).map _).length = k + 1
    rw [List.length_cons, List.length_map, ih]

end Combination

namespace Combination

/-- `wr_loop_spec` specialized to the wrapper's call (`i = 0`, fuel
`rank + 1`). -/
theorem wr_loop_spec0 (n : Int) (km1 r : Nat) :
    ∃ j : Nat,
      wr_loop (r + 1) r n km1 0 =
        (j, r - ∑ t ∈ Finset.range j, cwrN (n - (t : Int)) km1) ∧
      (∑ t ∈ Finset.range j, cwrN (n - (t : Int)) km1) ≤ r ∧
      r - (∑ t ∈ Finset.range j, cwrN (n - (t : Int)) km1) < cwrN (n - (j : Int)) km1 := by
  obtain ⟨j, heq, hle, hrem⟩ := wr_loop_spec n km1 (r + 1) r 0 (Nat.lt_succ_self r)
  have hc : ∀ m : Nat, cwrN (n - ((0 + m : Nat) : Int)) km1 = cwrN (n - (m : Int)) km1 := by
    intro m; congr 3; omega
  have hsum : ∀ j' : Nat, (∑ t ∈ Finset.range j', cwrN (n - ((0 + t : Nat) : Int)) km1) =
      ∑ t ∈ Finset.range j', cwrN (n - (t : Int)) km1 :=
    fun _ => Finset.sum_congr rfl (fun t _ => hc t)
  refine ⟨j, ?_, ?_, ?_⟩
  · rw [heq, hsum j]
    congr 1
    omega
  · rw [← hsum j]; exact hle
  · rw [hsum j] at hrem
    rw [hc j] at hrem
    exact hrem

theorem wr_rank_fuel_eq : ∀ (fuel1 : Nat) (c : List Nat) (n : Int) (fuel2 : Nat),
    c.length < fuel1 → c.length < fuel2 →
    wr_rank_fuel fuel1 c n = wr_rank_fuel fuel2 c n := by
  intro fuel1
  induction fuel1 with
  | zero => intro c n fuel2 h1 _; omega
  | succ fuel1 ih =>
    intro c n fuel2 h1 h2
    obtain ⟨fuel2', rfl⟩ : ∃ f, fuel2 = f + 1 := ⟨fuel2 - 1, by omega⟩
    match c with
    | [] => rfl
    | [j] => rfl
    | j :: c2 :: rest =>
      show (if j = 0 then wr_rank_fuel fuel1 (c2 :: rest) n
          else _ + wr_rank_fuel fuel1 ((c2 :: rest).map (fun x => x - j)) (n - (j : Int))) =
        (if j = 0 then wr_rank_fuel fuel2' (c2 :: rest) n
          else _ + wr_rank_fuel fuel2' ((c2 :: rest).map (fun x => x - j)) (n - (j : Int)))
      by_cases hj : j = 0
      · rw [if_pos hj, if_pos hj]
        exact ih (c2 :: rest) n fuel2' (by simp at h1 ⊢; omega) (by simp at h2 ⊢; omega)
      · rw [if_neg hj, if_neg hj]
        congr 1
        exact ih ((c2 :: rest).map (fun x => x - j)) (n - (j : Int)) fuel2'
          (by simp at h1 ⊢; omega) (by simp at h2 ⊢; omega)

theorem wr_rank_nil (n : Int) : with_replacement_rank [] n = 0 := rfl

theorem wr_rank_single (j : Nat) (n : Int) : with_replacement_rank [j] n = j := rfl

theorem wr_rank_cons (j c2 : Nat) (rest : List Nat) (n : Int) :
    with_replacement_rank (j :: c2 :: rest) n =
      if j = 0 then with_replacement_rank (c2 :: rest) n
      else (∑ i ∈ Finset.range j, cwrN (n - (i : Int)) (rest.length + 1)) +
        with_replacement_rank ((c2 :: rest).map (fun x => x - j)) (n - (j : Int)) := by
  show (if j = 0 then wr_rank_fuel (rest.length + 2) (c2 :: rest) n
      else (List.range j).foldl
          (fun (acc : Nat) (i : Nat) =>
            acc + cwrN (n - (i : Int)) ((j :: c2 :: rest).length - 1)) 0 +
        wr_rank_fuel (rest.length + 2) ((c2 :: rest).map (fun x => x - j)) (n - (j : Int))) = _
  by_cases hj : j = 0
  · rw [if_pos hj, if_pos hj]
    exact wr_rank_fuel_eq _ _ _ _ (by simp) (by simp)
  · rw [if_neg hj, if_neg hj]
    congr 1
    · rw [foldl_add_eq_sum (fun i => cwrN (n - (i : Int)) ((j :: c2 :: rest).length - 1))]
      simp
    · exact wr_rank_fuel_eq _ _ _ _ (by simp) (by simp)

theorem wr_unrank_succ (r : Nat) (n : Int) (k : Nat) :
    with_replacement_unrank r n (k + 1) =
      (wr_loop (r + 1) r n k 0).1 ::
        (with_replacement_unrank (wr_loop (r + 1) r n k 0).2
          (n - ((wr_loop (r + 1) r n k 0).1 : Int)) k).map
          (fun x => x + (wr_loop (r + 1) r n k 0).1) := rfl

/-- In-range `with_replacement_unrank` produces a sorted list of values
below the universe size. -/
theorem wr_unrank_spec : ∀ (k n r : Nat), 1 ≤ n → r < cwrN ((n : Nat) : Int) k →
    (∀ x ∈ with_replacement_unrank r ((n : Nat) : Int) k, x < n) ∧
    List.Pairwise (fun a b => a ≤ b) (with_replacement_unrank r ((n : Nat) : Int) k) := by
  intro k
  induction k with
  | zero =>
    intro n r _ _
    exact ⟨by intro x hx; simp [with_replacement_unrank] at hx, by
      simp [with_replacement_unrank]⟩
  | succ k ih =>
    intro n r hn hr
    obtain ⟨j, heq, hle, hrem⟩ := wr_loop_spec0 ((n : Nat) : Int) k r
    have hhs : (∑ t ∈ Finset.range n, cwrN ((n : Int) - (t : Int)) k) =
        cwrN ((n : Int)) (k + 1) := by
      have := cwrN_hockey (k + 1) (by omega) n hn
      simpa using this
    have hjn : j < n := by
      by_contra hc
      push_neg at hc
      have hmono : (∑ t ∈ Finset.range n, cwrN ((n : Int) - (t : Int)) k) ≤
          ∑ t ∈ Finset.range j, cwrN ((n : Int) - (t : Int)) k :=
        Finset.sum_le_sum_of_subset (Finset.range_subset.mpr hc)
      omega
    have hcast : ((n : Int) - (j : Int)) = (((n - j : Nat) : Nat) : Int) := by
      push_cast; omega
    have hrem2 : (wr_loop (r + 1) r ((n : Nat) : Int) k 0).2 < cwrN (((n - j : Nat) : Nat) : Int) k := by
      rw [heq]
      rw [hcast] at hrem
      exact hrem
    have hr2 := ih (n - j) ((wr_loop (r + 1) r ((n : Nat) : Int) k 0).2) (by omega) hrem2
    rw [wr_unrank_succ]
    have hfst : (wr_loop (r + 1) r ((n : Nat) : Int) k 0).1 = j := by rw [heq]
    constructor
    · intro x hx
      rcases List.mem_cons.mp hx with hx | hx
      · omega
      · obtain ⟨y, hy, rfl⟩ := List.mem_map.mp hx
        rw [hfst] at hy ⊢
        rw [← hcast] at hr2
        have := hr2.1 y hy
        omega
    · constructor
      · intro y hy
        obtain ⟨z, _, rfl⟩ := List.mem_map.mp hy
        omega
      · rw [List.pairwise_map]
        rw [hfst]
        rw [← hcast] at hr2
        exact hr2.2.imp (fun hab => Nat.add_le_add_right hab j)

/-- Out-of-range `with_replacement_unrank` silently returns a list whose
first element is at least the universe size `n` (there is no `raise`). -/
theorem wr_unrank_oob : ∀ (k n r : Nat), 1 ≤ k → cwrN ((n : Nat) : Int) k ≤ r →
    n ≤ (with_replacement_unrank r ((n : Nat) : Int) k).headD 0 := by
  intro k n r hk hr
  obtain ⟨k', rfl⟩ : ∃ k', k = k' + 1 := ⟨k - 1, by omega⟩
  obtain ⟨j, heq, hle, hrem⟩ := wr_loop_spec0 ((n : Nat) : Int) k' r
  rw [wr_unrank_succ, heq]
  show n ≤ j
  rcases Nat.eq_zero_or_pos n with hn | hn
  · omega
  by_contra hc
  push_neg at hc
  have hhs : (∑ t ∈ Finset.range n, cwrN ((n : Int) - (t : Int)) k') =
      cwrN ((n : Int)) (k' + 1) := by
    have := cwrN_hockey (k' + 1) (by omega) n hn
    simpa using this
  have hsub : (∑ t ∈ Finset.range (j + 1), cwrN ((n : Int) - (t : Int)) k') ≤
      ∑ t ∈ Finset.range n, cwrN ((n : Int) - (t : Int)) k' :=
    Finset.sum_le_sum_of_subset (Finset.range_subset.mpr (by omega))
  rw [Finset.sum_range_succ] at hsub
  omega

/-- Round trip of the with-replacement codec on valid ranks. -/
theorem wr_roundtrip : ∀ (k n r : Nat), 1 ≤ n → r < cwrN ((n : Nat) : Int) k →
    with_replacement_rank (with_replacement_unrank r ((n : Nat) : Int) k)
      ((n : Nat) : Int) = r := by
  intro k
  induction k with
  | zero =>
    intro n r _ hr
    rw [cwrN_zero] at hr
    interval_cases r
    rfl
  | succ k ih =>
    intro n r hn hr
    obtain ⟨j, heq, hle, hrem⟩ := wr_loop_spec0 ((n : Nat) : Int) k r
    have hhs : (∑ t ∈ Finset.range n, cwrN ((n : Int) - (t : Int)) k) =
        cwrN ((n : Int)) (k + 1) := by
      have := cwrN_hockey (k + 1) (by omega) n hn
      simpa using this
    have hjn : j < n := by
      by_contra hc
      push_neg at hc
      have hmono : (∑ t ∈ Finset.range n, cwrN ((n : Int) - (t : Int)) k) ≤
          ∑ t ∈ Finset.range j, cwrN ((n : Int) - (t : Int)) k :=
        Finset.sum_le_sum_of_subset (Finset.range_subset.mpr hc)
      omega
    have hcast : ((n : Int) - (j : Int)) = (((n - j : Nat) : Nat) : Int) := by
      push_cast; omega
    obtain ⟨r', hrdef⟩ : ∃ r',
        r - (∑ t ∈ Finset.range j, cwrN ((n : Int) - (t : Int)) k) = r' := ⟨_, rfl⟩
    rw [hrdef] at hrem
    have hrem2 : r' < cwrN (((n - j : Nat) : Nat) : Int) k := by
      rw [← hcast]; exact hrem
    have hlen : (with_replacement_unrank r' ((n : Int) - (j : Int)) k).length = k :=
      wr_unrank_length k r' _
    cases k with
    | zero =>
      rw [wr_unrank_succ, heq]
      show with_replacement_rank [(j, r - ∑ t ∈ Finset.range j,
        cwrN ((n : Int) - (t : Int)) 0).1] ((n : Nat) : Int) = r
      rw [wr_rank_single]
      show j = r
      simp only [cwrN_zero] at hle hrem hrdef
      rw [Finset.sum_const, Finset.card_range, smul_eq_mul, mul_one] at hle hrdef
      omega
    | succ k'' =>
      rw [wr_unrank_succ, heq]
      show with_replacement_rank
        (j :: (with_replacement_unrank
            (r - ∑ t ∈ Finset.range j, cwrN ((n : Int) - (t : Int)) (k'' + 1))
            ((n : Int) - (j : Int)) (k'' + 1)).map (fun x => x + j)) ((n : Nat) : Int) = r
      rw [hrdef]
      obtain ⟨y, ys, hrest⟩ : ∃ y ys,
          with_replacement_unrank r' ((n : Int) - (j : Int)) (k'' + 1) = y :: ys := by
        match hw : with_replacement_unrank r' ((n : Int) - (j : Int)) (k'' + 1) with
        | [] => rw [hw] at hlen; simp at hlen
        | y :: ys => exact ⟨y, ys, rfl⟩
      have hysl : ys.length = k'' := by
        rw [hrest] at hlen; simpa using hlen
      have hih : with_replacement_rank
          (with_replacement_unrank r' (((n - j : Nat) : Nat) : Int) (k'' + 1))
          (((n - j : Nat) : Nat) : Int) = r' := ih (n - j) r' (by omega) hrem2
      rw [hrest]
      show with_replacement_rank (j :: (y + j) :: ys.map (fun x => x + j)) ((n : Nat) : Int) = r
      rw [wr_rank_cons]
      by_cases hj : j = 0
      · rw [if_pos hj]
        subst hj
        have hmap : ((y + 0) :: ys.map (fun x => x + 0)) = y :: ys := by simp
        rw [hmap, ← hrest]
        simp only [Nat.sub_zero] at hih
        simp only [Nat.cast_zero, sub_zero]
        rw [hih]
        simp at hrdef
        omega
      · rw [if_neg hj]
        have hsum2 : (∑ i ∈ Finset.range j,
            cwrN (((n : Nat) : Int) - (i : Int)) ((ys.map (fun x => x + j)).length + 1)) =
            ∑ t ∈ Finset.range j, cwrN ((n : Int) - (t : Int)) (k'' + 1) := by
          apply Finset.sum_congr rfl
          intro t _
          congr 1
          rw [List.length_map, hysl]
        have hmapmap : (((y + j) :: ys.map (fun x => x + j)).map (fun x => x - j)) =
            y :: ys := by
          simp only [List.map_cons, List.map_map, Nat.add_sub_cancel]
          have hfun : ((fun x => x - j) ∘ fun x => x + j) = id := by
            funext x; simp
          rw [hfun, List.map_id]
        rw [hsum2, hmapmap, ← hrest, hcast, hih]
        omega

/-! ### The plain combination codec -/

namespace Combination

theorem indexOf_cons {α : Type} [BEq α] (x y : α) (xs : List α) :
    (x :: xs).indexOf y = if x == y then 0 else (xs.indexOf y) + 1 := by
  unfold List.indexOf
  rw [List.findIdx_cons]
  by_cases h : x == y
  · simp [h]
  · simp [h]

theorem sum_map_pred_le : ∀ (l : List Nat), (l.map (fun x => x - 1)).sum ≤ l.sum := by
  intro l
  induction l with
  | nil => simp
  | cons x xs ih => simp only [List.map_cons, List.sum_cons]; omega

theorem frr_fuel_eq : ∀ (fuel1 : Nat) (c : List Nat) (n : Nat) (fuel2 : Nat),
    c.sum + c.length < fuel1 → c.sum + c.length < fuel2 →
    from_range_rank_fuel fuel1 c n = from_range_rank_fuel fuel2 c n := by
  intro fuel1
  induction fuel1 with
  | zero => intro c n fuel2 h1 _; omega
  | succ fuel1 ih =>
    intro c n fuel2 h1 h2
    obtain ⟨fuel2', rfl⟩ : ∃ f, fuel2 = f + 1 := ⟨fuel2 - 1, by omega⟩
    match c with
    | [] => rfl
    | j :: rest =>
      show (if (j :: rest).length = 0 ∨ (j :: rest).length = n then (0 : Nat)
          else if j = 0 then from_range_rank_fuel fuel1 (rest.map (fun x => x - 1)) (n - 1)
          else combN (n - 1) ((j :: rest).length - 1) +
            from_range_rank_fuel fuel1 ((j :: rest).map (fun x => x - 1)) (n - 1)) =
        (if (j :: rest).length = 0 ∨ (j :: rest).length = n then (0 : Nat)
          else if j = 0 then from_range_rank_fuel fuel2' (rest.map (fun x => x - 1)) (n - 1)
          else combN (n - 1) ((j :: rest).length - 1) +
            from_range_rank_fuel fuel2' ((j :: rest).map (fun x => x - 1)) (n - 1))
      by_cases hc : (j :: rest).length = 0 ∨ (j :: rest).length = n
      · rw [if_pos hc, if_pos hc]
      · rw [if_neg hc, if_neg hc]
        have hsr := sum_map_pred_le rest
        have hsc := sum_map_pred_le (j :: rest)
        by_cases hj : j = 0
        · rw [if_pos hj, if_pos hj]
          subst hj
          apply ih
          · simp only [List.length_map, List.sum_cons, List.length_cons] at *
            omega
          · simp only [List.length_map, List.sum_cons, List.length_cons] at *
            omega
        · rw [if_neg hj, if_neg hj]
          congr 1
          apply ih
          · simp only [List.map_cons, List.length_map, List.sum_cons, List.length_cons] at *
            omega
          · simp only [List.map_cons, List.length_map, List.sum_cons, List.length_cons] at *
            omega

theorem frr_nil (n : Nat) : from_range_rank [] n = 0 := rfl

theorem frr_cons (j : Nat) (rest : List Nat) (n : Nat) :
    from_range_rank (j :: rest) n =
      if (j :: rest).length = n then 0
      else if j = 0 then from_range_rank (rest.map (fun x => x - 1)) (n - 1)
      else combN (n - 1) ((j :: rest).length - 1) +
        from_range_rank ((j :: rest).map (fun x => x - 1)) (n - 1) := by
  have hsr := sum_map_pred_le rest
  have hsc := sum_map_pred_le (j :: rest)
  show (if (j :: rest).length = 0 ∨ (j :: rest).length = n then (0 : Nat)
      else if j = 0 then
        from_range_rank_fuel ((j :: rest).sum + (j :: rest).length)
          (rest.map (fun x => x - 1)) (n - 1)
      else combN (n - 1) ((j :: rest).length - 1) +
        from_range_rank_fuel ((j :: rest).sum + (j :: rest).length)
          ((j :: rest).map (fun x => x - 1)) (n - 1)) = _
  have hc : ((j :: rest).length = 0 ∨ (j :: rest).length = n) ↔ ((j :: rest).length = n) := by
    simp
  by_cases hn : (j :: rest).length = n
  · rw [if_pos (hc.mpr hn), if_pos hn]
  · rw [if_neg (fun h => hn (hc.mp h)), if_neg hn]
    by_cases hj : j = 0
    · rw [if_pos hj, if_pos hj]
      subst hj
      apply frr_fuel_eq
      · simp only [List.length_map, List.sum_cons, List.length_cons] at *
        omega
      · simp only [List.length_map, List.sum_cons, List.length_cons] at *
        omega
    · rw [if_neg hj, if_neg hj]
      congr 1
      apply frr_fuel_eq
      · simp only [List.map_cons, List.length_map, List.sum_cons, List.length_cons] at *
        omega
      · simp only [List.map_cons, List.length_map, List.sum_cons, List.length_cons] at *
        omega

theorem unrank_sublist_len {α : Type} :
    ∀ (elements : List α) (k r : Nat) (c : List α),
      unrank r elements k = some c → c.Sublist elements ∧ c.length = k := by
  intro elements
  induction elements with
  | nil =>
    intro k r c h
    match k with
    | 0 =>
      have h' : (some [] : Option (List α)) = some c := h
      injection h' with h'
      subst h'
      exact ⟨List.nil_sublist _, rfl⟩
  | cons x xs ih =>
    intro k r c h
    match k with
    | 0 =>
      have h' : (some [] : Option (List α)) = some c := h
      injection h' with h'
      subst h'
      exact ⟨List.nil_sublist _, rfl⟩
    | k' + 1 =>
      rw [unrank] at h
      by_cases hlt : r < combN ((x :: xs).length - 1) k'
      · rw [if_pos hlt] at h
        match hin : unrank r xs k' with
        | none => rw [hin] at h; exact absurd h (by simp)
        | some c' =>
          rw [hin] at h
          simp only [Option.map_some', Option.some.injEq] at h
          subst h
          obtain ⟨hs, hl⟩ := ih k' r c' hin
          refine ⟨hs.cons₂ x, ?_⟩
          rw [List.length_cons, hl]
      · rw [if_neg hlt] at h
        obtain ⟨hs, hl⟩ := ih (k' + 1) (r - combN ((x :: xs).length - 1) k') c h
        exact ⟨hs.cons x, hl⟩

/-- `unrank` fails (runs out of elements) whenever `k` exceeds the pool
size, for any rank. -/
theorem unrank_none_of_len_lt {α : Type} :
    ∀ (elements : List α) (k r : Nat), elements.length < k →
      unrank r elements k = none := by
  intro elements
  induction elements with
  | nil =>
    intro k r h
    obtain ⟨k', rfl⟩ : ∃ k', k = k' + 1 := ⟨k - 1, by omega⟩
    rfl
  | cons x xs ih =>
    intro k r h
    obtain ⟨k', rfl⟩ : ∃ k', k = k' + 1 := ⟨k - 1, by omega⟩
    have hxs : xs.length < k' := by simp at h; omega
    rw [unrank]
    by_cases hlt : r < combN ((x :: xs).length - 1) k'
    · rw [if_pos hlt, ih k' r hxs]
      rfl
    · rw [if_neg hlt]
      exact ih (k' + 1) _ (by omega)

/-- `unrank` fails for every out-of-range rank once `k ≥ 1`: the
recursion runs the pool out of elements. -/
theorem unrank_none_of_ge {α : Type} :
    ∀ (elements : List α) (k r : Nat), 1 ≤ k → combN elements.length k ≤ r →
      unrank r elements k = none := by
  intro elements
  induction elements with
  | nil =>
    intro k r hk _
    obtain ⟨k', rfl⟩ : ∃ k', k = k' + 1 := ⟨k - 1, by omega⟩
    rfl
  | cons x xs ih =>
    intro k r hk hr
    obtain ⟨k', rfl⟩ : ∃ k', k = k' + 1 := ⟨k - 1, by omega⟩
    have hn : (x :: xs).length = xs.length + 1 := rfl
    rw [unrank]
    by_cases hlt : r < combN ((x :: xs).length - 1) k'
    · rw [if_pos hlt]
      -- reachable only when `k > length`: otherwise Pascal gives
      -- `comb(n, k) ≥ comb(n-1, k-1) > r`, contradiction
      by_cases hbig : xs.length < k'
      · rw [unrank_none_of_len_lt xs k' r hbig]
        rfl
      · exfalso
        push_neg at hbig
        have h1 : combN ((x :: xs).length - 1) k' = xs.length.choose k' := by
          rw [hn]
          simpa using combN_eq_choose xs.length k' hbig
        have h2 : combN (x :: xs).length (k' + 1) = (xs.length + 1).choose (k' + 1) := by
          rw [hn]
          exact combN_eq_choose (xs.length + 1) (k' + 1) (by omega)
        have h3 : (xs.length + 1).choose (k' + 1) =
            xs.length.choose k' + xs.length.choose (k' + 1) :=
          Nat.choose_succ_succ xs.length k'
        omega
    · rw [if_neg hlt]
      push_neg at hlt
      by_cases hbig : xs.length < k' + 1
      · exact unrank_none_of_len_lt xs (k' + 1) _ hbig
      · push_neg at hbig
        apply ih (k' + 1) _ (by omega)
        have h1 : combN ((x :: xs).length - 1) k' = xs.length.choose k' := by
          rw [hn]
          simpa using combN_eq_choose xs.length k' (by omega)
        have h2 : combN (x :: xs).length (k' + 1) = (xs.length + 1).choose (k' + 1) := by
          rw [hn]
          exact combN_eq_choose (xs.length + 1) (k' + 1) (by omega)
        have h3 : (xs.length + 1).choose (k' + 1) =
            xs.length.choose k' + xs.length.choose (k' + 1) :=
          Nat.choose_succ_succ xs.length k'
        have h4 : combN xs.length (k' + 1) = xs.length.choose (k' + 1) :=
          combN_eq_choose xs.length (k' + 1) hbig
        omega

theorem unrank_zero {α : Type} (r : Nat) (elements : List α) :
    unrank r elements 0 = some [] := by
  cases elements <;> rfl

/-- On valid inputs, `unrank` succeeds and `rank` inverts it. -/
theorem unrank_rank {α : Type} [BEq α] [LawfulBEq α] :
    ∀ (elements : List α), elements.Nodup →
      ∀ (k r : Nat), k ≤ elements.length → r < combN elements.length k →
      ∃ c, unrank r elements k = some c ∧ rank c elements = r := by
  intro elements
  induction elements with
  | nil =>
    intro _ k r hk hr
    match k, hk with
    | 0, _ =>
      refine ⟨[], rfl, ?_⟩
      simp only [List.length_nil] at hr
      rw [combN_eq_choose 0 0 (le_refl 0), Nat.choose_self] at hr
      have hr0 : r = 0 := by omega
      subst hr0
      exact frr_nil 0
  | cons x xs ih =>
    intro hnd k r hk hr
    have hndxs : xs.Nodup := (List.nodup_cons.mp hnd).2
    have hxnm : x ∉ xs := (List.nodup_cons.mp hnd).1
    have hn : (x :: xs).length = xs.length + 1 := rfl
    match k with
    | 0 =>
      refine ⟨[], rfl, ?_⟩
      rw [combN_eq_choose _ 0 (by omega), Nat.choose_zero_right] at hr
      have hr0 : r = 0 := by omega
      subst hr0
      exact frr_nil _
    | k' + 1 =>
      rw [unrank]
      by_cases hlt : r < combN ((x :: xs).length - 1) k'
      · rw [if_pos hlt]
        have hk' : k' ≤ xs.length := by omega
        have h1 : combN ((x :: xs).length - 1) k' = combN xs.length k' := by
          rw [hn]; simp
        rw [h1] at hlt
        obtain ⟨c', hc', hrank'⟩ := ih hndxs k' r hk' hlt
        refine ⟨x :: c', by rw [hc']; rfl, ?_⟩
        obtain ⟨hsub, hlen⟩ := unrank_sublist_len xs k' r c' hc'
        have hidx : (x :: c').map (fun y => (x :: xs).indexOf y) =
            0 :: c'.map (fun y => xs.indexOf y + 1) := by
          simp only [List.map_cons]
          rw [List.cons.injEq]
          constructor
          · rw [indexOf_cons]; simp
          · apply List.map_congr_left
            intro a ha
            have hax : x ≠ a := fun hque => hxnm (hque ▸ hsub.subset ha)
            rw [indexOf_cons, if_neg (by simpa using hax)]
        by_cases hkn : k' + 1 = xs.length + 1
        · have hr0 : r = 0 := by
            have hkx : k' = xs.length := by omega
            subst hkx
            rw [combN_eq_choose _ _ (le_refl _), Nat.choose_self] at hlt
            omega
          subst hr0
          show Combination.rank (x :: c') (x :: xs) = 0
          unfold Combination.rank
          rw [hidx, frr_cons]
          rw [if_pos]
          simp only [List.length_cons, List.length_map, hlen]
          omega
        · show Combination.rank (x :: c') (x :: xs) = r
          unfold Combination.rank
          rw [hidx, frr_cons]
          rw [if_neg (by
            simp only [List.length_cons, List.length_map, hlen]
            omega)]
          rw [if_pos rfl]
          have hmm : (c'.map (fun y => xs.indexOf y + 1)).map (fun z => z - 1) =
              c'.map (fun y => xs.indexOf y) := by
            rw [List.map_map]
            apply List.map_congr_left
            intro a _
            simp [Function.comp]
          rw [hmm, hn]
          simpa using hrank'
      · rw [if_neg hlt]
        push_neg at hlt
        have h1 : combN ((x :: xs).length - 1) k' = combN xs.length k' := by
          rw [hn]; simp
        rw [h1] at hlt
        have hkn : k' + 1 ≤ xs.length := by
          by_contra hcon
          push_neg at hcon
          have hkx : k' = xs.length := by omega
          subst hkx
          rw [combN_eq_choose _ _ (le_refl _), Nat.choose_self] at hlt
          rw [hn, combN_eq_choose _ _ (by omega), Nat.choose_self] at hr
          omega
        have hpascal : combN (x :: xs).length (k' + 1) =
            combN xs.length k' + combN xs.length (k' + 1) := by
          rw [hn, combN_eq_choose _ _ (by omega), combN_eq_choose _ _ (by omega),
            combN_eq_choose _ _ hkn]
          exact Nat.choose_succ_succ xs.length k'
        obtain ⟨c, hc, hrank⟩ := ih hndxs (k' + 1) (r - combN xs.length k') hkn (by omega)
        refine ⟨c, hc, ?_⟩
        obtain ⟨hsub, hlen⟩ := unrank_sublist_len xs (k' + 1) _ c hc
        obtain ⟨c0, ctail, rfl⟩ : ∃ c0 ctail, c = c0 :: ctail := by
          match c, hlen with
          | c0 :: ctail, _ => exact ⟨c0, ctail, rfl⟩
        have hctl : ctail.length = k' := by simpa using hlen
        have hidx : (c0 :: ctail).map (fun y => (x :: xs).indexOf y) =
            (c0 :: ctail).map (fun y => xs.indexOf y + 1) := by
          apply List.map_congr_left
          intro a ha
          have hax : x ≠ a := fun hque => hxnm (hque ▸ hsub.subset ha)
          rw [indexOf_cons, if_neg (by simpa using hax)]
        show Combination.rank (c0 :: ctail) (x :: xs) = r
        unfold Combination.rank
        rw [hidx]
        simp only [List.map_cons]
        rw [frr_cons]
        rw [if_neg (by
          simp only [List.length_cons, List.length_map, hctl]
          omega)]
        rw [if_neg (by omega)]
        have hmm : ((xs.indexOf c0 + 1) :: ctail.map (fun y => xs.indexOf y + 1)).map
            (fun z => z - 1) = xs.indexOf c0 :: ctail.map (fun y => xs.indexOf y) := by
          simp only [List.map_cons, Nat.add_sub_cancel, List.map_map]
          rw [List.cons.injEq]
          refine ⟨rfl, ?_⟩
          apply List.map_congr_left
          intro a _
          simp [Function.comp]
        rw [hmm]
        have hlen2 : ((xs.indexOf c0 + 1) :: ctail.map (fun y => xs.indexOf y + 1)).length - 1
            = k' := by
          simp only [List.length_cons, List.length_map, hctl]
          omega
        rw [hlen2, hn]
        simp only [Nat.add_sub_cancel]
        have hrank2 : from_range_rank (xs.indexOf c0 :: ctail.map (fun y => xs.indexOf y))
            xs.length = r - combN xs.length k' := by
          simpa using hrank
        rw [hrank2]
        omega

end Combination

/-! ### Claim theorems: the `Combination` layer -/

/-- C10: for `n ≥ 0` and `k < 0` or `k > n`, `Combination.comb(n, k)`
returns `1` (neither `0` nor an error — the function is total here);
for `0 ≤ k ≤ n` it equals the exact binomial coefficient. -/
theorem comb_out_of_range_spec :
    (∀ n k : Int, 0 ≤ n → (k < 0 ∨ n < k) → Combination.comb n k = 1) ∧
    (∀ n k : Nat, k ≤ n →
      Combination.comb ((n : Nat) : Int) ((k : Nat) : Int) = ((n.choose k : Nat) : Int)) := by
  constructor
  · intro n k h0 hk
    apply Combination.comb_eq_one_of_min_lt_one
    rcases hk with hk | hk
    · exact lt_of_le_of_lt (min_le_left _ _) (by omega)
    · exact lt_of_le_of_lt (min_le_right _ _) (by omega)
  · intro n k h
    exact Combination.comb_eq_choose n k h

theorem comb_out_of_range_spec_witness :
    Combination.comb 5 7 = 1 ∧ Combination.comb 5 (-1) = 1 ∧
    Combination.comb ((5 : Nat) : Int) ((2 : Nat) : Int) = ((Nat.choose 5 2 : Nat) : Int) :=
  ⟨comb_out_of_range_spec.1 5 7 (by norm_num) (Or.inr (by norm_num)),
   comb_out_of_range_spec.1 5 (-1) (by norm_num) (Or.inl (by norm_num)),
   comb_out_of_range_spec.2 5 2 (by norm_num)⟩

/-- C3: the combination codec round-trips — for a duplicate-free
universe, `0 ≤ k ≤ n` and any rank below `comb(n, k)`,
`rank(unrank(r, universe, k), universe) = r`; likewise the
with-replacement codec round-trips for `n ≥ 1, k ≥ 0` and ranks below
`comb_with_replacement(n, k)`. -/
theorem combination_codec_roundtrip :
    (∀ (univ : List Nat) (k r : Nat), univ.Nodup → k ≤ univ.length →
      r < Combination.combN univ.length k →
      ∃ c, Combination.unrank r univ k = some c ∧
        Combination.rank c univ = r) ∧
    (∀ (n k r : Nat), 1 ≤ n → r < Combination.cwrN ((n : Nat) : Int) k →
      Combination.with_replacement_rank
        (Combination.with_replacement_unrank r ((n : Nat) : Int) k)
        ((n : Nat) : Int) = r) :=
  ⟨fun u k r hnd hk hr => Combination.unrank_rank u hnd k r hk hr,
   fun n k r hn hr => Combination.wr_roundtrip k n r hn hr⟩

theorem combination_codec_roundtrip_witness :
    (∃ c, Combination.unrank 2 [0, 1, 2] 2 = some c ∧
      Combination.rank c [0, 1, 2] = 2) ∧
    Combination.with_replacement_rank
      (Combination.with_replacement_unrank 3 ((3 : Nat) : Int) 2) ((3 : Nat) : Int) = 3 :=
  ⟨combination_codec_roundtrip.1 [0, 1, 2] 2 2 (by decide) (by decide) (by decide),
   combination_codec_roundtrip.2 3 2 3 (by decide) (by decide)⟩

/-- C5 counterexample: with `k = 0`, `Combination.unrank` returns `[]`
for the out-of-range rank `1 ≥ comb(1, 0) = 1` instead of failing; and
`with_replacement_unrank` never raises — at rank
`1 ≥ comb_with_replacement(1, 1) = 1` it silently returns `[1]`, whose
element lies outside the universe `[0, 1)`. -/
theorem combination_unrank_oob_cex :
    Combination.unrank 1 [0] 0 = some [] ∧
    Combination.comb 1 0 = 1 ∧
    Combination.with_replacement_unrank 1 ((1 : Nat) : Int) 1 = [1] ∧
    Combination.comb_with_replacement 1 1 = 1 :=
  ⟨rfl, by decide, by decide, by decide⟩

/-- C5 amended: `Combination.unrank` fails with an out-of-bounds error
for every `k ≥ 1` and rank `≥ comb(n, k)` (but for `k = 0` it silently
returns `[]` for every rank); `with_replacement_unrank` never fails:
for `k ≥ 1` and rank `≥ comb_with_replacement(n, k)` it silently
returns a `k`-element list whose first element is `≥ n` — a value
outside the universe — rather than an error. -/
theorem combination_unrank_oob_amended :
    (∀ (elements : List Nat) (k r : Nat), 1 ≤ k →
      Combination.combN elements.length k ≤ r →
      Combination.unrank r elements k = none) ∧
    (∀ (r : Nat) (elements : List Nat), Combination.unrank r elements 0 = some []) ∧
    (∀ (n k r : Nat), 1 ≤ k → Combination.cwrN ((n : Nat) : Int) k ≤ r →
      (Combination.with_replacement_unrank r ((n : Nat) : Int) k).length = k ∧
      n ≤ (Combination.with_replacement_unrank r ((n : Nat) : Int) k).headD 0) :=
  ⟨fun elements k r hk hr => Combination.unrank_none_of_ge elements k r hk hr,
   fun r elements => Combination.unrank_zero r elements,
   fun n k r hk hr =>
    ⟨Combination.wr_unrank_length k r _, Combination.wr_unrank_oob k n r hk hr⟩⟩

theorem combination_unrank_oob_amended_witness :
    Combination.unrank 3 [0, 1, 2] 2 = none ∧
    Combination.unrank 7 [0, 1] 0 = some [] ∧
    ((Combination.with_replacement_unrank 4 ((2 : Nat) : Int) 2).length = 2 ∧
      2 ≤ (Combination.with_replacement_unrank 4 ((2 : Nat) : Int) 2).headD 0) :=
  ⟨combination_unrank_oob_amended.1 [0, 1, 2] 2 3 (by decide) (by decide),
   combination_unrank_oob_amended.2.1 7 [0, 1],
   combination_unrank_oob_amended.2.2 2 2 4 (by decide) (by decide)⟩

/-! ### Specification of `group_by` -/

/-- All non-first members of a group are `equal` to its head (this is
the invariant Python's `group_by` maintains for `curr_group`). -/
def group_ok {α : Type} (e : α → α → Bool) : List α → Prop
  | [] => True
  | h :: t => ∀ x ∈ t, e x h = true

/-- The characterization of `group_by` output: non-empty groups, each
internally `equal` to its head, with consecutive group heads not
`equal`. -/
def is_grouping {α : Type} [Inhabited α] (e : α → α → Bool) (gs : List (List α)) : Prop :=
  (∀ g ∈ gs, g ≠ []) ∧ (∀ g ∈ gs, group_ok e g) ∧
  List.Chain' (fun g1 g2 => e (g2.headD default) (g1.headD default) = false) gs

theorem group_by_nil {α : Type} (e : α → α → Bool) : group_by ([] : List α) e = [] := rfl

theorem group_ok_append {α : Type} (e : α → α → Bool) (h : α) (t : List α) (x : α)
    (hok : group_ok e (h :: t)) (hx : e x h = true) :
    group_ok e ((h :: t) ++ [x]) := by
  show ∀ y ∈ t ++ [x], e y h = true
  intro y hy
  rcases List.mem_append.mp hy with hy | hy
  · exact hok y hy
  · rw [List.mem_singleton] at hy; subst hy; exact hx

theorem go_spec {α : Type} [Inhabited α] (e : α → α → Bool) :
    ∀ (xs curr : List α), curr ≠ [] → group_ok e curr →
      (group_by_go e xs curr).flatten = curr ++ xs ∧
      (∀ g ∈ group_by_go e xs curr, g ≠ []) ∧
      (∀ g ∈ group_by_go e xs curr, group_ok e g) ∧
      List.Chain' (fun g1 g2 => e (g2.headD default) (g1.headD default) = false)
        (group_by_go e xs curr) ∧
      (∀ g ∈ (group_by_go e xs curr).head?, g.headD default = curr.headD default) := by
  intro xs
  induction xs with
  | nil =>
    intro curr hne hok
    have hgo : group_by_go e [] curr = [curr] := by
      rw [group_by_go]
      rw [if_neg (by simpa using hne)]
    rw [hgo]
    refine ⟨by simp, ?_, ?_, ?_, ?_⟩
    · intro g hg; rw [List.mem_singleton] at hg; subst hg; exact hne
    · intro g hg; rw [List.mem_singleton] at hg; subst hg; exact hok
    · simp
    · intro g hg; simp only [List.head?_cons, Option.mem_def, Option.some.injEq] at hg
      subst hg; rfl
  | cons x xs ih =>
    intro curr hne hok
    obtain ⟨h, t, rfl⟩ : ∃ h t, curr = h :: t := by
      match curr, hne with
      | h :: t, _ => exact ⟨h, t, rfl⟩
    have hguard : ((h :: t).isEmpty || e x ((h :: t).headD x)) = (e x h) := by
      simp
    rw [group_by_go, hguard]
    by_cases hx : e x h = true
    · rw [if_pos hx]
      have hok2 : group_ok e ((h :: t) ++ [x]) := group_ok_append e h t x hok hx
      obtain ⟨h1, h2, h3, h4, h5⟩ := ih ((h :: t) ++ [x]) (by simp) hok2
      refine ⟨?_, h2, h3, h4, ?_⟩
      · rw [h1]; simp
      · intro g hg
        rw [h5 g hg]
        simp
    · rw [if_neg (by simpa using hx)]
      obtain ⟨h1, h2, h3, h4, h5⟩ := ih [x] (by simp) (by intro y hy; simp at hy)
      refine ⟨?_, ?_, ?_, ?_, ?_⟩
      · simp only [List.flatten_cons, h1]
        simp
      · intro g hg
        rcases List.mem_cons.mp hg with hg | hg
        · subst hg; exact hne
        · exact h2 g hg
      · intro g hg
        rcases List.mem_cons.mp hg with hg | hg
        · subst hg; exact hok
        · exact h3 g hg
      · rw [List.chain'_cons']
        refine ⟨?_, h4⟩
        intro g hg
        rw [h5 g hg]
        simp only [List.headD_cons]
        simpa using hx
      · intro g hg
        simp only [List.head?_cons, Option.mem_def, Option.some.injEq] at hg
        subst hg
        rfl

/-- `group_by` output characterization. -/
theorem group_by_spec {α : Type} [Inhabited α] (e : α → α → Bool) (l : List α) :
    (group_by l e).flatten = l ∧ is_grouping e (group_by l e) := by
  match l with
  | [] =>
    refine ⟨rfl, ?_, ?_, ?_⟩ <;> rw [group_by_nil] <;> simp
  | x :: xs =>
    have hstep : group_by (x :: xs) e = group_by_go e xs [x] := by
      show group_by_go e (x :: xs) [] = _
      rw [group_by_go]
      rw [if_pos (by simp)]
      rfl
    obtain ⟨h1, h2, h3, h4, _⟩ := go_spec e xs [x] (by simp) (by intro y hy; simp at hy)
    rw [hstep]
    exact ⟨h1, h2, h3, h4⟩

/-- The run-consuming lemma: starting inside a group, `group_by_go`
consumes the rest of the run and then continues as a fresh `group_by`. -/
theorem go_run {α : Type} [Inhabited α] (e : α → α → Bool) :
    ∀ (t curr follows : List α), curr ≠ [] → group_ok e (curr ++ t) →
      (∀ y ∈ follows.head?, e y ((curr ++ t).headD default) = false) →
      group_by_go e (t ++ follows) curr = (curr ++ t) :: group_by follows e := by
  intro t
  induction t with
  | nil =>
    intro curr follows hne hok hbd
    obtain ⟨h, tc, rfl⟩ : ∃ h tc, curr = h :: tc := by
      match curr, hne with
      | h :: tc, _ => exact ⟨h, tc, rfl⟩
    match follows with
    | [] =>
      show group_by_go e [] (h :: tc) = _
      rw [group_by_go]
      rw [if_neg (by simp)]
      rw [group_by_nil]
      simp
    | y :: ys =>
      show group_by_go e (y :: ys) (h :: tc) = _
      rw [group_by_go]
      have hy : e y h = false := by
        have := hbd y (by simp)
        simpa using this
      rw [if_neg (by simp [hy])]
      have h2 : group_by (y :: ys) e = group_by_go e ys [y] := rfl
      rw [h2]
      simp
  | cons z t' ih =>
    intro curr follows hne hok hbd
    obtain ⟨h, tc, rfl⟩ : ∃ h tc, curr = h :: tc := by
      match curr, hne with
      | h :: tc, _ => exact ⟨h, tc, rfl⟩
    have hz : e z h = true := by
      apply hok
      simp
    show group_by_go e (z :: (t' ++ follows)) (h :: tc) = _
    rw [group_by_go]
    rw [if_pos (by simp [hz])]
    have hok2 : group_ok e (((h :: tc) ++ [z]) ++ t') := by
      have : ((h :: tc) ++ [z]) ++ t' = (h :: tc) ++ (z :: t') := by simp
      rw [this]
      exact hok
    have hbd2 : ∀ y ∈ follows.head?, e y ((((h :: tc) ++ [z]) ++ t').headD default) = false := by
      intro y hy
      have h2 : (((h :: tc) ++ [z]) ++ t').headD default =
          ((h :: tc) ++ (z :: t')).headD default := by simp
      rw [h2]
      exact hbd y hy
    have := ih ((h :: tc) ++ [z]) follows (by simp) hok2 hbd2
    rw [this]
    congr 1
    simp

/-- Reconstruction: `group_by` is the unique grouping — applying it to
the concatenation of a valid grouping returns that grouping. -/
theorem group_by_flatten {α : Type} [Inhabited α] (e : α → α → Bool) :
    ∀ (gs : List (List α)), is_grouping e gs → group_by gs.flatten e = gs := by
  intro gs
  induction gs with
  | nil => intro _; rfl
  | cons g gs ih =>
    intro ⟨hne, hok, hch⟩
    obtain ⟨h, t, rfl⟩ : ∃ h t, g = h :: t := by
      have := hne _ (List.mem_cons_self g gs)
      match g, this with
      | h :: t, _ => exact ⟨h, t, rfl⟩
    show group_by_go e (h :: (t ++ gs.flatten)) [] = _
    rw [group_by_go]
    rw [if_pos (by simp)]
    show group_by_go e (t ++ gs.flatten) [h] = _
    have hokg : group_ok e ([h] ++ t) := hok _ (List.mem_cons_self _ _)
    have hbd : ∀ y ∈ gs.flatten.head?, e y (([h] ++ t).headD default) = false := by
      intro y hy
      match gs, hch, hne with
      | [], _, _ => simp at hy
      | g2 :: gs', hch, hne =>
        obtain ⟨h2, t2, hg2⟩ : ∃ h2 t2, g2 = h2 :: t2 := by
          have hne2 := hne _ (List.mem_cons_of_mem _ (List.mem_cons_self g2 gs'))
          match g2, hne2 with
          | h2 :: t2, _ => exact ⟨h2, t2, rfl⟩
        subst hg2
        have hyh : y = h2 := by
          simp only [List.flatten_cons, List.cons_append, List.head?_cons,
            Option.mem_def, Option.some.injEq] at hy
          exact hy.symm
        subst hyh
        have hrel := (List.chain'_cons.mp hch).1
        simpa using hrel
    have hrun := go_run e t [h] gs.flatten (by simp) hokg hbd
    rw [hrun]
    have hih : group_by gs.flatten e = gs := by
      apply ih
      refine ⟨?_, ?_, ?_⟩
      · intro g hg; exact hne g (List.mem_cons_of_mem _ hg)
      · intro g hg; exact hok g (List.mem_cons_of_mem _ hg)
      · exact (List.chain'_cons'.mp hch).2
    rw [hih]
    rfl

/-! ### Invariants of the `rule_asc` successor machine -/

/-- Every composition yielded by `rule_asc n` sums to `n`, is nonempty,
has all parts ≥ 1 and is non-decreasing. -/
def asc_ok (n : Nat) (c : List Nat) : Prop :=
  c.sum = n ∧ c ≠ [] ∧ (∀ x ∈ c, 1 ≤ x) ∧ c.Chain' (fun a b => a ≤ b)

theorem fill_fuel_sum : ∀ (fuel x y : Nat), (fill_fuel fuel x y).sum = x + y := by
  intro fuel
  induction fuel with
  | zero => intro x y; simp [fill_fuel]
  | succ fuel ih =>
    intro x y
    rw [fill_fuel]
    by_cases h : x ≤ y
    · rw [if_pos h]
      simp only [List.sum_cons, ih]
      omega
    · rw [if_neg h]
      simp

theorem fill_fuel_mem : ∀ (fuel x y : Nat), ∀ z ∈ fill_fuel fuel x y, x ≤ z := by
  intro fuel
  induction fuel with
  | zero => intro x y z hz; simp [fill_fuel] at hz; omega
  | succ fuel ih =>
    intro x y z hz
    rw [fill_fuel] at hz
    by_cases h : x ≤ y
    · rw [if_pos h] at hz
      rcases List.mem_cons.mp hz with hz | hz
      · omega
      · exact ih x (y - x) z hz
    · rw [if_neg h] at hz
      simp at hz
      omega

theorem fill_fuel_chain : ∀ (fuel x y : Nat),
    (fill_fuel fuel x y).Chain' (fun a b => a ≤ b) := by
  intro fuel
  induction fuel with
  | zero => intro x y; simp [fill_fuel]
  | succ fuel ih =>
    intro x y
    rw [fill_fuel]
    by_cases h : x ≤ y
    · rw [if_pos h]
      rw [List.chain'_cons']
      refine ⟨?_, ih x (y - x)⟩
      intro z hz
      exact fill_fuel_mem fuel x (y - x) z (List.mem_of_mem_head? hz)
    · rw [if_neg h]
      simp

theorem fill_fuel_ne_nil : ∀ (fuel x y : Nat), fill_fuel fuel x y ≠ [] := by
  intro fuel x y
  cases fuel with
  | zero => simp [fill_fuel]
  | succ fuel =>
    rw [fill_fuel]
    by_cases h : x ≤ y
    · rw [if_pos h]; simp
    · rw [if_neg h]; simp

theorem succ_asc_head (b : Nat) (rest : List Nat) (hrest : rest ≠ []) :
    ∀ z ∈ (succ_asc (b :: rest)).head?, b ≤ z := by
  intro z hz
  match rest, hrest with
  | [c], _ =>
    have he : succ_asc [b, c] = fill_fuel (c - 1 + 1) (b + 1) (c - 1) := rfl
    rw [he] at hz
    have := fill_fuel_mem (c - 1 + 1) (b + 1) (c - 1) z (List.mem_of_mem_head? hz)
    omega
  | c :: d :: rest', _ =>
    have he : succ_asc (b :: c :: d :: rest') = b :: succ_asc (c :: d :: rest') := rfl
    rw [he] at hz
    simp at hz
    omega

theorem succ_asc_ok0 : ∀ (c : List Nat), 2 ≤ c.length →
    (∀ x ∈ c, 1 ≤ x) → c.Chain' (fun a b => a ≤ b) →
    (succ_asc c).sum = c.sum ∧ succ_asc c ≠ [] ∧
      (∀ x ∈ succ_asc c, 1 ≤ x) ∧ (succ_asc c).Chain' (fun a b => a ≤ b) := by
  intro c
  induction c with
  | nil => intro hlen; simp at hlen
  | cons a tail ih =>
    intro hlen hpos hch
    cases tail with
    | nil => simp at hlen
    | cons b rest2 =>
    cases rest2 with
    | nil =>
      have he : succ_asc [a, b] = fill_fuel (b - 1 + 1) (a + 1) (b - 1) := rfl
      have hb : 1 ≤ b := hpos b (by simp)
      refine ⟨?_, ?_, ?_, ?_⟩
      · rw [he, fill_fuel_sum]
        simp only [List.sum_cons, List.sum_nil]
        omega
      · rw [he]; exact fill_fuel_ne_nil _ _ _
      · rw [he]
        intro x hx
        have := fill_fuel_mem _ _ _ x hx
        omega
      · rw [he]; exact fill_fuel_chain _ _ _
    | cons c' rest =>
      have he : succ_asc (a :: b :: c' :: rest) = a :: succ_asc (b :: c' :: rest) := rfl
      have htail : ∀ x ∈ b :: c' :: rest, 1 ≤ x :=
        fun x hx => hpos x (List.mem_cons_of_mem _ hx)
      have hchtail : (b :: c' :: rest).Chain' (fun a b => a ≤ b) :=
        (List.chain'_cons'.mp hch).2
      obtain ⟨h1, h2, h3, h4⟩ := ih (by simp) htail hchtail
      refine ⟨?_, ?_, ?_, ?_⟩
      · rw [he]
        simp only [List.sum_cons, h1]
      · rw [he]; simp
      · rw [he]
        intro x hx
        rcases List.mem_cons.mp hx with hx | hx
        · rw [hx]; exact hpos a (by simp)
        · exact h3 x hx
      · rw [he]
        rw [List.chain'_cons']
        refine ⟨?_, h4⟩
        intro z hz
        have hab : a ≤ b := by
          have := (List.chain'_cons'.mp hch).1
          simpa using this b (by simp)
        have hbz := succ_asc_head b (c' :: rest) (by simp) z hz
        omega

theorem rule_asc_fuel_ok : ∀ (fuel n : Nat) (c : List Nat), asc_ok n c →
    ∀ d ∈ rule_asc_fuel fuel c, asc_ok n d := by
  intro fuel
  induction fuel with
  | zero => intro n c _ d hd; simp [rule_asc_fuel] at hd
  | succ fuel ih =>
    intro n c hc d hd
    rw [rule_asc_fuel] at hd
    by_cases h : c.length ≤ 1
    · rw [if_pos h] at hd; simp at hd
    · rw [if_neg h] at hd
      have hd' : d ∈ succ_asc c :: rule_asc_fuel fuel (succ_asc c) := hd
      have hsucc : asc_ok n (succ_asc c) := by
        obtain ⟨hsum, hne, hpos, hch⟩ := hc
        obtain ⟨hs1, hs2, hs3, hs4⟩ := succ_asc_ok0 c (by omega) hpos hch
        exact ⟨by rw [hs1, hsum], hs2, hs3, hs4⟩
      rcases List.mem_cons.mp hd' with hd' | hd'
      · subst hd'; exact hsucc
      · exact ih n (succ_asc c) hsucc d hd'

theorem rule_asc_ok (n : Nat) (hn : 1 ≤ n) : ∀ d ∈ rule_asc n, asc_ok n d := by
  intro d hd
  unfold rule_asc at hd
  obtain ⟨fuel, hfuel⟩ : ∃ fuel, 2 ^ n = fuel + 1 :=
    ⟨2 ^ n - 1, by have : 0 < 2 ^ n := pow_pos (by norm_num) n; omega⟩
  rw [hfuel, rule_asc_fuel] at hd
  rw [if_neg (by simp)] at hd
  have hd' : d ∈ succ_asc [0, n] :: rule_asc_fuel fuel (succ_asc [0, n]) := hd
  have hinit : asc_ok n (succ_asc [0, n]) := by
    have h1 : succ_asc [0, n] = fill_fuel (n - 1 + 1) 1 (n - 1) := rfl
    refine ⟨?_, ?_, ?_, ?_⟩
    · rw [h1, fill_fuel_sum]; omega
    · rw [h1]; exact fill_fuel_ne_nil _ _ _
    · rw [h1]
      intro x hx
      exact fill_fuel_mem _ _ _ x hx
    · rw [h1]; exact fill_fuel_chain _ _ _
  rcases List.mem_cons.mp hd' with hd' | hd'
  · subst hd'; exact hinit
  · exact rule_asc_fuel_ok fuel n (succ_asc [0, n]) hinit d hd'

theorem partitions_ok (n : Nat) : ∀ part ∈ partitions n,
    asc_ok n part ∧ 2 ≤ part.length := by
  intro part hpart
  unfold partitions at hpart
  by_cases hn : 0 < n
  · rw [if_pos hn] at hpart
    have hlen : 2 ≤ part.length := by
      have := List.mem_takeWhile_imp hpart
      simp only [decide_eq_true_eq] at this
      omega
    have hmem : part ∈ rule_asc n :=
      (( List.takeWhile_prefix _).sublist.subset) hpart
    exact ⟨rule_asc_ok n hn part hmem, hlen⟩
  · rw [if_neg hn] at hpart
    simp at hpart

theorem sum_ge_length : ∀ (l : List Nat), (∀ x ∈ l, 1 ≤ x) → l.length ≤ l.sum := by
  intro l
  induction l with
  | nil => simp
  | cons a t ih =>
    intro h
    simp only [List.length_cons, List.sum_cons]
    have h1 := ih (fun x hx => h x (List.mem_cons_of_mem _ hx))
    have h2 := h a (List.mem_cons_self _ _)
    omega

theorem partitions_parts (n : Nat) : ∀ part ∈ partitions n, ∀ p ∈ part,
    1 ≤ p ∧ p ≤ n - 1 := by
  intro part hpart p hp
  obtain ⟨⟨hsum, _, hpos, _⟩, hlen⟩ := partitions_ok n part hpart
  refine ⟨hpos p hp, ?_⟩
  obtain ⟨l1, l2, rfl⟩ := List.append_of_mem hp
  have hs1 := sum_ge_length l1 (fun x hx => hpos x (by simp [hx]))
  have hs2 := sum_ge_length l2 (fun x hx => hpos x (by simp [hx]))
  simp only [List.sum_append, List.sum_cons] at hsum
  simp only [List.length_append, List.length_cons] at hlen
  omega

theorem group_head_mem (part : List Nat) :
    ∀ g ∈ group_partition part, g.headD 0 ∈ part := by
  intro g hg
  have hspec := group_by_spec (fun x y : Nat => x == y) part
  have hflat := hspec.1
  have hne : g ≠ [] := hspec.2.1 g hg
  obtain ⟨h, t, rfl⟩ : ∃ h t, g = h :: t := by
    match g, hne with
    | h :: t, _ => exact ⟨h, t, rfl⟩
  show h ∈ part
  rw [← hflat]
  exact List.mem_flatten.mpr ⟨h :: t, hg, List.mem_cons_self _ _⟩

/-! ### `num_shapes`: fuel adequacy and the recursion -/

theorem num_shapes_fuel_le_one (f m : Nat) (hm : m ≤ 1) : num_shapes_fuel f m = m := by
  cases f with
  | zero => rw [num_shapes_fuel, if_pos hm]
  | succ f => rw [num_shapes_fuel, if_pos hm]

theorem num_shapes_fuel_eq : ∀ (m f1 f2 : Nat), m ≤ f1 → m ≤ f2 →
    num_shapes_fuel f1 m = num_shapes_fuel f2 m := by
  intro m
  induction m using Nat.strong_induction_on with
  | _ m ih =>
    intro f1 f2 hf1 hf2
    by_cases hm : m ≤ 1
    · rw [num_shapes_fuel_le_one f1 m hm, num_shapes_fuel_le_one f2 m hm]
    · obtain ⟨f1p, rfl⟩ : ∃ f1p, f1 = f1p + 1 := ⟨f1 - 1, by omega⟩
      obtain ⟨f2p, rfl⟩ : ∃ f2p, f2 = f2p + 1 := ⟨f2 - 1, by omega⟩
      rw [num_shapes_fuel, num_shapes_fuel, if_neg hm, if_neg hm]
      apply congrArg List.sum
      apply List.map_congr_left
      intro part hpart
      apply congrArg List.prod
      apply List.map_congr_left
      intro g hg
      have hmem : g.headD 0 ∈ part := group_head_mem part g hg
      have hbound := partitions_parts m part hpart (g.headD 0) hmem
      have heq : num_shapes_fuel f1p (g.headD 0) = num_shapes_fuel f2p (g.headD 0) :=
        ih (g.headD 0) (by omega) f1p f2p (by omega) (by omega)
      rw [heq]

theorem num_shapes_rec_eq (n : Nat) (hn : 2 ≤ n) :
    num_shapes n = ((partitions n).map num_tree_pairings).sum := by
  unfold num_shapes
  obtain ⟨np, rfl⟩ : ∃ np, n = np + 1 := ⟨n - 1, by omega⟩
  rw [num_shapes_fuel, if_neg (by omega)]
  apply congrArg List.sum
  apply List.map_congr_left
  intro part hpart
  unfold num_tree_pairings
  apply congrArg List.prod
  apply List.map_congr_left
  intro g hg
  have hmem : g.headD 0 ∈ part := group_head_mem part g hg
  have hbound := partitions_parts (np + 1) part hpart (g.headD 0) hmem
  have heq : num_shapes_fuel np (g.headD 0) = num_shapes_fuel (g.headD 0) (g.headD 0) :=
    num_shapes_fuel_eq (g.headD 0) np (g.headD 0) (by omega) (by omega)
  rw [heq]
  rfl

/-- C6 counterexample: the code's `num_shapes` counts multifurcating
shapes, so `num_shapes 3 = 2` and `num_shapes 4 = 5`, refuting the
claimed values `num_shapes(3) = 1` and `num_shapes(4) = 2`. -/
theorem num_shapes_values_cex :
    num_shapes 3 = 2 ∧ num_shapes 4 = 5 ∧ ¬(num_shapes 3 = 1 ∧ num_shapes 4 = 2) := by
  refine ⟨by decide, by decide, ?_⟩
  intro h
  have h3 : num_shapes 3 = 2 := by decide
  omega

/-- C6 (amended): `num_shapes 0 = 0`, `num_shapes 1 = 1`,
`num_shapes 2 = 1`, `num_shapes 3 = 2`, `num_shapes 4 = 5`, and for
every `n ≥ 2`, `num_shapes n` is the sum over the partitions of `n`
of `num_tree_pairings`. -/
theorem num_shapes_values_amended :
    num_shapes 0 = 0 ∧ num_shapes 1 = 1 ∧ num_shapes 2 = 1 ∧
    num_shapes 3 = 2 ∧ num_shapes 4 = 5 ∧
    ∀ n, 2 ≤ n → num_shapes n = ((partitions n).map num_tree_pairings).sum := by
  refine ⟨by decide, by decide, by decide, by decide, by decide, ?_⟩
  intro n hn
  exact num_shapes_rec_eq n hn

theorem num_shapes_values_amended_witness :
    2 ≤ 5 ∧ num_shapes 5 = ((partitions 5).map num_tree_pairings).sum :=
  ⟨by decide, num_shapes_values_amended.2.2.2.2.2 5 (by decide)⟩

/-! ### `is_symmetrical` -/

theorem dedup_length_one {α : Type} [DecidableEq α] (l : List α) (a : α)
    (hmem : a ∈ l) (hall : ∀ x ∈ l, x = a) : l.dedup.length = 1 := by
  have hamem : a ∈ l.dedup := List.mem_dedup.mpr hmem
  have hnd := l.nodup_dedup
  have hall2 : ∀ x ∈ l.dedup, x = a := fun x hx => hall x (List.mem_dedup.mp hx)
  cases hd : l.dedup with
  | nil => rw [hd] at hamem; simp at hamem
  | cons b tl =>
    cases tl with
    | nil => rfl
    | cons b2 tl2 =>
      exfalso
      rw [hd] at hnd hall2
      have hb : b = a := hall2 b (by simp)
      have hb2 : b2 = a := hall2 b2 (by simp)
      rw [List.nodup_cons] at hnd
      exact hnd.1 (by simp [hb, hb2])

theorem dedup_length_ne_one {α : Type} [DecidableEq α] (l : List α) (a b : α)
    (ha : a ∈ l) (hb : b ∈ l) (hab : a ≠ b) : l.dedup.length ≠ 1 := by
  intro h1
  obtain ⟨c, hc⟩ := List.length_eq_one.mp h1
  have ha2 : a ∈ l.dedup := List.mem_dedup.mpr ha
  have hb2 : b ∈ l.dedup := List.mem_dedup.mpr hb
  rw [hc] at ha2 hb2
  simp at ha2 hb2
  exact hab (ha2.trans hb2.symm)

/-- C9: for every tree whose children all share one leaf count and one
shape rank, `is_symmetrical` returns `true` (leaves included, where the
source returns `True` directly); and for every tree with two children
of different leaf counts, `is_symmetrical` returns `false`. -/
theorem is_symmetrical_spec (t : RankTree) :
    ((∀ c1 ∈ t.children, ∀ c2 ∈ t.children,
        c1.num_leaves = c2.num_leaves ∧ c1.shape_rank = c2.shape_rank) →
      t.is_symmetrical = true) ∧
    (∀ c1 ∈ t.children, ∀ c2 ∈ t.children,
      c1.num_leaves ≠ c2.num_leaves → t.is_symmetrical = false) := by
  constructor
  · intro h
    unfold RankTree.is_symmetrical
    by_cases hl : t.is_leaf
    · rw [if_pos hl]
    · rw [if_neg hl]
      obtain ⟨c, cs, hc⟩ : ∃ c cs, t.children = c :: cs := by
        cases hch : t.children with
        | nil =>
          exfalso; apply hl
          unfold RankTree.is_leaf; rw [hch]; rfl
        | cons c cs => exact ⟨c, cs, rfl⟩
      rw [Bool.and_eq_true, beq_iff_eq, beq_iff_eq]
      have hcmem : c ∈ t.children := by rw [hc]; simp
      constructor
      · apply dedup_length_one _ c.num_leaves
        · unfold RankTree.leaf_partition
          exact List.mem_map.mpr ⟨c, hcmem, rfl⟩
        · intro x hx
          unfold RankTree.leaf_partition at hx
          obtain ⟨c2, hc2mem, rfl⟩ := List.mem_map.mp hx
          exact (h c2 hc2mem c hcmem).1
      · apply dedup_length_one _ c.shape_rank
        · exact List.mem_map.mpr ⟨c, hcmem, rfl⟩
        · intro x hx
          obtain ⟨c2, hc2mem, rfl⟩ := List.mem_map.mp hx
          exact (h c2 hc2mem c hcmem).2
  · intro c1 h1 c2 h2 hne
    unfold RankTree.is_symmetrical
    have hl : t.is_leaf = false := by
      unfold RankTree.is_leaf
      cases hch : t.children with
      | nil => rw [hch] at h1; simp at h1
      | cons c cs => rfl
    rw [if_neg (by simp [hl])]
    have hfst : (t.leaf_partition.dedup.length == 1) = false := by
      rw [beq_eq_false_iff_ne]
      apply dedup_length_ne_one _ c1.num_leaves c2.num_leaves
      · exact List.mem_map.mpr ⟨c1, h1, rfl⟩
      · exact List.mem_map.mpr ⟨c2, h2, rfl⟩
      · exact hne
    rw [hfst, Bool.false_and]

theorem is_symmetrical_spec_witness :
    (RankTree.mk [RankTree.mk [] 1 [some 0] none none,
        RankTree.mk [] 1 [some 1] none none] 2 [some 0, some 1] none none).is_symmetrical
      = true ∧
    (RankTree.mk [RankTree.mk [RankTree.mk [] 1 [some 0] none none,
          RankTree.mk [] 1 [some 1] none none] 2 [some 0, some 1] none none,
        RankTree.mk [] 1 [some 2] none none] 3 [some 0, some 1, some 2] none
        none).is_symmetrical = false := by
  constructor
  · exact (is_symmetrical_spec _).1 (by
      intro c1 hc1 c2 hc2
      simp only [RankTree.children, List.mem_cons, List.not_mem_nil, or_false] at hc1 hc2
      rcases hc1 with hc1 | hc1 <;> rcases hc2 with hc2 | hc2 <;>
        rw [hc1, hc2] <;> exact ⟨rfl, rfl⟩)
  · exact (is_symmetrical_spec _).2
      (RankTree.mk [RankTree.mk [] 1 [some 0] none none,
        RankTree.mk [] 1 [some 1] none none] 2 [some 0, some 1] none none)
      (by simp [RankTree.children])
      (RankTree.mk [] 1 [some 2] none none)
      (by simp [RankTree.children])
      (by decide)

/-! ### `rule_asc`: termination measure, ordering and completeness -/

/-- Termination measure: the sum over the proper nonempty suffixes `t`
of `2 ^ (t.sum - 1)`; it strictly decreases at each `succ_asc` step. -/
def mu : List Nat → Nat
  | [] => 0
  | [_] => 0
  | _ :: b :: rest => 2 ^ ((b :: rest).sum - 1) + mu (b :: rest)

theorem mu_cons (a : Nat) (rest : List Nat) (h : rest ≠ []) :
    mu (a :: rest) = 2 ^ (rest.sum - 1) + mu rest := by
  cases rest with
  | nil => exact absurd rfl h
  | cons b t => rfl

theorem succ_asc_ne_nil (b : Nat) (rest : List Nat) : succ_asc (b :: rest) ≠ [] := by
  cases rest with
  | nil => simp [succ_asc]
  | cons c t =>
    cases t with
    | nil =>
      have he : succ_asc [b, c] = fill_fuel (c - 1 + 1) (b + 1) (c - 1) := rfl
      rw [he]
      exact fill_fuel_ne_nil _ _ _
    | cons d t2 =>
      have he : succ_asc (b :: c :: d :: t2) = b :: succ_asc (c :: d :: t2) := rfl
      rw [he]
      simp

theorem succ_asc_sum : ∀ (c : List Nat), (∀ z ∈ c, 1 ≤ z) →
    (succ_asc c).sum = c.sum := by
  intro c
  induction c with
  | nil => intro _; rfl
  | cons a tail ih =>
    intro hpos
    cases tail with
    | nil => rfl
    | cons b rest2 =>
    cases rest2 with
    | nil =>
      have he : succ_asc [a, b] = fill_fuel (b - 1 + 1) (a + 1) (b - 1) := rfl
      have hb : 1 ≤ b := hpos b (by simp)
      rw [he, fill_fuel_sum]
      simp only [List.sum_cons, List.sum_nil]
      omega
    | cons c' rest =>
      have he : succ_asc (a :: b :: c' :: rest) = a :: succ_asc (b :: c' :: rest) := rfl
      rw [he]
      simp only [List.sum_cons]
      rw [ih (fun z hz => hpos z (List.mem_cons_of_mem _ hz))]
      simp [List.sum_cons]

theorem fill_mu : ∀ (fuel x y : Nat), 1 ≤ x → mu (fill_fuel fuel x y) < 2 ^ y := by
  intro fuel
  induction fuel with
  | zero =>
    intro x y _
    show mu [x + y] < 2 ^ y
    have : mu [x + y] = 0 := rfl
    rw [this]
    exact Nat.pos_pow_of_pos y (by norm_num)
  | succ fuel ih =>
    intro x y hx
    rw [fill_fuel]
    by_cases h : x ≤ y
    · rw [if_pos h]
      have hne := fill_fuel_ne_nil fuel x (y - x)
      rw [mu_cons x _ hne]
      have hsum : (fill_fuel fuel x (y - x)).sum = y := by
        rw [fill_fuel_sum]; omega
      rw [hsum]
      have hih := ih x (y - x) hx
      have hmono : 2 ^ (y - x) ≤ 2 ^ (y - 1) :=
        Nat.pow_le_pow_right (by norm_num) (by omega)
      have hy1 : 1 ≤ y := by omega
      have hsplit : 2 ^ (y - 1) + 2 ^ (y - 1) = 2 ^ y := by
        have h2 : 2 ^ y = 2 ^ (y - 1) * 2 := by
          rw [← pow_succ]
          congr 1
          omega
        omega
      omega
    · rw [if_neg h]
      have : mu [x + y] = 0 := rfl
      rw [this]
      exact Nat.pos_pow_of_pos y (by norm_num)

theorem mu_succ_lt : ∀ (c : List Nat), 2 ≤ c.length → (∀ z ∈ c, 1 ≤ z) →
    mu (succ_asc c) < mu c := by
  intro c
  induction c with
  | nil => intro hlen; simp at hlen
  | cons a tail ih =>
    intro hlen hpos
    cases tail with
    | nil => simp at hlen
    | cons b rest2 =>
    cases rest2 with
    | nil =>
      have he : succ_asc [a, b] = fill_fuel (b - 1 + 1) (a + 1) (b - 1) := rfl
      have hmu : mu [a, b] = 2 ^ (b - 1) := by
        show 2 ^ ([b].sum - 1) + mu [b] = 2 ^ (b - 1)
        simp [mu]
      rw [he, hmu]
      exact fill_mu (b - 1 + 1) (a + 1) (b - 1) (by omega)
    | cons c' rest =>
      have he : succ_asc (a :: b :: c' :: rest) = a :: succ_asc (b :: c' :: rest) := rfl
      have htailpos : ∀ z ∈ b :: c' :: rest, 1 ≤ z :=
        fun z hz => hpos z (List.mem_cons_of_mem _ hz)
      rw [he, mu_cons a _ (succ_asc_ne_nil _ _), mu_cons a _ (by simp)]
      rw [succ_asc_sum (b :: c' :: rest) htailpos]
      have := ih (by simp) htailpos
      omega

theorem succ_asc_gt : ∀ (c : List Nat), 2 ≤ c.length → (∀ z ∈ c, 1 ≤ z) →
    List.Lex (fun a b => a < b) c (succ_asc c) := by
  intro c
  induction c with
  | nil => intro hlen; simp at hlen
  | cons a tail ih =>
    intro hlen hpos
    cases tail with
    | nil => simp at hlen
    | cons b rest2 =>
    cases rest2 with
    | nil =>
      have he : succ_asc [a, b] = fill_fuel (b - 1 + 1) (a + 1) (b - 1) := rfl
      rw [he]
      cases hf : fill_fuel (b - 1 + 1) (a + 1) (b - 1) with
      | nil => exact absurd hf (fill_fuel_ne_nil _ _ _)
      | cons h t =>
        have hmem : h ∈ fill_fuel (b - 1 + 1) (a + 1) (b - 1) := by
          rw [hf]; simp
        have hha := fill_fuel_mem _ _ _ h hmem
        exact List.Lex.rel (by omega)
    | cons c' rest =>
      have he : succ_asc (a :: b :: c' :: rest) = a :: succ_asc (b :: c' :: rest) := rfl
      rw [he]
      exact List.Lex.cons (ih (by simp)
        (fun z hz => hpos z (List.mem_cons_of_mem _ hz)))

theorem rule_asc_fuel_chain : ∀ (fuel n : Nat) (c : List Nat), asc_ok n c →
    List.Chain' (fun p q => List.Lex (fun a b => a < b) p q)
      (c :: rule_asc_fuel fuel c) := by
  intro fuel
  induction fuel with
  | zero =>
    intro n c _
    show List.Chain' _ [c]
    simp
  | succ fuel ih =>
    intro n c hc
    rw [rule_asc_fuel]
    by_cases h : c.length ≤ 1
    · rw [if_pos h]; simp
    · rw [if_neg h]
      show List.Chain' _ (c :: succ_asc c :: rule_asc_fuel fuel (succ_asc c))
      obtain ⟨hsum, hne, hpos, hch⟩ := hc
      have hsucc : asc_ok n (succ_asc c) := by
        obtain ⟨hs1, hs2, hs3, hs4⟩ := succ_asc_ok0 c (by omega) hpos hch
        exact ⟨by rw [hs1, hsum], hs2, hs3, hs4⟩
      rw [List.chain'_cons]
      exact ⟨succ_asc_gt c (by omega) hpos, ih n (succ_asc c) hsucc⟩

theorem init_state_ok (n : Nat) (hn : 1 ≤ n) : asc_ok n (succ_asc [0, n]) := by
  have h1 : succ_asc [0, n] = fill_fuel (n - 1 + 1) 1 (n - 1) := rfl
  refine ⟨?_, ?_, ?_, ?_⟩
  · rw [h1, fill_fuel_sum]; omega
  · rw [h1]; exact fill_fuel_ne_nil _ _ _
  · rw [h1]; intro x hx; exact fill_fuel_mem _ _ _ x hx
  · rw [h1]; exact fill_fuel_chain _ _ _

theorem rule_asc_chain (n : Nat) :
    (rule_asc n).Chain' (fun p q => List.Lex (fun a b => a < b) p q) := by
  unfold rule_asc
  obtain ⟨fuel, hfuel⟩ : ∃ fuel, 2 ^ n = fuel + 1 :=
    ⟨2 ^ n - 1, by have : 0 < 2 ^ n := pow_pos (by norm_num) n; omega⟩
  rw [hfuel, rule_asc_fuel]
  rw [if_neg (by simp)]
  show List.Chain' _ (succ_asc [0, n] :: rule_asc_fuel fuel (succ_asc [0, n]))
  by_cases hn : 1 ≤ n
  · exact rule_asc_fuel_chain fuel n (succ_asc [0, n]) (init_state_ok n hn)
  · have hn0 : n = 0 := by omega
    subst hn0
    have hfuel0 : fuel = 0 := by
      have : (2 : Nat) ^ 0 = 1 := rfl
      omega
    subst hfuel0
    simp [rule_asc_fuel]

/-- Reflexive closure of the lexicographic order. -/
def lexLe (p q : List Nat) : Prop := List.Lex (fun a b => a < b) p q ∨ p = q

theorem lexLe_cons (a : Nat) (l1 l2 : List Nat) (h : lexLe l1 l2) :
    lexLe (a :: l1) (a :: l2) := by
  rcases h with h | h
  · exact Or.inl (List.Lex.cons h)
  · rw [h]; exact Or.inr rfl

theorem chain_head_le (x : Nat) (l : List Nat)
    (hch : (x :: l).Chain' (fun a b => a ≤ b)) : ∀ z ∈ x :: l, x ≤ z := by
  intro z hz
  rw [List.chain'_iff_pairwise] at hch
  rcases List.mem_cons.mp hz with rfl | hz
  · exact le_refl z
  · exact (List.pairwise_cons.mp hch).1 z hz

theorem fill_min : ∀ (fuel x y : Nat) (p : List Nat), 1 ≤ x → y ≤ fuel →
    p.sum = x + y → p ≠ [] → (∀ z ∈ p, x ≤ z) →
    lexLe (fill_fuel fuel x y) p := by
  intro fuel
  induction fuel with
  | zero =>
    intro x y p hx hyf hsum hne hbd
    have hy0 : y = 0 := by omega
    subst hy0
    cases p with
    | nil => exact absurd rfl hne
    | cons p1 p2 =>
      have hp1 : x ≤ p1 := hbd p1 (by simp)
      simp only [List.sum_cons] at hsum
      cases p2 with
      | nil =>
        right
        show [x + 0] = [p1]
        simp only [List.sum_nil] at hsum
        simp
        omega
      | cons z t =>
        exfalso
        have hz : x ≤ z := hbd z (by simp)
        simp only [List.sum_cons] at hsum
        omega
  | succ fuel ih =>
    intro x y p hx hyf hsum hne hbd
    rw [fill_fuel]
    by_cases h : x ≤ y
    · rw [if_pos h]
      cases p with
      | nil => exact absurd rfl hne
      | cons p1 p2 =>
        have hp1 : x ≤ p1 := hbd p1 (by simp)
        rcases Nat.lt_or_ge x p1 with hlt | hge
        · exact Or.inl (List.Lex.rel hlt)
        · have hxp1 : p1 = x := by omega
          have hp2ne : p2 ≠ [] := by
            intro hnil
            subst hnil
            simp only [List.sum_cons, List.sum_nil] at hsum
            omega
          have hsum2 : p2.sum = x + (y - x) := by
            simp only [List.sum_cons] at hsum
            omega
          have hrec := ih x (y - x) p2 hx (by omega) hsum2 hp2ne
            (fun z hz => hbd z (List.mem_cons_of_mem _ hz))
          rw [hxp1]
          exact lexLe_cons x _ _ hrec
    · rw [if_neg h]
      cases p with
      | nil => exact absurd rfl hne
      | cons p1 p2 =>
        have hp1 : x ≤ p1 := hbd p1 (by simp)
        cases p2 with
        | nil =>
          right
          show [x + y] = [p1]
          simp only [List.sum_cons, List.sum_nil] at hsum
          simp
          omega
        | cons z t =>
          exfalso
          have hz : x ≤ z := hbd z (by simp)
          simp only [List.sum_cons] at hsum
          omega

theorem succ_min : ∀ (c : List Nat), 2 ≤ c.length → (∀ z ∈ c, 1 ≤ z) →
    c.Chain' (fun a b => a ≤ b) →
    ∀ (p : List Nat), p.sum = c.sum → (∀ z ∈ p, 1 ≤ z) →
    p.Chain' (fun a b => a ≤ b) → List.Lex (fun a b => a < b) c p →
    lexLe (succ_asc c) p := by
  intro c
  induction c with
  | nil => intro hlen; simp at hlen
  | cons a tail ih =>
    intro hlen hpos hch p hsum hppos hpch hlex
    cases tail with
    | nil => simp at hlen
    | cons b rest2 =>
    cases rest2 with
    | nil =>
      have he : succ_asc [a, b] = fill_fuel (b - 1 + 1) (a + 1) (b - 1) := rfl
      have hb : 1 ≤ b := hpos b (by simp)
      rw [he]
      cases hlex with
      | rel h1 =>
        apply fill_min
        · omega
        · omega
        · simp only [List.sum_cons, List.sum_nil] at hsum ⊢
          omega
        · simp
        · intro z hz
          have hh := chain_head_le _ _ hpch z hz
          omega
      | cons h1 =>
        cases h1 with
        | rel h2 =>
          exfalso
          simp only [List.sum_cons, List.sum_nil] at hsum
          omega
        | cons h2 =>
          cases h2 with
          | nil =>
            exfalso
            simp only [List.sum_cons, List.sum_nil] at hsum
            rename_i w t
            have hw : 1 ≤ w := hppos w (by simp)
            omega
    | cons c' rest =>
      have he : succ_asc (a :: b :: c' :: rest) = a :: succ_asc (b :: c' :: rest) := rfl
      rw [he]
      cases hlex with
      | rel h1 => exact Or.inl (List.Lex.rel h1)
      | cons h1 =>
        rename_i p'
        have hrec := ih (by simp)
          (fun z hz => hpos z (List.mem_cons_of_mem _ hz))
          ((List.chain'_cons'.mp hch).2)
          p'
          (by
            simp only [List.sum_cons] at hsum
            simp only [List.sum_cons]
            omega)
          (fun z hz => hppos z (List.mem_cons_of_mem _ hz))
          ((List.chain'_cons'.mp hpch).2)
          h1
        exact lexLe_cons a _ _ hrec

theorem valid_singleton (n : Nat) (p : List Nat) (hp : asc_ok n p)
    (hlen : p.length ≤ 1) : p = [n] := by
  obtain ⟨hsum, hne, _, _⟩ := hp
  cases p with
  | nil => exact absurd rfl hne
  | cons x t =>
    cases t with
    | nil =>
      simp only [List.sum_cons, List.sum_nil] at hsum
      simp
      omega
    | cons y t2 => simp at hlen

theorem lex_lt_top (n : Nat) (p : List Nat) (hp : asc_ok n p)
    (hlen : 2 ≤ p.length) : List.Lex (fun a b => a < b) p [n] := by
  obtain ⟨hsum, _, hpos, _⟩ := hp
  cases p with
  | nil => simp at hlen
  | cons p1 p2 =>
    cases p2 with
    | nil => simp at hlen
    | cons z t =>
      have hz : 1 ≤ z := hpos z (by simp)
      simp only [List.sum_cons] at hsum
      exact List.Lex.rel (by omega)

theorem rule_asc_fuel_complete : ∀ (fuel n : Nat) (c : List Nat),
    asc_ok n c → 2 ≤ c.length → mu c < fuel →
    ∀ p, asc_ok n p → 2 ≤ p.length → List.Lex (fun a b => a < b) c p →
    p ∈ rule_asc_fuel fuel c := by
  intro fuel
  induction fuel with
  | zero => intro n c _ _ hmu; omega
  | succ fuel ih =>
    intro n c hc hlen hmu p hp hplen hlex
    rw [rule_asc_fuel]
    rw [if_neg (by omega)]
    show p ∈ succ_asc c :: rule_asc_fuel fuel (succ_asc c)
    obtain ⟨hsum, hne, hpos, hch⟩ := hc
    have hsucc : asc_ok n (succ_asc c) := by
      obtain ⟨hs1, hs2, hs3, hs4⟩ := succ_asc_ok0 c (by omega) hpos hch
      exact ⟨by rw [hs1, hsum], hs2, hs3, hs4⟩
    have hpsum : p.sum = c.sum := by
      obtain ⟨hp1, _, _, _⟩ := hp
      rw [hp1, hsum]
    have hmin := succ_min c hlen hpos hch p hpsum hp.2.2.1 hp.2.2.2 hlex
    rcases hmin with hlt | heq
    · have hslen : 2 ≤ (succ_asc c).length := by
        by_contra hcon
        push_neg at hcon
        have hsn : succ_asc c = [n] := valid_singleton n (succ_asc c) hsucc (by omega)
        rw [hsn] at hlt
        have htop := lex_lt_top n p hp hplen
        exact (IsAsymm.asymm _ _ htop) hlt
      have hmuc : mu (succ_asc c) < fuel := by
        have := mu_succ_lt c (by omega) hpos
        omega
      exact List.mem_cons_of_mem _ (ih n (succ_asc c) hsucc hslen hmuc p hp hplen hlt)
    · rw [← heq]
      exact List.mem_cons_self _ _

theorem rule_asc_complete (n : Nat) (hn : 2 ≤ n) :
    ∀ p, asc_ok n p → 2 ≤ p.length → p ∈ rule_asc n := by
  intro p hp hplen
  unfold rule_asc
  obtain ⟨fuel, hfuel⟩ : ∃ fuel, 2 ^ n = fuel + 1 :=
    ⟨2 ^ n - 1, by have : 0 < 2 ^ n := pow_pos (by norm_num) n; omega⟩
  rw [hfuel, rule_asc_fuel]
  rw [if_neg (by simp)]
  show p ∈ succ_asc [0, n] :: rule_asc_fuel fuel (succ_asc [0, n])
  have hinit : asc_ok n (succ_asc [0, n]) := init_state_ok n (by omega)
  have he : succ_asc [0, n] = fill_fuel (n - 1 + 1) 1 (n - 1) := rfl
  have hmin : lexLe (succ_asc [0, n]) p := by
    rw [he]
    apply fill_min
    · omega
    · omega
    · rw [hp.1]; omega
    · exact hp.2.1
    · exact hp.2.2.1
  rcases hmin with hlt | heq
  · have hslen : 2 ≤ (succ_asc [0, n]).length := by
      by_contra hcon
      push_neg at hcon
      have hsn : succ_asc [0, n] = [n] := valid_singleton n _ hinit (by omega)
      rw [hsn] at hlt
      have htop := lex_lt_top n p hp hplen
      exact (IsAsymm.asymm _ _ htop) hlt
    have hmuc : mu (succ_asc [0, n]) < fuel := by
      have h1 : mu (succ_asc [0, n]) < 2 ^ (n - 1) := by
        rw [he]
        exact fill_mu _ _ _ (by omega)
      have h2 : 2 ^ n = 2 ^ (n - 1) * 2 := by
        rw [← pow_succ]
        congr 1
        omega
      omega
    exact List.mem_cons_of_mem _
      (rule_asc_fuel_complete fuel n (succ_asc [0, n]) hinit hslen hmuc p hp hplen hlt)
  · rw [← heq]
    exact List.mem_cons_self _ _

theorem mem_takeWhile_chain : ∀ (l : List (List Nat)),
    l.Chain' (fun p q => List.Lex (fun a b => a < b) p q) →
    ∀ p ∈ l, 1 < p.length →
    (∀ q ∈ l, q.length ≤ 1 → List.Lex (fun a b => a < b) p q) →
    p ∈ l.takeWhile (fun a => decide (1 < a.length)) := by
  intro l
  induction l with
  | nil => intro _ p hp; simp at hp
  | cons x xs ih =>
    intro hch p hp hplen hqs
    have hx : 1 < x.length := by
      by_contra hxle
      push_neg at hxle
      have h1 := hqs x (by simp) (by omega)
      rcases List.mem_cons.mp hp with rfl | hpxs
      · omega
      · have hxp : List.Lex (fun a b => a < b) x p := by
          rw [List.chain'_iff_pairwise] at hch
          exact (List.pairwise_cons.mp hch).1 p hpxs
        exact (IsAsymm.asymm _ _ hxp) h1
    rw [List.takeWhile_cons, if_pos (by simpa using hx)]
    rcases List.mem_cons.mp hp with rfl | hpxs
    · exact List.mem_cons_self _ _
    · exact List.mem_cons_of_mem _ (ih ((List.chain'_cons'.mp hch).2) p hpxs hplen
        (fun q hq hql => hqs q (List.mem_cons_of_mem _ hq) hql))

theorem partitions_complete (n : Nat) (hn : 2 ≤ n) (p : List Nat)
    (hp : asc_ok n p) (hlen : 2 ≤ p.length) : p ∈ partitions n := by
  unfold partitions
  rw [if_pos (by omega)]
  apply mem_takeWhile_chain
  · exact rule_asc_chain n
  · exact rule_asc_complete n hn p hp hlen
  · omega
  · intro q hq hql
    have hq_ok := rule_asc_ok n (by omega) q hq
    have hqn : q = [n] := valid_singleton n q hq_ok hql
    rw [hqn]
    exact lex_lt_top n p hp hlen

theorem partitions_chain (n : Nat) :
    (partitions n).Chain' (fun p q => List.Lex (fun a b => a < b) p q) := by
  unfold partitions
  by_cases hn : 0 < n
  · rw [if_pos hn]
    exact (rule_asc_chain n).sublist (( List.takeWhile_prefix _).sublist)
  · rw [if_neg hn]
    simp

/-- C7: for every `n ≥ 2`, `partitions n` yields exactly the ascending
(non-decreasing) compositions of `n` with at least 2 parts — every such
partition exactly once, the single-part `[n]` excluded — strictly
increasing in the lexicographic successor order; and for `n ≤ 1` it
yields nothing. -/
theorem partitions_enumeration_spec :
    (∀ n : Nat, n ≤ 1 → partitions n = []) ∧
    ∀ n : Nat, 2 ≤ n →
      (∀ part : List Nat, part ∈ partitions n ↔
        (part.sum = n ∧ (∀ x ∈ part, 1 ≤ x) ∧
          part.Chain' (fun a b => a ≤ b) ∧ 2 ≤ part.length)) ∧
      (partitions n).Chain' (fun p q => List.Lex (fun a b => a < b) p q) ∧
      (partitions n).Nodup := by
  constructor
  · intro n hn
    match n, hn with
    | 0, _ => rfl
    | 1, _ => rfl
  · intro n hn
    refine ⟨?_, partitions_chain n, ?_⟩
    · intro part
      constructor
      · intro hmem
        obtain ⟨⟨hsum, _, hpos, hch⟩, hlen⟩ := partitions_ok n part hmem
        exact ⟨hsum, hpos, hch, hlen⟩
      · intro ⟨hsum, hpos, hch, hlen⟩
        apply partitions_complete n hn part
        · refine ⟨hsum, ?_, hpos, hch⟩
          intro hnil
          rw [hnil] at hlen
          simp at hlen
        · exact hlen
    · have hpw := (List.chain'_iff_pairwise).mp (partitions_chain n)
      refine hpw.imp ?_
      intro a b hab
      intro habeq
      rw [habeq] at hab
      exact (IsAsymm.asymm _ _ hab) hab

theorem partitions_enumeration_spec_witness :
    partitions 1 = [] ∧
    (2 ≤ 4 ∧
      ([1, 3] ∈ partitions 4 ↔
        (List.sum [1, 3] = 4 ∧ (∀ x ∈ [1, 3], 1 ≤ x) ∧
          List.Chain' (fun a b => a ≤ b) [1, 3] ∧ 2 ≤ List.length [1, 3]))) :=
  ⟨partitions_enumeration_spec.1 1 (by decide),
   by decide,
   (partitions_enumeration_spec.2 4 (by decide)).1 [1, 3]⟩

/-! ### Unranking: success and round-trip infrastructure -/

theorem one_le_prod (l : List Nat) (h : ∀ x ∈ l, 1 ≤ x) : 1 ≤ l.prod := by
  induction l with
  | nil => simp
  | cons a t ih =>
    rw [List.prod_cons]
    have ha := h a (List.mem_cons_self _ _)
    have ht := ih (fun x hx => h x (List.mem_cons_of_mem _ hx))
    exact Nat.one_le_iff_ne_zero.mpr (by positivity)

theorem le_sum_of_mem (l : List Nat) (x : Nat) (hx : x ∈ l) : x ≤ l.sum := by
  induction l with
  | nil => simp at hx
  | cons a t ih =>
    rw [List.sum_cons]
    rcases List.mem_cons.mp hx with rfl | hx
    · omega
    · have := ih hx
      omega

theorem ntp_pos (part : List Nat) : 1 ≤ num_tree_pairings part := by
  unfold num_tree_pairings
  apply one_le_prod
  intro x hx
  obtain ⟨g, _, rfl⟩ := List.mem_map.mp hx
  exact Combination.one_le_cwrN _ _

theorem replicate_chain (k x : Nat) :
    (List.replicate k x).Chain' (fun a b => a ≤ b) := by
  induction k with
  | zero => simp
  | succ k ih =>
    rw [List.replicate_succ]
    rw [List.chain'_cons']
    refine ⟨?_, ih⟩
    intro y hy
    have := List.mem_of_mem_head? hy
    rw [List.mem_replicate] at this
    omega

theorem num_shapes_pos (k : Nat) (hk : 1 ≤ k) : 1 ≤ num_shapes k := by
  rcases Nat.lt_or_ge k 2 with hk2 | hk2
  · have : k = 1 := by omega
    subst this
    decide
  · rw [num_shapes_rec_eq k hk2]
    have hmem : List.replicate k 1 ∈ partitions k := by
      apply partitions_complete k hk2
      · refine ⟨?_, ?_, ?_, ?_⟩
        · rw [List.sum_replicate]; simp
        · intro hnil
          have := congrArg List.length hnil
          simp at this
          omega
        · intro x hx; rw [List.mem_replicate] at hx; omega
        · exact replicate_chain k 1
      · simp; omega
    have h1 : num_tree_pairings (List.replicate k 1) ∈
        (partitions k).map num_tree_pairings := List.mem_map.mpr ⟨_, hmem, rfl⟩
    have h2 := le_sum_of_mem _ _ h1
    have h3 := ntp_pos (List.replicate k 1)
    omega

theorem csr_walk_none : ∀ (ps : List (List Nat)) (rank : Nat),
    (ps.map num_tree_pairings).sum ≤ rank → csr_walk ps rank = none := by
  intro ps
  induction ps with
  | nil => intro rank _; rfl
  | cons p ps ih =>
    intro rank h
    show (if rank < num_tree_pairings p then some (p, rank)
      else csr_walk ps (rank - num_tree_pairings p)) = none
    simp only [List.map_cons, List.sum_cons] at h
    rw [if_neg (by omega)]
    exact ih _ (by omega)

theorem csr_walk_some : ∀ (ps : List (List Nat)) (rank : Nat),
    rank < (ps.map num_tree_pairings).sum →
    ∃ p r, csr_walk ps rank = some (p, r) ∧ p ∈ ps ∧ r < num_tree_pairings p := by
  intro ps
  induction ps with
  | nil => intro rank h; simp at h
  | cons p ps ih =>
    intro rank h
    show ∃ p' r, (if rank < num_tree_pairings p then some (p, rank)
      else csr_walk ps (rank - num_tree_pairings p)) = some (p', r) ∧ _ ∧ _
    by_cases hlt : rank < num_tree_pairings p
    · rw [if_pos hlt]
      exact ⟨p, rank, rfl, List.mem_cons_self _ _, hlt⟩
    · rw [if_neg hlt]
      simp only [List.map_cons, List.sum_cons] at h
      obtain ⟨p', r, heq, hmem, hr⟩ := ih (rank - num_tree_pairings p) (by omega)
      exact ⟨p', r, heq, List.mem_cons_of_mem _ hmem, hr⟩

namespace Combination

theorem unrank_some {α : Type} : ∀ (elements : List α) (k r : Nat),
    k ≤ elements.length → r < combN elements.length k →
    ∃ c, unrank r elements k = some c ∧ c.Sublist elements ∧ c.length = k := by
  intro elements
  induction elements with
  | nil =>
    intro k r hk _
    have hk0 : k = 0 := by simpa using hk
    subst hk0
    exact ⟨[], rfl, List.Sublist.refl _, rfl⟩
  | cons x xs ih =>
    intro k r hk hr
    cases k with
    | zero => exact ⟨[], rfl, List.nil_sublist _, rfl⟩
    | succ kp =>
      show ∃ c, (if r < combN ((x :: xs).length - 1) kp
        then (unrank r xs kp).map (fun c => x :: c)
        else unrank (r - combN ((x :: xs).length - 1) kp) xs (kp + 1)) = some c ∧ _ ∧ _
      have hlen : (x :: xs).length - 1 = xs.length := by simp
      rw [hlen]
      by_cases hlt : r < combN xs.length kp
      · rw [if_pos hlt]
        have hkp : kp ≤ xs.length := by simp at hk; omega
        obtain ⟨c, hc, hsub, hclen⟩ := ih kp r hkp hlt
        refine ⟨x :: c, ?_, List.Sublist.cons₂ x hsub, by simp [hclen]⟩
        rw [hc]
        rfl
      · rw [if_neg hlt]
        have hkp2 : kp + 1 ≤ xs.length := by
          by_contra hcon
          push_neg at hcon
          have hkpx : kp = xs.length := by simp at hk; omega
          subst hkpx
          rw [combN_eq_choose _ _ (by simp), List.length_cons, Nat.choose_self] at hr
          rw [combN_eq_choose _ _ (by omega), Nat.choose_self] at hlt
          omega
        have hpascal : combN (x :: xs).length (kp + 1) =
            combN xs.length kp + combN xs.length (kp + 1) := by
          rw [combN_eq_choose _ _ hk, combN_eq_choose _ _ (by omega),
            combN_eq_choose _ _ hkp2, List.length_cons]
          exact Nat.choose_succ_succ _ _
        obtain ⟨c, hc, hsub, hclen⟩ := ih (kp + 1) (r - combN xs.length kp)
          hkp2 (by omega)
        exact ⟨c, hc, hsub.cons x, hclen⟩

theorem set_minus_nodup {α : Type} [BEq α] (arr sub : List α) (h : arr.Nodup) :
    (set_minus arr sub).Nodup := (List.filter_sublist arr).nodup h

theorem set_minus_sublist {α : Type} [BEq α] (arr sub : List α) :
    (set_minus arr sub).Sublist arr := List.filter_sublist arr

theorem set_minus_length : ∀ (sub labels : List Nat), sub.Sublist labels →
    labels.Nodup → (set_minus labels sub).length = labels.length - sub.length := by
  intro sub labels h
  induction h with
  | slnil => intro _; rfl
  | @cons l1 l2 a h ih =>
    intro hnd
    rw [List.nodup_cons] at hnd
    have hanotin : a ∉ l1 := fun hmem => hnd.1 (h.subset hmem)
    unfold set_minus
    rw [List.filter_cons]
    have hcont : (l1.contains a) = false := by
      show List.elem a l1 = false
      rw [List.elem_eq_mem]
      simpa using hanotin
    rw [hcont]
    simp only [Bool.not_false, if_pos]
    show (a :: set_minus l2 l1).length = (a :: l2).length - l1.length
    rw [List.length_cons, ih hnd.2, List.length_cons]
    have := h.length_le
    omega
  | @cons₂ l1 l2 a h ih =>
    intro hnd
    rw [List.nodup_cons] at hnd
    unfold set_minus
    rw [List.filter_cons]
    have hcont : ((a :: l1).contains a) = true := by
      show List.elem a (a :: l1) = true
      rw [List.elem_eq_mem]
      simp
    rw [hcont]
    simp only [Bool.not_true, if_neg, Bool.false_eq_true, not_false_iff]
    have hsame : l2.filter (fun x => !(a :: l1).contains x) =
        l2.filter (fun x => !l1.contains x) := by
      apply List.filter_congr
      intro x hx
      have hxa : x ≠ a := fun hxy => hnd.1 (hxy ▸ hx)
      show (!List.elem x (a :: l1)) = !List.elem x l1
      rw [List.elem_eq_mem, List.elem_eq_mem]
      simp [List.mem_cons, hxa]
    rw [hsame]
    show (set_minus l2 l1).length = (a :: l2).length - (a :: l1).length
    rw [ih hnd.2]
    simp only [List.length_cons]
    omega

end Combination

theorem mapM_some_of_forall {α β : Type} (f : α → Option β) :
    ∀ (l : List α), (∀ x ∈ l, ∃ y, f x = some y) →
    ∃ ys, l.mapM f = some ys ∧ List.Forall₂ (fun x y => f x = some y) l ys := by
  intro l
  induction l with
  | nil => exact fun _ => ⟨[], rfl, List.Forall₂.nil⟩
  | cons x xs ih =>
    intro h
    obtain ⟨y, hy⟩ := h x (List.mem_cons_self _ _)
    obtain ⟨ys, hys, hfa⟩ := ih (fun z hz => h z (List.mem_cons_of_mem _ hz))
    refine ⟨y :: ys, ?_, List.forall₂_cons.mpr ⟨hy, hfa⟩⟩
    rw [List.mapM_cons, hy, hys]
    rfl

/-- The structural invariant of every tree built by `RankTree.init`
during unranking: leaves have one leaf; internal nodes have at least two
children (one per part of a partition with ≥ 2 parts), leaf counts that
sum up, and children determined by their `(num_leaves, shape_rank)` key
(two equal keys denote the same unranked subtree). -/
inductive uwf : RankTree → Prop where
  | leaf : ∀ l ms ml, uwf (.mk [] 1 l ms ml)
  | node : ∀ c n l ms ml, 2 ≤ c.length →
      n = (c.map RankTree.num_leaves).sum →
      (∀ x ∈ c, uwf x) →
      (∀ x ∈ c, ∀ y ∈ c, x.num_leaves = y.num_leaves → x.shape_rank = y.shape_rank →
        x = y) →
      uwf (.mk c n l ms ml)

theorem uwf_num_leaves_pos (t : RankTree) (h : uwf t) : 1 ≤ t.num_leaves := by
  induction h with
  | leaf l ms ml => exact le_refl 1
  | node c n l ms ml hlen hsum hwf hdet ih =>
    show 1 ≤ n
    rw [hsum]
    have hlensum := sum_ge_length (c.map RankTree.num_leaves) (by
      intro x hx
      obtain ⟨y, hy, rfl⟩ := List.mem_map.mp hx
      exact ih y hy)
    simp only [List.length_map] at hlensum
    omega

theorem forall2_mem_right {α β : Type} {R : α → β → Prop} :
    ∀ {l1 : List α} {l2 : List β}, List.Forall₂ R l1 l2 →
    ∀ b ∈ l2, ∃ a ∈ l1, R a b := by
  intro l1 l2 h
  induction h with
  | nil => intro b hb; simp at hb
  | cons hr ht ih =>
    intro b hb
    rcases List.mem_cons.mp hb with rfl | hb
    · exact ⟨_, List.mem_cons_self _ _, hr⟩
    · obtain ⟨a, ha, har⟩ := ih b hb
      exact ⟨a, List.mem_cons_of_mem _ ha, har⟩

theorem forall2_map_eq {α β γ : Type} {R : α → β → Prop} (f : α → γ) (g : β → γ) :
    ∀ {l1 : List α} {l2 : List β}, List.Forall₂ R l1 l2 →
    (∀ a b, R a b → f a = g b) → l1.map f = l2.map g := by
  intro l1 l2 h hfg
  induction h with
  | nil => rfl
  | cons hr ht ih => simp [hfg _ _ hr, ih]

theorem is_grouping_tail {α : Type} [Inhabited α] (e : α → α → Bool)
    (g : List α) (gs : List (List α)) (h : is_grouping e (g :: gs)) :
    is_grouping e gs :=
  ⟨fun g2 hg2 => h.1 g2 (List.mem_cons_of_mem _ hg2),
   fun g2 hg2 => h.2.1 g2 (List.mem_cons_of_mem _ hg2),
   (List.chain'_cons'.mp h.2.2).2⟩

theorem ntp_flatten (gs : List (List Nat))
    (h : is_grouping (fun x y : Nat => x == y) gs) :
    num_tree_pairings gs.flatten =
      (gs.map (fun g =>
        Combination.cwrN ((num_shapes (g.headD 0) : Nat) : Int) g.length)).prod := by
  unfold num_tree_pairings group_partition
  rw [group_by_flatten (fun x y : Nat => x == y) gs h]

theorem group_mem_eq_head (gs : List (List Nat))
    (h : is_grouping (fun x y : Nat => x == y) gs) :
    ∀ g ∈ gs, ∀ x ∈ g, x = g.headD 0 := by
  intro g hg x hx
  have hne := h.1 g hg
  have hok := h.2.1 g hg
  obtain ⟨hd, t, rfl⟩ : ∃ hd t, g = hd :: t := by
    cases g with
    | nil => exact absurd rfl hne
    | cons hd t => exact ⟨hd, t, rfl⟩
  show x = hd
  rcases List.mem_cons.mp hx with rfl | hx
  · rfl
  · have := hok x hx
    simpa using this

theorem csr_decode_spec : ∀ (gs : List (List Nat)) (part : List Nat) (idx rank : Nat),
    part.drop idx = gs.flatten →
    is_grouping (fun x y : Nat => x == y) gs →
    (∀ k ∈ part, 1 ≤ num_shapes k) →
    rank < num_tree_pairings (part.drop idx) →
    (csr_decode_loop part gs idx rank).length = gs.flatten.length ∧
    ∀ p ∈ (csr_decode_loop part gs idx rank).zip gs.flatten,
      p.1 < num_shapes p.2 := by
  intro gs
  induction gs with
  | nil =>
    intro part idx rank _ _ _ _
    exact ⟨rfl, by intro p hp; simp [csr_decode_loop] at hp⟩
  | cons g gs ih =>
    intro part idx rank hflat hgr hpos hrank
    have hgne : g ≠ [] := hgr.1 g (List.mem_cons_self _ _)
    have hdropnext : part.drop (idx + g.length) = gs.flatten := by
      rw [← List.drop_drop, hflat]
      simp only [List.flatten_cons]
      exact List.drop_left g gs.flatten
    have hgrt : is_grouping (fun x y : Nat => x == y) gs :=
      is_grouping_tail _ g gs hgr
    have hrestP : num_tree_pairings (part.drop (idx + g.length)) =
        (gs.map (fun g2 =>
          Combination.cwrN ((num_shapes (g2.headD 0) : Nat) : Int) g2.length)).prod := by
      rw [hdropnext]
      exact ntp_flatten gs hgrt
    have hcurP : num_tree_pairings (part.drop idx) =
        Combination.cwrN ((num_shapes (g.headD 0) : Nat) : Int) g.length *
          num_tree_pairings (part.drop (idx + g.length)) := by
      rw [hflat, hrestP]
      rw [ntp_flatten (g :: gs) hgr]
      simp [List.map_cons, List.prod_cons]
    have hrestpos : 1 ≤ num_tree_pairings (part.drop (idx + g.length)) := ntp_pos _
    have hk : g.headD 0 ∈ part := by
      have hmem : g.headD 0 ∈ g := by
        obtain ⟨hd, t, rfl⟩ : ∃ hd t, g = hd :: t := by
          cases g with
          | nil => exact absurd rfl hgne
          | cons hd t => exact ⟨hd, t, rfl⟩
        simp
      have : g.headD 0 ∈ part.drop idx := by
        rw [hflat]
        exact List.mem_flatten.mpr ⟨g, List.mem_cons_self _ _, hmem⟩
      exact (List.drop_sublist idx part).subset this
    have hnsk : 1 ≤ num_shapes (g.headD 0) := hpos _ hk
    have hdivlt : rank / num_tree_pairings (part.drop (idx + g.length)) <
        Combination.cwrN ((num_shapes (g.headD 0) : Nat) : Int) g.length := by
      rw [Nat.div_lt_iff_lt_mul (by omega)]
      rw [hcurP] at hrank
      omega
    have hwr := wr_unrank_spec g.length (num_shapes (g.headD 0))
      (rank / num_tree_pairings (part.drop (idx + g.length))) hnsk hdivlt
    have hwrlen := Combination.wr_unrank_length g.length
      (rank / num_tree_pairings (part.drop (idx + g.length)))
      ((num_shapes (g.headD 0) : Nat) : Int)
    have hunf : csr_decode_loop part (g :: gs) idx rank =
        Combination.with_replacement_unrank
          (rank / num_tree_pairings (part.drop (idx + g.length)))
          ((num_shapes (g.headD 0) : Nat) : Int) g.length ++
        csr_decode_loop part gs (idx + g.length)
          (rank % num_tree_pairings (part.drop (idx + g.length))) := rfl
    have hmodlt : rank % num_tree_pairings (part.drop (idx + g.length)) <
        num_tree_pairings (part.drop (idx + g.length)) := Nat.mod_lt _ (by omega)
    obtain ⟨ihlen, ihmem⟩ := ih part (idx + g.length)
      (rank % num_tree_pairings (part.drop (idx + g.length)))
      hdropnext hgrt hpos hmodlt
    constructor
    · rw [hunf]
      simp only [List.length_append, List.flatten_cons, hwrlen, ihlen]
    · intro p hp
      rw [hunf] at hp
      simp only [List.flatten_cons] at hp ⊢
      rw [List.zip_append (by rw [hwrlen])] at hp
      rcases List.mem_append.mp hp with hp | hp
      · obtain ⟨hp1, hp2⟩ := List.mem_zip hp
        have hp2e : p.2 = g.headD 0 :=
          group_mem_eq_head (g :: gs) hgr g (List.mem_cons_self _ _) p.2 hp2
        rw [hp2e]
        exact hwr.1 p.1 hp1
      · exact ihmem p hp

theorem children_shape_ranks_some (n s : Nat) (hn : 2 ≤ n) (hs : s < num_shapes n) :
    ∃ part ranks, children_shape_ranks s n = some (part, ranks) ∧
      part ∈ partitions n ∧ ranks.length = part.length ∧
      (∀ p ∈ ranks.zip part, p.1 < num_shapes p.2) := by
  have hsum : s < ((partitions n).map num_tree_pairings).sum := by
    rw [← num_shapes_rec_eq n hn]
    exact hs
  obtain ⟨part, r, hwalk, hmem, hr⟩ := csr_walk_some (partitions n) s hsum
  have hgr := group_by_spec (fun x y : Nat => x == y) part
  have hflat : (group_partition part).flatten = part := hgr.1
  have hgr2 : is_grouping (fun x y : Nat => x == y) (group_partition part) := hgr.2
  have hflat0 : part.drop 0 = (group_partition part).flatten := by
    rw [List.drop_zero, hflat]
  have hpos : ∀ k ∈ part, 1 ≤ num_shapes k := by
    intro k hk
    have := partitions_parts n part hmem k hk
    exact num_shapes_pos k (by omega)
  have hr0 : r < num_tree_pairings (part.drop 0) := by
    rw [List.drop_zero]
    exact hr
  obtain ⟨hlen, hmem2⟩ := csr_decode_spec (group_partition part) part 0 r
    hflat0 hgr2 hpos hr0
  refine ⟨part, csr_decode_loop part (group_partition part) 0 r, ?_, hmem, ?_, ?_⟩
  · unfold children_shape_ranks
    rw [hwalk]
  · rw [hlen, hflat]
  · intro p hp
    apply hmem2
    rw [hflat]
    exact hp

theorem forall2_map_eq2 {α β γ : Type} {R : α → β → Prop} (f : α → γ) (g : β → γ) :
    ∀ {l1 : List α} {l2 : List β}, List.Forall₂ R l1 l2 →
    (∀ a b, a ∈ l1 → R a b → f a = g b) → l1.map f = l2.map g := by
  intro l1 l2 h
  induction h with
  | nil => intro _; rfl
  | cons hr ht ih =>
    intro hfg
    simp only [List.map_cons]
    rw [hfg _ _ (List.mem_cons_self _ _) hr,
      ih (fun a b ha hab => hfg a b (List.mem_cons_of_mem _ ha) hab)]

theorem init_internal (children : List RankTree) (hne : children ≠ [])
    (lab : Option Nat) :
    RankTree.init children lab =
      RankTree.mk children ((children.map RankTree.num_leaves).sum)
        (merge_labels (children.map RankTree.labels)) none none := by
  unfold RankTree.init
  rw [if_neg ?hcond]
  case hcond =>
    cases children with
    | nil => exact absurd rfl hne
    | cons x xs => simp

theorem shape_unrank_fuel_some : ∀ (fuel n s : Nat), 1 ≤ n → n < fuel →
    s < num_shapes n →
    ∃ t, shape_unrank_fuel fuel s n = some t ∧ uwf t ∧ t.num_leaves = n ∧
      t.shape_rank = s ∧ t.shape_memo = some s := by
  intro fuel
  induction fuel with
  | zero => intro n s _ h; omega
  | succ fuel ih =>
    intro n s hn hfuel hs
    rcases Nat.lt_or_ge n 2 with hn1 | hn2
    · have hn1e : n = 1 := by omega
      subst hn1e
      have hs0 : s = 0 := by
        have h1 : num_shapes 1 = 1 := by decide
        omega
      subst hs0
      exact ⟨RankTree.mk [] 1 [none] (some 0) none, rfl, uwf.leaf _ _ _, rfl, rfl, rfl⟩
    · obtain ⟨part, ranks, hcsr, hpmem, hrlen, hrzip⟩ :=
        children_shape_ranks_some n s hn2 hs
      obtain ⟨⟨hpsum, hpne, hppos, hpch⟩, hplen⟩ := partitions_ok n part hpmem
      have hsucc : ∀ rk ∈ ranks.zip part, ∃ c,
          shape_unrank_fuel fuel rk.1 rk.2 = some c := by
        intro rk hrk
        have hk2 : rk.2 ∈ part := (List.mem_zip hrk).2
        have hb := partitions_parts n part hpmem rk.2 hk2
        obtain ⟨c, hc, _⟩ := ih rk.2 rk.1 (by omega) (by omega) (hrzip rk hrk)
        exact ⟨c, hc⟩
      obtain ⟨children, hmapM, hfa⟩ := mapM_some_of_forall
        (fun rk => shape_unrank_fuel fuel rk.1 rk.2) (ranks.zip part) hsucc
      have hfacts : ∀ rk ∈ ranks.zip part, ∀ c,
          shape_unrank_fuel fuel rk.1 rk.2 = some c →
          uwf c ∧ c.num_leaves = rk.2 ∧ c.shape_rank = rk.1 ∧
            c.shape_memo = some rk.1 := by
        intro rk hrk c hc
        have hk2 : rk.2 ∈ part := (List.mem_zip hrk).2
        have hb := partitions_parts n part hpmem rk.2 hk2
        obtain ⟨c', hc', hwf', hnl', hsr', hsm'⟩ :=
          ih rk.2 rk.1 (by omega) (by omega) (hrzip rk hrk)
        rw [hc] at hc'
        injection hc' with hcc
        rw [← hcc] at hwf' hnl' hsr' hsm'
        exact ⟨hwf', hnl', hsr', hsm'⟩
      have hziplen : (ranks.zip part).length = part.length := by
        rw [List.length_zip, hrlen]
        omega
      have hchlen : children.length = part.length := by
        rw [← hfa.length_eq, hziplen]
      have hchne : children ≠ [] := by
        intro h
        rw [h] at hchlen
        simp at hchlen
        omega
      have hchsum : (children.map RankTree.num_leaves).sum = n := by
        have hmapeq : (ranks.zip part).map Prod.snd =
            children.map RankTree.num_leaves := by
          apply forall2_map_eq2 Prod.snd RankTree.num_leaves hfa
          intro a b ha hab
          exact ((hfacts a ha b hab).2.1).symm
        rw [← hmapeq, List.map_snd_zip _ _ (by omega), hpsum]
      have hdet : ∀ x ∈ children, ∀ y ∈ children,
          x.num_leaves = y.num_leaves → x.shape_rank = y.shape_rank → x = y := by
        intro x hx y hy hnl hsr
        obtain ⟨rkx, hrkx, hRx⟩ := forall2_mem_right hfa x hx
        obtain ⟨rky, hrky, hRy⟩ := forall2_mem_right hfa y hy
        obtain ⟨_, hxnl, hxsr, _⟩ := hfacts rkx hrkx x hRx
        obtain ⟨_, hynl, hysr, _⟩ := hfacts rky hrky y hRy
        have hk1 : rkx.1 = rky.1 := by omega
        have hk2 : rkx.2 = rky.2 := by omega
        rw [hk1, hk2] at hRx
        have := hRx.symm.trans hRy
        injection this
      have hinitEq : RankTree.init children none =
          RankTree.mk children ((children.map RankTree.num_leaves).sum)
            (merge_labels (children.map RankTree.labels)) none none :=
        init_internal children hchne none
      refine ⟨(RankTree.init children none).with_shape_memo s, ?_, ?_, ?_, ?_, ?_⟩
      · rw [shape_unrank_fuel, hcsr]
        show ((ranks.zip part).mapM (fun rk => shape_unrank_fuel fuel rk.1 rk.2)).bind
          (fun cs => some ((RankTree.init cs none).with_shape_memo s)) = _
        rw [hmapM]
        rfl
      · rw [hinitEq]
        show uwf (RankTree.mk children _ _ (some s) none)
        apply uwf.node
        · omega
        · rfl
        · intro x hx
          obtain ⟨rk, hrk, hR⟩ := forall2_mem_right hfa x hx
          exact (hfacts rk hrk x hR).1
        · exact hdet
      · rw [hinitEq]
        show (children.map RankTree.num_leaves).sum = n
        exact hchsum
      · rw [hinitEq]
        rfl
      · rw [hinitEq]
        rfl

theorem shape_unrank_some (n s : Nat) (hn : 1 ≤ n) (hs : s < num_shapes n) :
    ∃ t, RankTree.shape_unrank s n = some t ∧ uwf t ∧ t.num_leaves = n ∧
      t.shape_rank = s ∧ t.shape_memo = some s :=
  shape_unrank_fuel_some (n + 1) n s hn (by omega) hs

theorem children_shape_ranks_none (n s : Nat) (hn : 2 ≤ n)
    (hs : num_shapes n ≤ s) : children_shape_ranks s n = none := by
  unfold children_shape_ranks
  rw [csr_walk_none (partitions n) s (by rw [← num_shapes_rec_eq n hn]; exact hs)]
  rw [if_pos (by omega)]

theorem shape_unrank_none (n s : Nat) (hn : 2 ≤ n) (hs : num_shapes n ≤ s) :
    RankTree.shape_unrank s n = none := by
  unfold RankTree.shape_unrank
  show shape_unrank_fuel (n + 1) s n = none
  rw [shape_unrank_fuel, children_shape_ranks_none n s hn hs]
  rfl

instance : Inhabited RankTree := ⟨dummy_tree⟩

theorem naig_loop_pos : ∀ (g : List RankTree) (n : Nat),
    1 ≤ num_assignments_in_group_loop g n := by
  intro g
  induction g with
  | nil => intro n; exact le_refl 1
  | cons t ts ih =>
    intro n
    show 1 ≤ Combination.combN (n - 1) (t.num_leaves - 1) *
      num_assignments_in_group_loop ts (n - t.num_leaves)
    have h1 := Combination.one_le_combN (n - 1) (t.num_leaves - 1)
    have h2 := ih (n - t.num_leaves)
    exact Nat.one_le_iff_ne_zero.mpr (by positivity)

theorem naig_pos (g : List RankTree) : 1 ≤ num_assignments_in_group g :=
  naig_loop_pos g _

theorem nlgl_pos (f : RankTree → Nat) (hf : ∀ t, 1 ≤ f t) :
    ∀ (groups : List (List RankTree)) (m : Nat), 1 ≤ nlgl_with f groups m := by
  intro groups
  induction groups with
  | nil => intro m; exact le_refl 1
  | cons g rest ih =>
    intro m
    show 1 ≤ Combination.combN m (g.length * (g.headD dummy_tree).num_leaves) *
      (num_assignments_in_group g * (f (g.headD dummy_tree)) ^ g.length) *
      nlgl_with f rest (m - g.length * (g.headD dummy_tree).num_leaves)
    have h1 := Combination.one_le_combN m (g.length * (g.headD dummy_tree).num_leaves)
    have h2 := naig_pos g
    have h3 := hf (g.headD dummy_tree)
    have h4 := ih (m - g.length * (g.headD dummy_tree).num_leaves)
    have h5 : 1 ≤ (f (g.headD dummy_tree)) ^ g.length := Nat.one_le_pow _ _ (by omega)
    exact Nat.one_le_iff_ne_zero.mpr (by positivity)

theorem num_labellings_fuel_pos : ∀ (fuel : Nat) (t : RankTree),
    1 ≤ num_labellings_fuel fuel t := by
  intro fuel
  induction fuel with
  | zero => intro t; exact le_refl 1
  | succ fuel ih =>
    intro t
    show 1 ≤ nlgl_with (fun c => num_labellings_fuel fuel c) t.group_children_by_shape _
    exact nlgl_pos _ ih _ _

theorem num_labellings_pos (t : RankTree) : 1 ≤ t.num_labellings :=
  num_labellings_fuel_pos _ t

theorem nlgl_congr (f1 f2 : RankTree → Nat) :
    ∀ (groups : List (List RankTree)) (m : Nat),
    (∀ g ∈ groups, f1 (g.headD dummy_tree) = f2 (g.headD dummy_tree)) →
    nlgl_with f1 groups m = nlgl_with f2 groups m := by
  intro groups
  induction groups with
  | nil => intro m _; rfl
  | cons g rest ih =>
    intro m h
    show Combination.combN m (g.length * (g.headD dummy_tree).num_leaves) *
        (num_assignments_in_group g * (f1 (g.headD dummy_tree)) ^ g.length) *
        nlgl_with f1 rest (m - g.length * (g.headD dummy_tree).num_leaves) = _
    rw [h g (List.mem_cons_self _ _), ih _ (fun g2 hg2 => h g2 (List.mem_cons_of_mem _ hg2))]
    rfl

theorem num_labellings_fuel_of_leaf : ∀ (fuel : Nat) (t : RankTree),
    t.children = [] → num_labellings_fuel fuel t = 1 := by
  intro fuel t h
  cases fuel with
  | zero => rfl
  | succ fuel =>
    show nlgl_with (fun c => num_labellings_fuel fuel c) t.group_children_by_shape
      ((t.group_children_by_shape.map
        (fun g => g.length * (g.headD dummy_tree).num_leaves)).sum) = 1
    unfold RankTree.group_children_by_shape
    rw [h]
    rfl

theorem group_by_head_mem {α : Type} [Inhabited α] (e : α → α → Bool) (l : List α) :
    ∀ g ∈ group_by l e, g.headD default ∈ l := by
  intro g hg
  have hspec := group_by_spec e l
  have hne : g ≠ [] := hspec.2.1 g hg
  obtain ⟨h, t, rfl⟩ : ∃ h t, g = h :: t := by
    cases g with
    | nil => exact absurd rfl hne
    | cons h t => exact ⟨h, t, rfl⟩
  show h ∈ l
  rw [← hspec.1]
  exact List.mem_flatten.mpr ⟨h :: t, hg, List.mem_cons_self _ _⟩

theorem child_num_leaves_lt (c : List RankTree) (n : Nat) (hlen : 2 ≤ c.length)
    (hsum : n = (c.map RankTree.num_leaves).sum)
    (hwf : ∀ x ∈ c, uwf x) : ∀ x ∈ c, x.num_leaves < n := by
  intro x hx
  obtain ⟨l1, l2, rfl⟩ := List.append_of_mem hx
  have h1 := sum_ge_length (l1.map RankTree.num_leaves) (by
    intro z hz
    obtain ⟨y, hy, rfl⟩ := List.mem_map.mp hz
    exact uwf_num_leaves_pos y (hwf y (by simp [hy])))
  have h2 := sum_ge_length (l2.map RankTree.num_leaves) (by
    intro z hz
    obtain ⟨y, hy, rfl⟩ := List.mem_map.mp hz
    exact uwf_num_leaves_pos y (hwf y (by simp [hy])))
  rw [hsum]
  simp only [List.map_append, List.map_cons, List.sum_append, List.sum_cons,
    List.length_map] at h1 h2 ⊢
  simp only [List.length_append, List.length_cons] at hlen
  omega

theorem shape_group_members_eq (c : List RankTree) (n : Nat) (l : List (Option Nat))
    (ms ml : Option Nat)
    (hdet : ∀ x ∈ c, ∀ y ∈ c, x.num_leaves = y.num_leaves →
      x.shape_rank = y.shape_rank → x = y) :
    ∀ g ∈ (RankTree.mk c n l ms ml).group_children_by_shape,
      ∀ x ∈ g, x = g.headD dummy_tree := by
  intro g hg x hx
  have hspec := group_by_spec
    (fun c1 c2 : RankTree =>
      c1.num_leaves == c2.num_leaves && c1.shape_rank == c2.shape_rank) c
  have hne : g ≠ [] := hspec.2.1 g hg
  have hok := hspec.2.2.1 g hg
  obtain ⟨h, t, rfl⟩ : ∃ h t, g = h :: t := by
    cases g with
    | nil => exact absurd rfl hne
    | cons h t => exact ⟨h, t, rfl⟩
  show x = h
  have hxc : x ∈ c := by
    rw [← hspec.1]
    exact List.mem_flatten.mpr ⟨h :: t, hg, hx⟩
  have hhc : h ∈ c := by
    rw [← hspec.1]
    exact List.mem_flatten.mpr ⟨h :: t, hg, List.mem_cons_self _ _⟩
  rcases List.mem_cons.mp hx with rfl | hx2
  · rfl
  · have := hok x hx2
    simp only [Bool.and_eq_true, beq_iff_eq] at this
    exact hdet x hxc h hhc this.1 this.2

theorem num_labellings_fuel_eq : ∀ (m : Nat) (t : RankTree), uwf t →
    t.num_leaves ≤ m → ∀ (f1 f2 : Nat), t.num_leaves < f1 → t.num_leaves < f2 →
    num_labellings_fuel f1 t = num_labellings_fuel f2 t := by
  intro m
  induction m using Nat.strong_induction_on with
  | _ m ih =>
    intro t hwf hm f1 f2 h1 h2
    cases hwf with
    | leaf l ms ml =>
      rw [num_labellings_fuel_of_leaf f1 (RankTree.mk [] 1 l ms ml) rfl,
        num_labellings_fuel_of_leaf f2 (RankTree.mk [] 1 l ms ml) rfl]
    | node c n l ms ml hlen hsum hcwf hdet =>
      have hn2 : 2 ≤ n := by
        have := sum_ge_length (c.map RankTree.num_leaves) (by
          intro z hz
          obtain ⟨y, hy, rfl⟩ := List.mem_map.mp hz
          exact uwf_num_leaves_pos y (hcwf y hy))
        simp only [List.length_map] at this
        omega
      have hnl : (RankTree.mk c n l ms ml).num_leaves = n := rfl
      rw [hnl] at h1 h2 hm
      obtain ⟨f1p, rfl⟩ : ∃ f1p, f1 = f1p + 1 := ⟨f1 - 1, by omega⟩
      obtain ⟨f2p, rfl⟩ : ∃ f2p, f2 = f2p + 1 := ⟨f2 - 1, by omega⟩
      show nlgl_with (fun c2 => num_labellings_fuel f1p c2) _ _ =
        nlgl_with (fun c2 => num_labellings_fuel f2p c2) _ _
      apply nlgl_congr
      intro g hg
      have hhead : g.headD dummy_tree ∈ c :=
        group_by_head_mem _ c g hg
      have hheadwf : uwf (g.headD dummy_tree) := hcwf _ hhead
      have hheadlt : (g.headD dummy_tree).num_leaves < n :=
        child_num_leaves_lt c n hlen hsum hcwf _ hhead
      exact ih ((g.headD dummy_tree).num_leaves) (by omega) _ hheadwf (le_refl _)
        f1p f2p (by omega) (by omega)

theorem num_labellings_node (c : List RankTree) (n : Nat) (l : List (Option Nat))
    (ms ml : Option Nat) (hwf : uwf (RankTree.mk c n l ms ml)) (hne : c ≠ []) :
    (RankTree.mk c n l ms ml).num_labellings =
      num_list_of_group_labellings (RankTree.mk c n l ms ml).group_children_by_shape := by
  cases hwf with
  | leaf l ms ml => exact absurd rfl hne
  | node c n l ms ml hlen hsum hcwf hdet =>
    show nlgl_with (fun c2 => num_labellings_fuel n c2) _ _ =
      nlgl_with RankTree.num_labellings _ _
    apply nlgl_congr
    intro g hg
    have hhead : g.headD dummy_tree ∈ c :=
      group_by_head_mem _ c g hg
    have hheadwf : uwf (g.headD dummy_tree) := hcwf _ hhead
    have hheadlt : (g.headD dummy_tree).num_leaves < n :=
      child_num_leaves_lt c n hlen hsum hcwf _ hhead
    exact num_labellings_fuel_eq n _ hheadwf (by omega) n
      ((g.headD dummy_tree).num_leaves + 1) (by omega) (by omega)

theorem sum_map_const {α : Type} (g : List α) (f : α → Nat) (v : Nat)
    (h : ∀ x ∈ g, f x = v) : (g.map f).sum = g.length * v := by
  induction g with
  | nil => simp
  | cons a t ih =>
    simp only [List.map_cons, List.sum_cons, List.length_cons]
    rw [h a (List.mem_cons_self _ _), ih (fun x hx => h x (List.mem_cons_of_mem _ hx))]
    ring

theorem flatten_sum_eq (gs : List (List RankTree))
    (huni : ∀ g ∈ gs, ∀ x ∈ g, x = g.headD dummy_tree) :
    (gs.map (fun g => g.length * (g.headD dummy_tree).num_leaves)).sum =
      (gs.flatten.map RankTree.num_leaves).sum := by
  induction gs with
  | nil => rfl
  | cons g rest ih =>
    simp only [List.map_cons, List.sum_cons, List.flatten_cons, List.map_append,
      List.sum_append]
    rw [ih (fun g2 hg2 => huni g2 (List.mem_cons_of_mem _ hg2))]
    have hconst : (g.map RankTree.num_leaves).sum =
        g.length * (g.headD dummy_tree).num_leaves := by
      apply sum_map_const
      intro x hx
      rw [huni g (List.mem_cons_self _ _) x hx]
    rw [hconst]

theorem glr_cons_eq (rank : Nat) (t : RankTree) (ts : List RankTree)
    (labels : List Nat) :
    group_label_ranks rank (t :: ts) labels =
      (Combination.unrank
          (rank / (t.num_labellings *
            (num_assignments_in_group ts * t.num_labellings ^ ts.length)))
          labels.tail (t.num_leaves - 1)).bind (fun rest =>
        (group_label_ranks
            (rank % (num_assignments_in_group ts * t.num_labellings ^ ts.length)) ts
            (set_minus labels (labels.headD 0 :: rest))).bind (fun more =>
          some ((labels.headD 0 :: rest) :: more.1,
            (rank % (t.num_labellings *
              (num_assignments_in_group ts * t.num_labellings ^ ts.length))) /
              (num_assignments_in_group ts * t.num_labellings ^ ts.length) ::
              more.2))) := rfl

theorem clr_cons_eq (g : List RankTree) (rest : List (List RankTree)) (rank : Nat)
    (labels : List Nat) :
    children_label_ranks (g :: rest) rank labels =
      (Combination.unrank
          (rank / (num_group_labellings g * num_list_of_group_labellings rest))
          labels ((g.headD dummy_tree).num_leaves * g.length)).bind (fun gLabels =>
        (group_label_ranks
            ((rank % (num_group_labellings g * num_list_of_group_labellings rest)) /
              num_list_of_group_labellings rest) g gLabels).bind (fun gDecoded =>
          (children_label_ranks rest (rank % num_list_of_group_labellings rest)
              (set_minus labels gLabels)).bind (fun more =>
            some (gDecoded.1 ++ more.1, gDecoded.2 ++ more.2)))) := rfl

theorem nlgl_cons_eq (f : RankTree → Nat) (g : List RankTree)
    (rest : List (List RankTree)) (m : Nat) :
    nlgl_with f (g :: rest) m =
      Combination.combN m (g.length * (g.headD dummy_tree).num_leaves) *
        (num_assignments_in_group g * (f (g.headD dummy_tree)) ^ g.length) *
        nlgl_with f rest (m - g.length * (g.headD dummy_tree).num_leaves) := rfl

theorem naig_cons (t : RankTree) (ts : List RankTree) :
    num_assignments_in_group (t :: ts) =
      Combination.combN (((t :: ts).map RankTree.num_leaves).sum - 1)
        (t.num_leaves - 1) * num_assignments_in_group ts := by
  show Combination.combN ((((t :: ts).map RankTree.num_leaves).sum) - 1)
      (t.num_leaves - 1) *
      num_assignments_in_group_loop ts
        ((((t :: ts).map RankTree.num_leaves).sum) - t.num_leaves) = _
  congr 1
  show num_assignments_in_group_loop ts _ = num_assignments_in_group_loop ts _
  congr 1
  simp only [List.map_cons, List.sum_cons]
  omega

theorem glr_success : ∀ (ts : List RankTree) (h : RankTree) (rank : Nat)
    (labels : List Nat),
    uwf h → (∀ x ∈ ts, x = h) → labels.Nodup →
    labels.length = (ts.map RankTree.num_leaves).sum →
    rank < num_assignments_in_group ts * h.num_labellings ^ ts.length →
    ∃ lls lrs, group_label_ranks rank ts labels = some (lls, lrs) ∧
      lls.length = ts.length ∧ lrs.length = ts.length ∧
      (∀ ll ∈ lls, ll.length = h.num_leaves ∧ ll.Nodup) ∧
      (∀ lr ∈ lrs, lr < h.num_labellings) := by
  intro ts
  induction ts with
  | nil =>
    intro h rank labels _ _ _ _ _
    exact ⟨[], [], rfl, rfl, rfl, by intro ll hll; simp at hll,
      by intro lr hlr; simp at hlr⟩
  | cons t ts ih =>
    intro h rank labels hwf huni hnd hlen hrank
    have hth : t = h := huni t (List.mem_cons_self _ _)
    have hunits : ∀ x ∈ ts, x = h := fun x hx => huni x (List.mem_cons_of_mem _ hx)
    have hk1 : 1 ≤ t.num_leaves := by rw [hth]; exact uwf_num_leaves_pos h hwf
    have hsumts : (ts.map RankTree.num_leaves).sum = ts.length * t.num_leaves := by
      apply sum_map_const
      intro x hx
      rw [hunits x hx, hth]
    have hL : labels.length = t.num_leaves + ts.length * t.num_leaves := by
      rw [hlen]
      simp only [List.map_cons, List.sum_cons]
      rw [hsumts]
    have hA := naig_pos ts
    have hnlpos := num_labellings_pos t
    have hpow : 1 ≤ t.num_labellings ^ ts.length := Nat.one_le_pow _ _ (by omega)
    have hnumRest : 1 ≤ num_assignments_in_group ts * t.num_labellings ^ ts.length :=
      Nat.one_le_iff_ne_zero.mpr (by positivity)
    have hper : 1 ≤ t.num_labellings *
        (num_assignments_in_group ts * t.num_labellings ^ ts.length) :=
      Nat.one_le_iff_ne_zero.mpr (by positivity)
    have hrank2 : rank / (t.num_labellings * (num_assignments_in_group ts *
        t.num_labellings ^ ts.length)) <
        Combination.combN (labels.length - 1) (t.num_leaves - 1) := by
      rw [Nat.div_lt_iff_lt_mul (by omega)]
      have h1 : num_assignments_in_group (t :: ts) *
          t.num_labellings ^ (t :: ts).length =
          Combination.combN (labels.length - 1) (t.num_leaves - 1) *
            (t.num_labellings *
              (num_assignments_in_group ts * t.num_labellings ^ ts.length)) := by
        rw [naig_cons t ts, ← hlen]
        simp only [List.length_cons]
        ring
      rw [← hth] at hrank
      rw [h1] at hrank
      exact hrank
    obtain ⟨hd, tl, rfl⟩ : ∃ hd tl, labels = hd :: tl := by
      cases labels with
      | nil => simp at hL; omega
      | cons hd tl => exact ⟨hd, tl, rfl⟩
    have htl_len : tl.length = t.num_leaves - 1 + ts.length * t.num_leaves := by
      simp only [List.length_cons] at hL
      omega
    obtain ⟨rest, hrest_eq, hrest_sub, hrest_len⟩ :=
      Combination.unrank_some tl (t.num_leaves - 1)
        (rank / (t.num_labellings *
          (num_assignments_in_group ts * t.num_labellings ^ ts.length)))
        (by omega)
        (by
          have hlc : (hd :: tl : List Nat).length - 1 = tl.length := by simp
          rw [← hlc]
          exact hrank2)
    have hnd2 := List.nodup_cons.mp hnd
    have hrest_nodup : rest.Nodup := hrest_sub.nodup hnd2.2
    have hhd_notin : hd ∉ rest := fun hmem => hnd2.1 (hrest_sub.subset hmem)
    have htlab_nodup : (hd :: rest).Nodup := List.nodup_cons.mpr ⟨hhd_notin, hrest_nodup⟩
    have htlab_sub : (hd :: rest).Sublist (hd :: tl) := List.Sublist.cons₂ hd hrest_sub
    have hsm_len : (set_minus (hd :: tl) (hd :: rest)).length =
        (hd :: tl).length - (hd :: rest).length :=
      Combination.set_minus_length _ _ htlab_sub hnd
    have hsm_nodup := Combination.set_minus_nodup (hd :: tl) (hd :: rest) hnd
    have hmodlt : rank % (num_assignments_in_group ts * t.num_labellings ^ ts.length) <
        num_assignments_in_group ts * t.num_labellings ^ ts.length :=
      Nat.mod_lt _ (by omega)
    obtain ⟨mlls, mlrs, hmore_eq, hm1, hm2, hm3, hm4⟩ :=
      ih h (rank % (num_assignments_in_group ts * t.num_labellings ^ ts.length))
        (set_minus (hd :: tl) (hd :: rest)) hwf hunits hsm_nodup
        (by
          rw [hsm_len, hsumts]
          simp only [List.length_cons, hrest_len]
          omega)
        (by
          rw [← hth]
          exact hmodlt)
    refine ⟨(hd :: rest) :: mlls,
      (rank % (t.num_labellings *
        (num_assignments_in_group ts * t.num_labellings ^ ts.length))) /
        (num_assignments_in_group ts * t.num_labellings ^ ts.length) :: mlrs,
      ?_, ?_, ?_, ?_, ?_⟩
    · rw [glr_cons_eq]
      simp only [List.tail_cons, List.headD_cons]
      rw [hrest_eq]
      show (group_label_ranks
          (rank % (num_assignments_in_group ts * t.num_labellings ^ ts.length)) ts
          (set_minus (hd :: tl) (hd :: rest))).bind
        (fun more => some ((hd :: rest) :: more.1,
          (rank % (t.num_labellings *
            (num_assignments_in_group ts * t.num_labellings ^ ts.length))) /
            (num_assignments_in_group ts * t.num_labellings ^ ts.length) ::
            more.2)) = _
      rw [hmore_eq]
      rfl
    · simp [hm1]
    · simp [hm2]
    · intro ll hll
      rcases List.mem_cons.mp hll with rfl | hll
      · refine ⟨?_, htlab_nodup⟩
        rw [← hth]
        simp only [List.length_cons, hrest_len]
        omega
      · exact hm3 ll hll
    · intro lr hlr
      rcases List.mem_cons.mp hlr with rfl | hlr
      · rw [← hth]
        rw [Nat.div_lt_iff_lt_mul (by omega)]
        exact Nat.mod_lt _ (by omega)
      · exact hm4 lr hlr

theorem forall2_of_forall {α β : Type} (P : α → β → Prop) :
    ∀ (l1 : List α) (l2 : List β), l1.length = l2.length →
    (∀ a ∈ l1, ∀ b ∈ l2, P a b) → List.Forall₂ P l1 l2 := by
  intro l1
  induction l1 with
  | nil =>
    intro l2 h _
    cases l2 with
    | nil => exact List.Forall₂.nil
    | cons b l2 => simp at h
  | cons a l1 ih =>
    intro l2 h hP
    cases l2 with
    | nil => simp at h
    | cons b l2 =>
      exact List.Forall₂.cons (hP a (by simp) b (by simp))
        (ih l2 (by simpa using h)
          (fun x hx y hy => hP x (by simp [hx]) y (by simp [hy])))

theorem forall2_append {α β : Type} {R : α → β → Prop} :
    ∀ {l1 : List α} {l2 : List β} {u1 : List α} {u2 : List β},
    List.Forall₂ R l1 l2 → List.Forall₂ R u1 u2 →
    List.Forall₂ R (l1 ++ u1) (l2 ++ u2) := by
  intro l1 l2 u1 u2 h1 h2
  induction h1 with
  | nil => exact h2
  | cons hr ht ih => exact List.Forall₂.cons hr ih

theorem clr_success : ∀ (groups : List (List RankTree)) (rank : Nat)
    (labels : List Nat),
    (∀ g ∈ groups, g ≠ []) →
    (∀ g ∈ groups, ∀ x ∈ g, x = g.headD dummy_tree) →
    (∀ g ∈ groups, uwf (g.headD dummy_tree)) →
    labels.Nodup →
    labels.length =
      (groups.map (fun g => g.length * (g.headD dummy_tree).num_leaves)).sum →
    rank < num_list_of_group_labellings groups →
    ∃ lls lrs, children_label_ranks groups rank labels = some (lls, lrs) ∧
      lls.length = groups.flatten.length ∧ lrs.length = groups.flatten.length ∧
      List.Forall₂ (fun (t : RankTree) (pr : Nat × List Nat) =>
        pr.1 < t.num_labellings ∧ pr.2.length = t.num_leaves ∧ pr.2.Nodup)
        groups.flatten (lrs.zip lls) := by
  intro groups
  induction groups with
  | nil =>
    intro rank labels _ _ _ _ _ _
    exact ⟨[], [], rfl, rfl, rfl, List.Forall₂.nil⟩
  | cons g rest ih =>
    intro rank labels hne huni hwf hnd hlen hrank
    have hgne : g ≠ [] := hne g (List.mem_cons_self _ _)
    have hgl1 : 1 ≤ g.length := by
      cases g with
      | nil => exact absurd rfl hgne
      | cons a t => simp
    have hguni := huni g (List.mem_cons_self _ _)
    have hgwf := hwf g (List.mem_cons_self _ _)
    have hk1 : 1 ≤ (g.headD dummy_tree).num_leaves := uwf_num_leaves_pos _ hgwf
    have hnumG : 1 ≤ num_group_labellings g := by
      show 1 ≤ num_assignments_in_group g * ((g.headD dummy_tree).num_labellings) ^ g.length
      have h1 := naig_pos g
      have h2 := num_labellings_pos (g.headD dummy_tree)
      have h3 : 1 ≤ ((g.headD dummy_tree).num_labellings) ^ g.length :=
        Nat.one_le_pow _ _ (by omega)
      exact Nat.one_le_iff_ne_zero.mpr (by positivity)
    have hnumRest : 1 ≤ num_list_of_group_labellings rest := by
      show 1 ≤ nlgl_with RankTree.num_labellings rest _
      exact nlgl_pos _ num_labellings_pos _ _
    have hper : 1 ≤ num_group_labellings g * num_list_of_group_labellings rest :=
      Nat.one_le_iff_ne_zero.mpr (by positivity)
    have hsumrest : labels.length - g.length * (g.headD dummy_tree).num_leaves =
        (rest.map (fun g2 => g2.length * (g2.headD dummy_tree).num_leaves)).sum := by
      rw [hlen]
      simp only [List.map_cons, List.sum_cons]
      omega
    have hunroll : num_list_of_group_labellings (g :: rest) =
        Combination.combN labels.length (g.length * (g.headD dummy_tree).num_leaves) *
          (num_group_labellings g * num_list_of_group_labellings rest) := by
      show nlgl_with RankTree.num_labellings (g :: rest)
          (((g :: rest).map (fun g2 => g2.length * (g2.headD dummy_tree).num_leaves)).sum) = _
      rw [nlgl_cons_eq]
      rw [← hlen]
      have harg : labels.length - g.length * (g.headD dummy_tree).num_leaves =
          (rest.map (fun g2 => g2.length * (g2.headD dummy_tree).num_leaves)).sum :=
        hsumrest
      rw [harg]
      show Combination.combN labels.length
            (g.length * (g.headD dummy_tree).num_leaves) *
          (num_assignments_in_group g *
            ((g.headD dummy_tree).num_labellings) ^ g.length) *
          nlgl_with RankTree.num_labellings rest
            ((rest.map (fun g2 => g2.length * (g2.headD dummy_tree).num_leaves)).sum) =
        Combination.combN labels.length
            (g.length * (g.headD dummy_tree).num_leaves) *
          (num_assignments_in_group g *
            ((g.headD dummy_tree).num_labellings) ^ g.length *
            nlgl_with RankTree.num_labellings rest
              ((rest.map (fun g2 =>
                g2.length * (g2.headD dummy_tree).num_leaves)).sum))
      ring
    have hdivlt : rank / (num_group_labellings g * num_list_of_group_labellings rest) <
        Combination.combN labels.length
          ((g.headD dummy_tree).num_leaves * g.length) := by
      rw [Nat.div_lt_iff_lt_mul (by omega)]
      rw [hunroll] at hrank
      rw [Nat.mul_comm ((g.headD dummy_tree).num_leaves) g.length]
      exact hrank
    have hgNumle : (g.headD dummy_tree).num_leaves * g.length ≤ labels.length := by
      rw [hlen]
      simp only [List.map_cons, List.sum_cons]
      have : (g.headD dummy_tree).num_leaves * g.length =
          g.length * (g.headD dummy_tree).num_leaves := Nat.mul_comm _ _
      omega
    obtain ⟨gLabels, hgl_eq, hgl_sub, hgl_len⟩ :=
      Combination.unrank_some labels ((g.headD dummy_tree).num_leaves * g.length)
        (rank / (num_group_labellings g * num_list_of_group_labellings rest))
        hgNumle hdivlt
    have hgl_nodup : gLabels.Nodup := hgl_sub.nodup hnd
    have hgrank_lt : (rank % (num_group_labellings g * num_list_of_group_labellings rest)) /
        num_list_of_group_labellings rest < num_group_labellings g := by
      rw [Nat.div_lt_iff_lt_mul (by omega)]
      exact Nat.mod_lt _ (by omega)
    obtain ⟨glls, glrs, hglr_eq, hg1, hg2, hg3, hg4⟩ :=
      glr_success g (g.headD dummy_tree)
        ((rank % (num_group_labellings g * num_list_of_group_labellings rest)) /
          num_list_of_group_labellings rest)
        gLabels hgwf hguni hgl_nodup
        (by
          rw [hgl_len]
          rw [sum_map_const g RankTree.num_leaves ((g.headD dummy_tree).num_leaves)
            (fun x hx => by rw [hguni x hx])]
          exact Nat.mul_comm _ _)
        hgrank_lt
    have hsm_nodup := Combination.set_minus_nodup labels gLabels hnd
    have hsm_len : (set_minus labels gLabels).length = labels.length - gLabels.length :=
      Combination.set_minus_length gLabels labels hgl_sub hnd
    have hmod_lt : rank % num_list_of_group_labellings rest <
        num_list_of_group_labellings rest := Nat.mod_lt _ (by omega)
    obtain ⟨mlls, mlrs, hmore_eq, hm1, hm2, hmfa⟩ :=
      ih (rank % num_list_of_group_labellings rest) (set_minus labels gLabels)
        (fun g2 hg2m => hne g2 (List.mem_cons_of_mem _ hg2m))
        (fun g2 hg2m => huni g2 (List.mem_cons_of_mem _ hg2m))
        (fun g2 hg2m => hwf g2 (List.mem_cons_of_mem _ hg2m))
        hsm_nodup
        (by
          rw [hsm_len, hgl_len]
          rw [← hsumrest]
          have : (g.headD dummy_tree).num_leaves * g.length =
              g.length * (g.headD dummy_tree).num_leaves := Nat.mul_comm _ _
          omega)
        hmod_lt
    refine ⟨glls ++ mlls, glrs ++ mlrs, ?_, ?_, ?_, ?_⟩
    · rw [clr_cons_eq, hgl_eq]
      show (group_label_ranks
          ((rank % (num_group_labellings g * num_list_of_group_labellings rest)) /
            num_list_of_group_labellings rest) g gLabels).bind (fun gDecoded =>
          (children_label_ranks rest (rank % num_list_of_group_labellings rest)
              (set_minus labels gLabels)).bind (fun more =>
            some (gDecoded.1 ++ more.1, gDecoded.2 ++ more.2))) = _
      rw [hglr_eq]
      show (children_label_ranks rest (rank % num_list_of_group_labellings rest)
          (set_minus labels gLabels)).bind (fun more =>
          some (glls ++ more.1, glrs ++ more.2)) = _
      rw [hmore_eq]
      rfl
    · simp only [List.flatten_cons, List.length_append, hg1, hm1]
    · simp only [List.flatten_cons, List.length_append, hg2, hm2]
    · simp only [List.flatten_cons]
      rw [List.zip_append (by rw [hg1, hg2])]
      apply forall2_append
      · apply forall2_of_forall
        · rw [List.length_zip, hg1, hg2]
          simp
        · intro t ht pr hpr
          obtain ⟨hpr1, hpr2⟩ := List.mem_zip hpr
          have hteq : t = g.headD dummy_tree := hguni t ht
          refine ⟨?_, ?_, ?_⟩
          · rw [hteq]
            exact hg4 pr.1 hpr1
          · rw [hteq]
            exact (hg3 pr.2 hpr2).1
          · exact (hg3 pr.2 hpr2).2
      · exact hmfa

theorem luf_succ_eq (fuel : Nat) (t : RankTree) (label_rank : Nat)
    (labels : List Nat) :
    label_unrank_fuel (fuel + 1) t label_rank labels =
      if t.is_leaf then
        if label_rank ≠ 0 then none
        else some (RankTree.init [] (some (labels.headD 0)))
      else
        (children_label_ranks t.group_children_by_shape label_rank labels).bind
          (fun decoded =>
            ((t.children.zip (decoded.2.zip decoded.1)).mapM
              (fun p => label_unrank_fuel fuel p.1 p.2.1 p.2.2)).bind
              (fun labelled =>
                some (((RankTree.init labelled none).with_shape_memo
                  t.shape_rank).with_label_memo label_rank))) := rfl

theorem label_unrank_fuel_some : ∀ (fuel : Nat) (t : RankTree) (l : Nat)
    (labels : List Nat), uwf t → t.num_leaves < fuel → labels.Nodup →
    labels.length = t.num_leaves → l < t.num_labellings →
    ∃ t2, label_unrank_fuel fuel t l labels = some t2 ∧
      (t.children = [] → t2 = RankTree.init [] (some (labels.headD 0))) ∧
      (t.children ≠ [] → t2.shape_memo = some t.shape_rank ∧
        t2.label_memo = some l) := by
  intro fuel
  induction fuel with
  | zero => intro t l labels _ h; omega
  | succ fuel ih =>
    intro t l labels hwf hfuel hnd hlablen hl
    cases hwf with
    | leaf l0 ms ml =>
      have hnl1 : (RankTree.mk [] 1 l0 ms ml).num_labellings = 1 :=
        num_labellings_fuel_of_leaf _ _ rfl
      have hl0 : l = 0 := by
        rw [hnl1] at hl
        omega
      subst hl0
      refine ⟨RankTree.init [] (some (labels.headD 0)), ?_, fun _ => rfl,
        fun hne => absurd rfl hne⟩
      rw [luf_succ_eq]
      rw [if_pos (show (RankTree.mk [] 1 l0 ms ml).is_leaf = true from rfl)]
      rw [if_neg (by omega)]
    | node c n l0 ms ml hlen2 hsum hcwf hdet =>
      obtain ⟨c1, cs, rfl⟩ : ∃ c1 cs, c = c1 :: cs := by
        cases c with
        | nil => simp at hlen2
        | cons c1 cs => exact ⟨c1, cs, rfl⟩
      have hwft : uwf (RankTree.mk (c1 :: cs) n l0 ms ml) :=
        uwf.node _ n l0 ms ml hlen2 hsum hcwf hdet
      have hlf : (RankTree.mk (c1 :: cs) n l0 ms ml).is_leaf = false := rfl
      have hspec := group_by_spec
        (fun x y : RankTree =>
          x.num_leaves == y.num_leaves && x.shape_rank == y.shape_rank) (c1 :: cs)
      have hflat : (RankTree.mk (c1 :: cs) n l0 ms
          ml).group_children_by_shape.flatten = c1 :: cs := hspec.1
      have hne_g : ∀ g ∈ (RankTree.mk (c1 :: cs) n l0 ms
          ml).group_children_by_shape, g ≠ [] := hspec.2.1
      have huni := shape_group_members_eq (c1 :: cs) n l0 ms ml hdet
      have hwfh : ∀ g ∈ (RankTree.mk (c1 :: cs) n l0 ms
          ml).group_children_by_shape, uwf (g.headD dummy_tree) := by
        intro g hg
        exact hcwf _ (group_by_head_mem _ (c1 :: cs) g hg)
      have hlen_S : labels.length =
          ((RankTree.mk (c1 :: cs) n l0 ms ml).group_children_by_shape.map
            (fun g => g.length * (g.headD dummy_tree).num_leaves)).sum := by
        rw [flatten_sum_eq _ huni, hflat, hlablen]
        exact hsum
      have hrank : l < num_list_of_group_labellings
          (RankTree.mk (c1 :: cs) n l0 ms ml).group_children_by_shape := by
        rw [← num_labellings_node _ n l0 ms ml hwft (by simp)]
        exact hl
      obtain ⟨lls, lrs, hclr, hl1, hl2, hfa⟩ := clr_success
        (RankTree.mk (c1 :: cs) n l0 ms ml).group_children_by_shape l labels
        hne_g huni hwfh hnd hlen_S hrank
      rw [hflat] at hl1 hl2 hfa
      have hzipfa := List.forall₂_iff_zip.mp hfa
      have hsucc : ∀ p ∈ (c1 :: cs).zip (lrs.zip lls), ∃ y,
          label_unrank_fuel fuel p.1 p.2.1 p.2.2 = some y := by
        intro p hp
        have hP := hzipfa.2 hp
        have hp1mem : p.1 ∈ c1 :: cs := (List.mem_zip hp).1
        have hp1wf : uwf p.1 := hcwf _ hp1mem
        have hp1lt : p.1.num_leaves < n :=
          child_num_leaves_lt _ n hlen2 hsum hcwf _ hp1mem
        obtain ⟨y, hy, _⟩ := ih p.1 p.2.1 p.2.2 hp1wf (by
            show p.1.num_leaves < fuel
            have : (RankTree.mk (c1 :: cs) n l0 ms ml).num_leaves = n := rfl
            rw [this] at hfuel
            omega)
          hP.2.2 hP.2.1 hP.1
        exact ⟨y, hy⟩
      obtain ⟨labelled, hmapM, hfa2⟩ := mapM_some_of_forall
        (fun p => label_unrank_fuel fuel p.1 p.2.1 p.2.2)
        ((c1 :: cs).zip (lrs.zip lls)) hsucc
      refine ⟨((RankTree.init labelled none).with_shape_memo
        (RankTree.mk (c1 :: cs) n l0 ms ml).shape_rank).with_label_memo l,
        ?_, ?_, ?_⟩
      · rw [luf_succ_eq]
        rw [if_neg (fun h => Bool.false_ne_true (hlf ▸ h))]
        rw [hclr]
        show (((c1 :: cs).zip (lrs.zip lls)).mapM
            (fun p => label_unrank_fuel fuel p.1 p.2.1 p.2.2)).bind
          (fun labelled2 =>
            some (((RankTree.init labelled2 none).with_shape_memo
              (RankTree.mk (c1 :: cs) n l0 ms ml).shape_rank).with_label_memo l)) = _
        rw [hmapM]
        rfl
      · intro habs
        exact absurd (show c1 :: cs = ([] : List RankTree) from habs)
          (by simp)
      · intro _
        have hlabne : labelled ≠ [] := by
          intro h0
          have hz := hfa2.length_eq
          rw [h0] at hz
          rw [List.length_zip, List.length_zip, hl1, hl2] at hz
          simp at hz
        rw [init_internal labelled hlabne none]
        exact ⟨rfl, rfl⟩

theorem num_labellings_leaf_val (l0 : List (Option Nat)) (ms ml : Option Nat) :
    (RankTree.mk [] 1 l0 ms ml).num_labellings = 1 :=
  num_labellings_fuel_of_leaf _ _ rfl

/-- C1: for every `n ≥ 1`, every `shape_rank` in `[0, num_shapes n)` and
every `label_rank` in `[0, num_labellings(shape_rank, n))`, ranking the
tree produced by `RankTree.unrank (shape_rank, label_rank) n` returns
exactly `(shape_rank, label_rank)`. -/
theorem unrank_rank_roundtrip (n : Nat) (hn : 1 ≤ n) (s l L : Nat)
    (hs : s < num_shapes n) (hL : num_labellings s n = some L) (hl : l < L) :
    ∃ t, RankTree.unrank ((s : Int), (l : Int)) n = some t ∧
      t.rank = (s, l) := by
  obtain ⟨t0, ht0, hwf0, hnl0, hsr0, hsm0⟩ := shape_unrank_some n s hn hs
  have hLval : L = t0.num_labellings := by
    unfold num_labellings at hL
    rw [ht0] at hL
    simp only [Option.map_some'] at hL
    exact (Option.some.injEq _ _ ▸ hL).symm
  obtain ⟨t2, ht2, hleaf2, hnode2⟩ := label_unrank_fuel_some (t0.num_leaves + 1) t0 l
    (List.range t0.num_leaves) hwf0 (by omega) (List.nodup_range _)
    (List.length_range _) (by omega)
  refine ⟨t2, ?_, ?_⟩
  · unfold RankTree.unrank
    rw [if_neg (by omega)]
    show (RankTree.shape_unrank s n).bind (fun u => u.label_unrank l) = some t2
    rw [ht0]
    show t0.label_unrank l = some t2
    show label_unrank_fuel (t0.num_leaves + 1) t0 l (List.range t0.num_leaves) = some t2
    exact ht2
  · rcases Nat.lt_or_ge n 2 with hn1 | hn2
    · have hne1 : n = 1 := by omega
      subst hne1
      have hs0 : s = 0 := by
        have : num_shapes 1 = 1 := by decide
        omega
      cases hwf0 with
      | leaf l0 ms ml =>
        have hl0 : l = 0 := by
          rw [hLval, num_labellings_leaf_val] at hl
          omega
        have ht2v : t2 = RankTree.init [] (some ((List.range
            (RankTree.mk [] 1 l0 ms ml).num_leaves).headD 0)) := hleaf2 rfl
        have hnum : (RankTree.mk [] 1 l0 ms ml).num_leaves = 1 := rfl
        rw [hnum] at ht2v
        subst hs0
        subst hl0
        rw [ht2v]
        decide
      | node c nn l0 ms ml hlen2 hsum hcwf hdet =>
        exfalso
        have h2 := sum_ge_length (c.map RankTree.num_leaves) (by
          intro z hz
          obtain ⟨y, hy, rfl⟩ := List.mem_map.mp hz
          exact uwf_num_leaves_pos y (hcwf y hy))
        simp only [List.length_map] at h2
        have : (RankTree.mk c nn l0 ms ml).num_leaves = nn := rfl
        rw [this] at hnl0
        omega
    · have hchne : t0.children ≠ [] := by
        cases hwf0 with
        | leaf l0 ms ml =>
          exfalso
          have : (RankTree.mk [] 1 l0 ms ml).num_leaves = 1 := rfl
          omega
        | node c nn l0 ms ml hlen2 hsum hcwf hdet =>
          show c ≠ []
          intro h0
          rw [h0] at hlen2
          simp at hlen2
      obtain ⟨hsm2, hlm2⟩ := hnode2 hchne
      show (t2.shape_rank, t2.label_rank) = (s, l)
      unfold RankTree.shape_rank RankTree.label_rank
      rw [hsm2, hlm2, hsr0]
      rfl

theorem unrank_rank_roundtrip_witness :
    1 ≤ 2 ∧ 0 < num_shapes 2 ∧ num_labellings 0 2 = some 1 ∧ 0 < 1 ∧
    ∃ t, RankTree.unrank (((0 : Nat) : Int), ((0 : Nat) : Int)) 2 = some t ∧
      t.rank = (0, 0) :=
  ⟨by decide, by decide, by decide, by decide,
    unrank_rank_roundtrip 2 (by decide) 0 0 1 (by decide) (by decide) (by decide)⟩

/-- C4 counterexample: for `n = 1` the out-of-bounds check is skipped
(the `for ... else` raise in `children_shape_ranks` is bypassed when
`n == 1`), so `unrank((1, 0), 1)` silently returns the single leaf even
though `1 ≥ num_shapes(1) = 1`. -/
theorem unrank_oob_cex :
    num_shapes 1 ≤ 1 ∧ (RankTree.unrank (1, 0) 1).isSome = true := by decide

/-- The first group of `children_label_ranks` already raises when the
label rank is out of bounds: the group's `comb_rank` is then at least
`comb(len(labels), x*k)` and `Combination.unrank` runs the pool out. -/
theorem clr_none (g : List RankTree) (rest : List (List RankTree)) (rank : Nat)
    (labels : List Nat) (hgne : g ≠ [])
    (hk1 : 1 ≤ (g.headD dummy_tree).num_leaves)
    (hlen : labels.length =
      ((g :: rest).map (fun g2 => g2.length * (g2.headD dummy_tree).num_leaves)).sum)
    (hrank : num_list_of_group_labellings (g :: rest) ≤ rank) :
    children_label_ranks (g :: rest) rank labels = none := by
  have hgl1 : 1 ≤ g.length := by
    cases g with
    | nil => exact absurd rfl hgne
    | cons a t => simp
  have hnumG : 1 ≤ num_group_labellings g := by
    show 1 ≤ num_assignments_in_group g *
      ((g.headD dummy_tree).num_labellings) ^ g.length
    have h1 := naig_pos g
    have h2 := num_labellings_pos (g.headD dummy_tree)
    have h3 : 1 ≤ ((g.headD dummy_tree).num_labellings) ^ g.length :=
      Nat.one_le_pow _ _ (by omega)
    exact Nat.one_le_iff_ne_zero.mpr (by positivity)
  have hnumRest : 1 ≤ num_list_of_group_labellings rest := by
    show 1 ≤ nlgl_with RankTree.num_labellings rest _
    exact nlgl_pos _ num_labellings_pos _ _
  have hsumrest : labels.length - g.length * (g.headD dummy_tree).num_leaves =
      (rest.map (fun g2 => g2.length * (g2.headD dummy_tree).num_leaves)).sum := by
    rw [hlen]
    simp only [List.map_cons, List.sum_cons]
    omega
  have hunroll : num_list_of_group_labellings (g :: rest) =
      Combination.combN labels.length (g.length * (g.headD dummy_tree).num_leaves) *
        (num_group_labellings g * num_list_of_group_labellings rest) := by
    show nlgl_with RankTree.num_labellings (g :: rest)
        (((g :: rest).map (fun g2 => g2.length * (g2.headD dummy_tree).num_leaves)).sum) = _
    rw [nlgl_cons_eq]
    rw [← hlen]
    have harg : labels.length - g.length * (g.headD dummy_tree).num_leaves =
        (rest.map (fun g2 => g2.length * (g2.headD dummy_tree).num_leaves)).sum :=
      hsumrest
    rw [harg]
    show Combination.combN labels.length
          (g.length * (g.headD dummy_tree).num_leaves) *
        (num_assignments_in_group g *
          ((g.headD dummy_tree).num_labellings) ^ g.length) *
        nlgl_with RankTree.num_labellings rest
          ((rest.map (fun g2 => g2.length * (g2.headD dummy_tree).num_leaves)).sum) =
      Combination.combN labels.length
          (g.length * (g.headD dummy_tree).num_leaves) *
        (num_assignments_in_group g *
          ((g.headD dummy_tree).num_labellings) ^ g.length *
          nlgl_with RankTree.num_labellings rest
            ((rest.map (fun g2 =>
              g2.length * (g2.headD dummy_tree).num_leaves)).sum))
    ring
  have hper : 1 ≤ num_group_labellings g * num_list_of_group_labellings rest :=
    Nat.one_le_iff_ne_zero.mpr (by positivity)
  have hdivge : Combination.combN labels.length
      ((g.headD dummy_tree).num_leaves * g.length) ≤
      rank / (num_group_labellings g * num_list_of_group_labellings rest) := by
    rw [Nat.le_div_iff_mul_le (by omega)]
    rw [hunroll] at hrank
    rw [Nat.mul_comm ((g.headD dummy_tree).num_leaves) g.length]
    exact hrank
  have hfail : Combination.unrank
      (rank / (num_group_labellings g * num_list_of_group_labellings rest)) labels
      ((g.headD dummy_tree).num_leaves * g.length) = none :=
    Combination.unrank_none_of_ge labels
      ((g.headD dummy_tree).num_leaves * g.length)
      (rank / (num_group_labellings g * num_list_of_group_labellings rest))
      (Nat.one_le_iff_ne_zero.mpr (by positivity)) hdivge
  rw [clr_cons_eq, hfail]
  rfl

/-- `label_unrank` fails on every internal tree when the label rank is
at least `num_labellings()`. -/
theorem label_unrank_fuel_none (fuel : Nat) (t : RankTree) (l : Nat)
    (labels : List Nat) (hwf : uwf t) (hchne : t.children ≠ [])
    (hlablen : labels.length = t.num_leaves)
    (hl : t.num_labellings ≤ l) :
    label_unrank_fuel (fuel + 1) t l labels = none := by
  cases hwf with
  | leaf l0 ms ml => exact absurd rfl hchne
  | node c n l0 ms ml hlen2 hsum hcwf hdet =>
    obtain ⟨c1, cs, rfl⟩ : ∃ c1 cs, c = c1 :: cs := by
      cases c with
      | nil => simp at hlen2
      | cons c1 cs => exact ⟨c1, cs, rfl⟩
    have hwft : uwf (RankTree.mk (c1 :: cs) n l0 ms ml) :=
      uwf.node _ n l0 ms ml hlen2 hsum hcwf hdet
    have hlf : (RankTree.mk (c1 :: cs) n l0 ms ml).is_leaf = false := rfl
    have hspec := group_by_spec
      (fun x y : RankTree =>
        x.num_leaves == y.num_leaves && x.shape_rank == y.shape_rank) (c1 :: cs)
    have hflat : (RankTree.mk (c1 :: cs) n l0 ms
        ml).group_children_by_shape.flatten = c1 :: cs := hspec.1
    have hne_g : ∀ g ∈ (RankTree.mk (c1 :: cs) n l0 ms
        ml).group_children_by_shape, g ≠ [] := hspec.2.1
    have huni := shape_group_members_eq (c1 :: cs) n l0 ms ml hdet
    have hlen_S : labels.length =
        ((RankTree.mk (c1 :: cs) n l0 ms ml).group_children_by_shape.map
          (fun g => g.length * (g.headD dummy_tree).num_leaves)).sum := by
      rw [flatten_sum_eq _ huni, hflat, hlablen]
      exact hsum
    obtain ⟨g, rest, hgroups⟩ : ∃ g rest,
        (RankTree.mk (c1 :: cs) n l0 ms ml).group_children_by_shape = g :: rest := by
      cases hg : (RankTree.mk (c1 :: cs) n l0 ms ml).group_children_by_shape with
      | nil =>
        exfalso
        rw [hg] at hflat
        simp at hflat
      | cons g rest => exact ⟨g, rest, rfl⟩
    have hgmem : g ∈ (RankTree.mk (c1 :: cs) n l0 ms ml).group_children_by_shape := by
      rw [hgroups]
      exact List.mem_cons_self _ _
    have hgne : g ≠ [] := hne_g g hgmem
    have hk1 : 1 ≤ (g.headD dummy_tree).num_leaves :=
      uwf_num_leaves_pos _ (hcwf _ (group_by_head_mem _ (c1 :: cs) g hgmem))
    have hrank : num_list_of_group_labellings (g :: rest) ≤ l := by
      rw [← hgroups,
        ← num_labellings_node _ n l0 ms ml hwft (by simp)]
      exact hl
    rw [hgroups] at hlen_S
    rw [luf_succ_eq]
    rw [if_neg (fun h => Bool.false_ne_true (hlf ▸ h))]
    rw [hgroups]
    rw [clr_none g rest l labels hgne hk1 hlen_S hrank]
    rfl

/-- C4 (amended): `unrank` fails for negative ranks (every `n`); for
`n ≥ 2` it fails whenever `shape_rank ≥ num_shapes n`, and whenever
`num_labellings(shape_rank, n)` is defined and `label_rank` reaches it;
for `n = 1` it fails exactly when `label_rank ≠ 0` — for every
`shape_rank ≥ 0` it silently returns the single leaf when
`label_rank = 0`. -/
theorem unrank_oob_amended :
    (∀ (n : Nat) (r : Int × Int), r.1 < 0 ∨ r.2 < 0 →
      RankTree.unrank r n = none) ∧
    (∀ (n : Nat), 2 ≤ n → ∀ (s l : Nat), num_shapes n ≤ s →
      RankTree.unrank (((s : Nat) : Int), ((l : Nat) : Int)) n = none) ∧
    (∀ (n : Nat), 2 ≤ n → ∀ (s l L : Nat), num_labellings s n = some L → L ≤ l →
      RankTree.unrank (((s : Nat) : Int), ((l : Nat) : Int)) n = none) ∧
    (∀ (s l : Nat), 1 ≤ l →
      RankTree.unrank (((s : Nat) : Int), ((l : Nat) : Int)) 1 = none) ∧
    (∀ (s : Nat), RankTree.unrank (((s : Nat) : Int), (0 : Int)) 1 =
      some (RankTree.mk [] 1 [some 0] none none)) := by
  refine ⟨?_, ?_, ?_, ?_, ?_⟩
  · intro n r h
    unfold RankTree.unrank
    rw [if_pos h]
  · intro n hn s l hs
    unfold RankTree.unrank
    rw [if_neg (by omega)]
    show (RankTree.shape_unrank s n).bind (fun u => u.label_unrank l) = none
    rw [shape_unrank_none n s hn hs]
    rfl
  · intro n hn s l L hL hle
    rcases Nat.lt_or_ge s (num_shapes n) with hs | hs
    · obtain ⟨t0, ht0, hwf0, hnl0, hsr0, hsm0⟩ :=
        shape_unrank_some n s (by omega) hs
      have hLval : L = t0.num_labellings := by
        unfold num_labellings at hL
        rw [ht0] at hL
        simp only [Option.map_some'] at hL
        exact (Option.some.injEq _ _ ▸ hL).symm
      have hchne : t0.children ≠ [] := by
        cases hwf0 with
        | leaf l0 ms ml =>
          exfalso
          have : (RankTree.mk [] 1 l0 ms ml).num_leaves = 1 := rfl
          omega
        | node c nn l0 ms ml hlen2 hsum hcwf hdet =>
          show c ≠ []
          intro h0
          rw [h0] at hlen2
          simp at hlen2
      unfold RankTree.unrank
      rw [if_neg (by omega)]
      show (RankTree.shape_unrank s n).bind (fun u => u.label_unrank l) = none
      rw [ht0]
      show t0.label_unrank l = none
      show label_unrank_fuel (t0.num_leaves + 1) t0 l
        (List.range t0.num_leaves) = none
      exact label_unrank_fuel_none t0.num_leaves t0 l (List.range t0.num_leaves)
        hwf0 hchne (List.length_range _) (by omega)
    · exfalso
      unfold num_labellings at hL
      rw [shape_unrank_none n s hn hs] at hL
      simp at hL
  · intro s l hl
    unfold RankTree.unrank
    rw [if_neg (by omega)]
    show (RankTree.shape_unrank s 1).bind (fun u => u.label_unrank l) = none
    have hsu : RankTree.shape_unrank s 1 =
        some (RankTree.mk [] 1 [none] (some s) none) := rfl
    rw [hsu]
    show label_unrank_fuel 2 (RankTree.mk [] 1 [none] (some s) none) l
      (List.range 1) = none
    show (if l ≠ 0 then none
      else some (RankTree.init [] (some ((List.range 1).headD 0)))) = none
    rw [if_pos (by omega)]
  · intro s
    unfold RankTree.unrank
    rw [if_neg (by omega)]
    rfl

theorem unrank_oob_amended_witness :
    (((-1 : Int), (0 : Int)).1 < 0 ∨ ((-1 : Int), (0 : Int)).2 < 0) ∧
    RankTree.unrank (-1, 0) 3 = none ∧
    (2 ≤ 2 ∧ num_shapes 2 ≤ 1 ∧
      RankTree.unrank (((1 : Nat) : Int), ((0 : Nat) : Int)) 2 = none) ∧
    (2 ≤ 3 ∧ num_labellings 0 3 = some 1 ∧ 1 ≤ 1 ∧
      RankTree.unrank (((0 : Nat) : Int), ((1 : Nat) : Int)) 3 = none) ∧
    (1 ≤ 2 ∧ RankTree.unrank (((0 : Nat) : Int), ((2 : Nat) : Int)) 1 = none) ∧
    RankTree.unrank (((7 : Nat) : Int), (0 : Int)) 1 =
      some (RankTree.mk [] 1 [some 0] none none) :=
  ⟨by decide,
   unrank_oob_amended.1 3 (-1, 0) (by decide),
   ⟨by decide, by decide, unrank_oob_amended.2.1 2 (by decide) 1 0 (by decide)⟩,
   ⟨by decide, by decide, by decide,
     unrank_oob_amended.2.2.1 3 (by decide) 0 1 1 (by decide) (by decide)⟩,
   ⟨by decide, unrank_oob_amended.2.2.2.1 0 2 (by decide)⟩,
   unrank_oob_amended.2.2.2.2 7⟩
